import Mathlib

/-!
# Congestion-aware grid router (`main.cpp`): embedding and verification

The definitions below are a shallow embedding of `src/main.cpp`.

Modelling conventions.

* Coordinates, grid sizes and usage counters are unbounded `Int`.  Where the
  32-bit range of `int` is observable, the arithmetic wraps explicitly: the
  expression `abs(a.x - b.x) + abs(a.y - b.y)` of the `Net` constructor and of
  `heuristic` is reduced modulo `2^32` after every operation (`manhattan32`;
  signed overflow is undefined in C++ and wraps on the usual targets), and
  `net.path.size() - 1` in `writeOutput`, computed in `size_t` and narrowed to
  `int`, wraps modulo `2^64` and `2^32`.
* `double` values are `Dbl`: a finite value (a rational), an infinity, or a
  NaN.  Every `+` and `*` on `Dbl` is the IEEE 754 binary64 operation: the
  exact result is rounded to the nearest representable value, ties to even,
  with gradual underflow and overflow to infinity (`Dbl.round`); each
  operation of an expression is rounded by itself, in source order.  The
  conversion `int -> double` is `Dbl.ofInt`.  Comparisons with a NaN are
  false.  The sign of a zero is not represented: no operation of the program
  distinguishes the two zeros.  `numeric_limits<double>::max()` is
  `dblMax = (2^53 - 1) * 2^971`.
* A cost "in the words of the specification" is a rational number computed
  without rounding from the values of the coefficients (`Dbl.val`).
* `vector<vector<T>>` is `List (List T)`, indexed `[y][x]`.  Indexing outside a
  vector is undefined behaviour in C++; the embedding returns `none` there.
* `Node*` is `NodePtr`: either `null` or a node record together with the
  (immutable) record its `parent` field points to.
* `std::priority_queue` and `std::sort` are library code whose tie-breaking is
  unspecified.  They are parameters (`OpenSet`, `SortAlgorithm`) carrying the
  contract of the C++ standard; theorems quantify over every implementation.
* `while (!openSet.empty())` is run with explicit fuel; `aStarRouting` supplies
  `loopFuel = 4 * rows * columns + 2` iterations and the development proves
  that this is never exhausted on a well-formed state.  `none` from the loop
  therefore means undefined behaviour (or exhausted fuel), never a normal
  result.
-/

namespace Router

/-! ## Data model -/

/-- Grid coordinate `struct Point { int x, y; }`. -/
structure Point where
  x : Int
  y : Int
deriving DecidableEq

/-- Record `struct Net`. -/
structure Net where
  id : Int
  source : Point
  destination : Point
  halfPerimeterWireLength : Int
  path : List Point
deriving DecidableEq

/-! ## Machine arithmetic -/

/-- Reduction of an integer to the 32-bit two's-complement range of `int`. -/
def wrap32 (z : Int) : Int := (z + 2147483648) % 4294967296 - 2147483648

/-- The `int` expression `abs(a.x - b.x) + abs(a.y - b.y)`, every operation
reduced to the range of `int`. -/
def manhattan32 (a b : Point) : Int :=
  wrap32 (wrap32 |wrap32 (a.x - b.x)| + wrap32 |wrap32 (a.y - b.y)|)

/-- Values of type `double`. -/
inductive Dbl where
  | fin (q : ℚ)
  | pinf
  | ninf
  | nan
deriving DecidableEq

/-- The power `2^k` for an integer exponent. -/
def pow2 (k : Int) : ℚ :=
  if 0 ≤ k then ((2 ^ k.toNat : Nat) : ℚ) else 1 / ((2 ^ (-k).toNat : Nat) : ℚ)

/-- Rounding of a rational to the nearest integer, ties to the even one. -/
def roundEven (m : ℚ) : Int :=
  let f := Rat.floor m
  let d := m - f
  if d < 1 / 2 then f else if 1 / 2 < d then f + 1 else if f % 2 = 0 then f else f + 1

/-- Binary logarithm of a positive natural number, rounded down (the second
argument is the number, the first bounds the number of halvings). -/
def log2Fuel : Nat → Nat → Nat
  | 0, _ => 0
  | fuel + 1, n => if n < 2 then 0 else log2Fuel fuel (n / 2) + 1

/-- The exponent `e` with `2^e ≤ |q| < 2^(e+1)`, for `q ≠ 0`. -/
def binade (q : ℚ) : Int :=
  let k : Int := (log2Fuel q.num.natAbs q.num.natAbs : Int) - (log2Fuel q.den q.den : Int)
  if pow2 k ≤ |q| then k else k - 1

/-- Rounding of an exact result to `double`: to the nearest value with a
53-bit significand and exponent at least -1022 (below that the spacing stays
`2^-1074`), ties to even; a result of magnitude `2^1024` or more is an
infinity. -/
def Dbl.round (q : ℚ) : Dbl :=
  if q = 0 then .fin 0
  else
    let e := max (binade q) (-1022)
    let ulp := pow2 (e - 52)
    let v := (roundEven (q / ulp) : ℚ) * ulp
    if pow2 1024 ≤ v then .pinf else if v ≤ -pow2 1024 then .ninf else .fin v

/-- Operator `+` on `double`. -/
def Dbl.add : Dbl → Dbl → Dbl
  | .fin a, .fin b => Dbl.round (a + b)
  | .nan, _ => .nan
  | _, .nan => .nan
  | .pinf, .ninf => .nan
  | .ninf, .pinf => .nan
  | .pinf, _ => .pinf
  | _, .pinf => .pinf
  | .ninf, _ => .ninf
  | _, .ninf => .ninf

/-- Operator `*` on `double`. -/
def Dbl.mul : Dbl → Dbl → Dbl
  | .fin a, .fin b => Dbl.round (a * b)
  | .nan, _ => .nan
  | _, .nan => .nan
  | .fin a, .pinf => if a = 0 then .nan else if 0 < a then .pinf else .ninf
  | .fin a, .ninf => if a = 0 then .nan else if 0 < a then .ninf else .pinf
  | .pinf, .fin b => if b = 0 then .nan else if 0 < b then .pinf else .ninf
  | .ninf, .fin b => if b = 0 then .nan else if 0 < b then .ninf else .pinf
  | .pinf, .pinf => .pinf
  | .ninf, .ninf => .pinf
  | .pinf, .ninf => .ninf
  | .ninf, .pinf => .ninf

/-- Operator `<` on `double`. -/
def Dbl.lt : Dbl → Dbl → Bool
  | .fin a, .fin b => decide (a < b)
  | .fin _, .pinf => true
  | .ninf, .fin _ => true
  | .ninf, .pinf => true
  | _, _ => false

/-- Conversion `int -> double`. -/
def Dbl.ofInt (z : Int) : Dbl := Dbl.round z

/-- The rational value of a finite `double` (0 for an infinity or a NaN). -/
def Dbl.val : Dbl → ℚ
  | .fin q => q
  | _ => 0

instance : Add Dbl := ⟨Dbl.add⟩

instance : Mul Dbl := ⟨Dbl.mul⟩

instance : LT Dbl := ⟨fun a b => Dbl.lt a b = true⟩

instance (a b : Dbl) : Decidable (a < b) :=
  inferInstanceAs (Decidable (Dbl.lt a b = true))

instance : IntCast Dbl := ⟨Dbl.ofInt⟩

/-- A literal `n` or `n.0` of the source. -/
instance (n : Nat) : OfNat Dbl n := ⟨.fin (n : ℚ)⟩

/-- Constructor `Net(int _id, Point src, Point dst)`: the path starts empty. -/
def Net.new (id : Int) (src dst : Point) : Net :=
  { id := id, source := src, destination := dst,
    halfPerimeterWireLength := manhattan32 src dst,
    path := [] }

/-- Enumeration `enum class Direction`. -/
inductive Direction where
  | NONE | UP | DOWN | LEFT | RIGHT
deriving DecidableEq

/-- Values of type `Node*`: the null pointer, or a pointer to a node record
whose `parent` field is again such a value. -/
inductive NodePtr where
  | null : NodePtr
  | node (position : Point) (gScore fScore : Dbl) (direction : Direction)
      (parent : NodePtr) : NodePtr
deriving DecidableEq

/-- Field access `p->fScore` (the null case never arises on queue entries). -/
def NodePtr.fScore : NodePtr → Dbl
  | .null => 0
  | .node _ _ f _ _ => f

/-- Field access `p->gScore`. -/
def NodePtr.gScore : NodePtr → Dbl
  | .null => 0
  | .node _ g _ _ _ => g

/-- Field access `p->parent`. -/
def NodePtr.parent : NodePtr → NodePtr
  | .null => .null
  | .node _ _ _ _ p => p

/-- Comparator `NodeComparator::operator()`: `a->fScore > b->fScore`. -/
def NodeComparator (a b : NodePtr) : Prop := a.fScore > b.fScore

/-- Comparator `NetComparator::operator()`. -/
def NetComparator (a b : Net) : Prop :=
  a.halfPerimeterWireLength > b.halfPerimeterWireLength

instance (a b : NodePtr) : Decidable (NodeComparator a b) := by
  unfold NodeComparator; infer_instance

instance (a b : Net) : Decidable (NetComparator a b) := by
  unfold NetComparator; infer_instance

/-- Function `indexToDirection`. -/
def indexToDirection (idx : Int) : Direction :=
  if idx = 0 then .UP
  else if idx = 1 then .DOWN
  else if idx = 2 then .LEFT
  else if idx = 3 then .RIGHT
  else .NONE

/-- Table `const int dy[4] = { 1, -1, 0, 0 }`. -/
def dy (i : Nat) : Int :=
  match i with
  | 0 => 1
  | 1 => -1
  | _ => 0

/-- Table `const int dx[4] = { 0, 0, -1, 1 }`. -/
def dx (i : Nat) : Int :=
  match i with
  | 2 => -1
  | 3 => 1
  | _ => 0

/-- The value of `numeric_limits<double>::max()`. -/
@[irreducible]
def dblMaxQ : ℚ := (2 ^ 53 - 1) * 2 ^ 971

/-- Constant `numeric_limits<double>::max()`. -/
@[irreducible]
def dblMax : Dbl := .fin dblMaxQ

/-! ## Two-dimensional tables -/

/-- Read `t[y][x]`; `none` when an index is out of range. -/
def tget {α : Type} (t : List (List α)) (y x : Int) : Option α :=
  if 0 ≤ y ∧ 0 ≤ x then
    match t[y.toNat]? with
    | some row => row[x.toNat]?
    | none => none
  else none

/-- Write `t[y][x] = v`; `none` when an index is out of range. -/
def tset {α : Type} (t : List (List α)) (y x : Int) (v : α) : Option (List (List α)) :=
  if 0 ≤ y ∧ 0 ≤ x then
    match t[y.toNat]? with
    | some row =>
      if x.toNat < row.length then some (t.set y.toNat (row.set x.toNat v)) else none
    | none => none
  else none

/-- The loop `for (y = 0; y < n; ++y) fill(t[y].begin(), t[y].end(), v)`. -/
def fillRows {α : Type} (n : Nat) (t : List (List α)) (v : α) : Option (List (List α)) :=
  match n, t with
  | 0, t => some t
  | _ + 1, [] => none
  | n + 1, row :: rest =>
    match fillRows n rest v with
    | some rest' => some (List.replicate row.length v :: rest')
    | none => none

/-- Call `t.assign(rows, vector<T>(columns, v))`. -/
def assignTable {α : Type} (rows columns : Int) (v : α) : List (List α) :=
  List.replicate rows.toNat (List.replicate columns.toNat v)

/-! ## Library parameters -/

/-- The contract of `std::priority_queue<Node*, vector<Node*>, NodeComparator>`:
`pop` is `top()` followed by `pop()`; it returns an entry that the comparator
does not rank after any other entry, and removes exactly that entry. -/
structure OpenSet where
  Q : Type
  empty : Q
  push : Q → NodePtr → Q
  pop : Q → Option (NodePtr × Q)
  toList : Q → List NodePtr
  toList_empty : toList empty = []
  toList_push : ∀ q n, (toList (push q n)).Perm (n :: toList q)
  pop_none : ∀ q, pop q = none ↔ toList q = []
  pop_some : ∀ q n q1, pop q = some (n, q1) →
    (toList q).Perm (n :: toList q1) ∧ ∀ m ∈ toList q, ¬ NodeComparator n m

/-- The contract of `std::sort(first, last, NetComparator())`: the result is a
rearrangement of the input in which no later element is ranked before an
earlier one. -/
structure SortAlgorithm where
  sort : List Net → List Net
  perm : ∀ l, (sort l).Perm l
  sorted : ∀ l, (sort l).Pairwise (fun a b => ¬ NetComparator b a)

/-! ## Program state -/

/-- The global variables of `main.cpp`. -/
structure Globals where
  rows : Int
  columns : Int
  propagationLoss : Dbl
  crossingLoss : Dbl
  bendingLoss : Dbl
  cellUsage : List (List Int)
  gScores : List (List Dbl)
  visitedCells : List (List Bool)
  nets : List Net
deriving DecidableEq

/-- Function `heuristic`, with the global `propagationLoss` passed explicitly:
the `int` sum is converted to `double` and multiplied. -/
def heuristic (propagationLoss : Dbl) (a b : Point) : Dbl :=
  ((manhattan32 a b : Int) : Dbl) * propagationLoss

/-- The local state of the `while` loop of `aStarRouting`. -/
structure Search (pq : OpenSet) where
  openSet : pq.Q
  gScores : List (List Dbl)
  visitedCells : List (List Bool)

/-- The expression `propagationLoss + crossingLoss * crossingCount +
bendingLoss * bendingCount` of the neighbour loop, for a move in direction
index `i` from a node that was entered with direction `dir`, into a cell
whose usage counter is `usage`; the two `int` counts are converted to
`double` and the expression is evaluated from left to right. -/
def waveguideLoss (g : Globals) (dir : Direction) (i : Nat) (usage : Int) : Dbl :=
  let crossingCount : Int := max 0 usage
  let newDirection := indexToDirection i
  let bendingCount : Int := if dir = Direction.NONE ∨ dir = newDirection then 0 else 1
  g.propagationLoss + g.crossingLoss * crossingCount + g.bendingLoss * bendingCount

/-- One pass of the body of `for (int i = 0; i < 4; i++)` for the current node
`currentNode` (given with its fields). -/
def relax (pq : OpenSet) (g : Globals) (dest : Point) (currentNode : NodePtr) (i : Nat)
    (s : Search pq) : Option (Search pq) :=
  match currentNode with
  | .null => none
  | .node pos gCur _ dir _ =>
    let newX := pos.x + dx i
    let newY := pos.y + dy i
    if newX < 0 ∨ newX ≥ g.columns ∨ newY < 0 ∨ newY ≥ g.rows then some s
    else
      match tget s.visitedCells newY newX with
      | none => none
      | some true => some s
      | some false =>
        match tget g.cellUsage newY newX with
        | none => none
        | some usage =>
          let tentativeGScore := gCur + waveguideLoss g dir i usage
          match tget s.gScores newY newX with
          | none => none
          | some old =>
            if tentativeGScore < old then
              match tset s.gScores newY newX tentativeGScore with
              | none => none
              | some gs =>
                let estimatedTotal :=
                  tentativeGScore + heuristic g.propagationLoss ⟨newX, newY⟩ dest
                some { openSet := pq.push s.openSet
                         (.node ⟨newX, newY⟩ tentativeGScore estimatedTotal
                           (indexToDirection i) currentNode),
                       gScores := gs,
                       visitedCells := s.visitedCells }
            else some s

/-- The neighbour loop `for (int i = 0; i < 4; i++)`. -/
def expand (pq : OpenSet) (g : Globals) (dest : Point) (currentNode : NodePtr)
    (s : Search pq) : Option (Search pq) :=
  (relax pq g dest currentNode 0 s).bind fun s0 =>
  (relax pq g dest currentNode 1 s0).bind fun s1 =>
  (relax pq g dest currentNode 2 s1).bind fun s2 =>
  relax pq g dest currentNode 3 s2

/-- What one test of the loop condition plus one pass of the loop body does. -/
inductive Iteration (pq : OpenSet) where
  | undefined : Iteration pq
  | exhausted : Iteration pq
  | found (s : Search pq) (goalNode : NodePtr) : Iteration pq
  | next (s : Search pq) : Iteration pq

/-- One iteration of `while (!openSet.empty())`. -/
def iterate (pq : OpenSet) (g : Globals) (dest : Point) (s : Search pq) : Iteration pq :=
  match pq.pop s.openSet with
  | none => .exhausted
  | some (currentNode, q) =>
    match currentNode with
    | .null => .undefined
    | .node pos _ _ _ _ =>
      match tget s.visitedCells pos.y pos.x with
      | none => .undefined
      | some true => .next { s with openSet := q }
      | some false =>
        match tset s.visitedCells pos.y pos.x true with
        | none => .undefined
        | some vis =>
          let s1 : Search pq := { openSet := q, gScores := s.gScores, visitedCells := vis }
          if pos.x = dest.x ∧ pos.y = dest.y then .found s1 currentNode
          else
            match expand pq g dest currentNode s1 with
            | none => .undefined
            | some s2 => .next s2

/-- The `while` loop, with fuel.  The result is the final loop state and the
value of `goalNode` (`null` when the open set emptied). -/
def aStarLoop (pq : OpenSet) (g : Globals) (dest : Point) :
    Nat → Search pq → Option (Search pq × NodePtr)
  | 0, _ => none
  | fuel + 1, s =>
    match iterate pq g dest s with
    | .undefined => none
    | .exhausted => some (s, .null)
    | .found s1 goalNode => some (s1, goalNode)
    | .next s1 => aStarLoop pq g dest fuel s1

/-- The loop `for (Node* p = goalNode; p; p = p->parent)
reversePath.push_back(p->position)`. -/
def reversePath : NodePtr → List Point
  | .null => []
  | .node pos _ _ _ parent => pos :: reversePath parent

/-- The loop `for (const auto &point : net.path) cellUsage[point.y][point.x]++`. -/
def incrementUsage (usage : List (List Int)) : List Point → Option (List (List Int))
  | [] => some usage
  | point :: rest =>
    match tget usage point.y point.x with
    | none => none
    | some u =>
      match tset usage point.y point.x (u + 1) with
      | none => none
      | some usage1 => incrementUsage usage1 rest

/-- The fuel `aStarRouting` gives the `while` loop: every cell is finalized
at most once and pushes at most four entries. -/
def loopFuel (g : Globals) : Nat := 4 * g.rows.toNat * g.columns.toNat + 2

/-- Lines 133-153 of `aStarRouting`: the tables are reset, the start node is
created, its g-score is recorded and it is pushed on the empty open set. -/
def initialSearch (pq : OpenSet) (g : Globals) (net : Net) : Option (Search pq) :=
  match fillRows g.rows.toNat g.gScores dblMax,
        fillRows g.rows.toNat g.visitedCells false with
  | some gs0, some vis0 =>
    let startNode : NodePtr :=
      .node net.source 0 (heuristic g.propagationLoss net.source net.destination)
        Direction.NONE .null
    match tset gs0 net.source.y net.source.x 0 with
    | none => none
    | some gs1 =>
      some { openSet := pq.push pq.empty startNode, gScores := gs1, visitedCells := vis0 }
  | _, _ => none

/-- The first part of `aStarRouting` (lines 133-212): table reset, start node,
and the `while` loop.  The result is the final loop state and `goalNode`. -/
def search (pq : OpenSet) (g : Globals) (net : Net) : Option (Search pq × NodePtr) :=
  match initialSearch pq g net with
  | none => none
  | some s0 => aStarLoop pq g net.destination (loopFuel g) s0

/-- The value of the local variable `goalNode` when the `while` loop of
`aStarRouting` has ended: null when no path was found. -/
def goalNode (pq : OpenSet) (g : Globals) (net : Net) : Option NodePtr :=
  (search pq g net).map Prod.snd

/-- Function `aStarRouting(Net &net)`: the new globals and the updated net.
When `goalNode` is null the function returns after the warning, leaving the
net and `cellUsage` as they were. -/
def aStarRouting (pq : OpenSet) (g : Globals) (net : Net) : Option (Globals × Net) :=
  match search pq g net with
  | none => none
  | some (s, goalNode) =>
    let g1 : Globals := { g with gScores := s.gScores, visitedCells := s.visitedCells }
    match goalNode with
    | .null => some (g1, net)
    | .node _ _ _ _ _ =>
      let path := (reversePath goalNode).reverse
      match incrementUsage g.cellUsage path with
      | none => none
      | some usage => some ({ g1 with cellUsage := usage }, { net with path := path })

/-- The loop `for (auto &net : nets) aStarRouting(net)` of `main`. -/
def routeAll (pq : OpenSet) (g : Globals) : List Net → Option (Globals × List Net)
  | [] => some (g, [])
  | net :: rest =>
    match aStarRouting pq g net with
    | none => none
    | some (g1, net1) =>
      match routeAll pq g1 rest with
      | none => none
      | some (g2, rest1) => some (g2, net1 :: rest1)

/-- The statement `int segmentCount = net.path.size() - 1`: the subtraction is
done in 64-bit `size_t` and wraps modulo `2^64` (so `0 - 1` is `2^64 - 1`,
which is `(size + 2^64 - 1) % 2^64`); the result is narrowed to 32-bit `int`. -/
def segmentCount (path : List Point) : Int :=
  let size : Nat := path.length % 2 ^ 64
  let sizeMinusOne : Nat := if size = 0 then 2 ^ 64 - 1 else size - 1
  let low : Nat := sizeMinusOne % 2 ^ 32
  if low < 2 ^ 31 then (low : Int) else (low : Int) - 2 ^ 32

/-- One output line `<x1> <y1> <x2> <y2>`. -/
structure Segment where
  x1 : Int
  y1 : Int
  x2 : Int
  y2 : Int
deriving DecidableEq

/-- The output of one net: the header `<net_id> <segment_count>` and the
segment lines that follow it. -/
structure NetOutput where
  id : Int
  segmentCount : Int
  segments : List Segment
deriving DecidableEq

/-- The loop `for (int i = 0; i < segmentCount; i++)` of one net, with `n`
passes left and loop variable `i`: each pass emits
`p1.x p1.y p2.x p2.y` for `p1 = path[i]`, `p2 = path[i + 1]`. -/
def segmentLinesFrom (path : List Point) : Nat → Nat → Option (List Segment)
  | 0, _ => some []
  | n + 1, i =>
    match path[i]?, path[i + 1]? with
    | some p1, some p2 =>
      match segmentLinesFrom path n (i + 1) with
      | some lines => some (⟨p1.x, p1.y, p2.x, p2.y⟩ :: lines)
      | none => none
    | _, _ => none

/-- The segment lines of one net (none at all when `segmentCount ≤ 0`). -/
def segmentLines (path : List Point) : Option (List Segment) :=
  segmentLinesFrom path (segmentCount path).toNat 0

/-- Function `writeOutput`: for each net of the global `nets`, in container
order, the header `(id, segmentCount)` and the segment lines. -/
def writeOutput : List Net → Option (List NetOutput)
  | [] => some []
  | net :: rest =>
    match segmentLines net.path with
    | none => none
    | some lines =>
      match writeOutput rest with
      | none => none
      | some out => some (⟨net.id, segmentCount net.path, lines⟩ :: out)

/-- The net ids of the header lines of an output, in the order written. -/
def outputIds (out : List NetOutput) : List Int :=
  out.map fun e => e.id

/-- The parsed content of an input file in the documented layout: the grid
directive, the three loss directives (the values `stod` returned), then the
net records. -/
structure Input where
  columns : Int
  rows : Int
  propagationLoss : Dbl
  crossingLoss : Dbl
  bendingLoss : Dbl
  records : List (Int × Int × Int × Int × Int)

/-- The net built by `nets.emplace_back(id, Point(x1, y1), Point(x2, y2))`. -/
def recordNet (r : Int × Int × Int × Int × Int) : Net :=
  Net.new r.1 ⟨r.2.1, r.2.2.1⟩ ⟨r.2.2.2.1, r.2.2.2.2⟩

/-- The record loop of `initialize` (lines 120-126): each record
`id x1 y1 x2 y2` appends a net and increments the usage of both endpoints. -/
def readNetRecords (g : Globals) : List (Int × Int × Int × Int × Int) → Option Globals
  | [] => some g
  | (id, x1, y1, x2, y2) :: rest =>
    match tget g.cellUsage y1 x1 with
    | none => none
    | some u1 =>
      match tset g.cellUsage y1 x1 (u1 + 1) with
      | none => none
      | some usage1 =>
        match tget usage1 y2 x2 with
        | none => none
        | some u2 =>
          match tset usage1 y2 x2 (u2 + 1) with
          | none => none
          | some usage2 =>
            readNetRecords
              { g with nets := g.nets ++ [recordNet (id, x1, y1, x2, y2)], cellUsage := usage2 }
              rest

/-- Function `initialize` of `main.cpp` on a parsed input: the grid directive
sizes the three tables, the loss directives set the coefficients, and the
net-count directive runs the record loop. -/
def initializeGlobals (inp : Input) : Option Globals :=
  readNetRecords
    { rows := inp.rows, columns := inp.columns,
      propagationLoss := inp.propagationLoss,
      crossingLoss := inp.crossingLoss,
      bendingLoss := inp.bendingLoss,
      cellUsage := assignTable inp.rows inp.columns 0,
      gScores := assignTable inp.rows inp.columns dblMax,
      visitedCells := assignTable inp.rows inp.columns false,
      nets := [] }
    inp.records

/-- The order in which `main` passes the nets to `aStarRouting`: the global
`nets` after `sort(nets.begin(), nets.end(), NetComparator())`. -/
def routingOrder (srt : SortAlgorithm) (nets : List Net) : List Net := srt.sort nets

/-- Function `main` (lines 273-281): initialize, sort the global `nets` in
place, route every net in container order, write the output. -/
def main (pq : OpenSet) (srt : SortAlgorithm) (inp : Input) : Option (List NetOutput) :=
  match initializeGlobals inp with
  | none => none
  | some g =>
    let sorted := routingOrder srt g.nets
    match routeAll pq { g with nets := sorted } sorted with
    | none => none
    | some (_, routed) => writeOutput routed

/-! ## Concrete library instances (used to evaluate the program) -/

/-- The order in which the list queues extract entries: by increasing
f-score, an entry with a NaN f-score before every other one (the comparator
ranks no entry before a NaN). -/
def Dbl.before : Dbl → Dbl → Bool
  | .nan, .nan => false
  | .nan, _ => true
  | _, .nan => false
  | a, b => Dbl.lt a b

/-- Extraction of the first entry of least `fScore` from a list. -/
def popMin : List NodePtr → Option (NodePtr × List NodePtr)
  | [] => none
  | n :: rest =>
    match popMin rest with
    | none => some (n, [])
    | some (m, rest1) =>
      if Dbl.before m.fScore n.fScore then some (m, n :: rest1) else some (n, rest)

/-- A priority queue kept as an unordered list. -/
def listOpenSet : OpenSet where
  Q := List NodePtr
  empty := []
  push q n := n :: q
  pop := popMin
  toList q := q
  toList_empty := rfl
  toList_push _ _ := List.Perm.refl _
  pop_none := by
    intro q
    cases q with
    | nil => simp [popMin]
    | cons n rest =>
      simp only [popMin]
      cases h : popMin rest with
      | none => simp
      | some p =>
        obtain ⟨m, r⟩ := p
        by_cases hc : Dbl.before m.fScore n.fScore = true <;> simp [hc]
  pop_some := by
    have hirr : ∀ a : Dbl, Dbl.before a a = false := by
      intro a
      cases a <;> simp [Dbl.before, Dbl.lt]
    have hasym : ∀ a b : Dbl, Dbl.before a b = true → Dbl.before b a = false := by
      intro a b
      cases a <;> cases b <;> simp [Dbl.before, Dbl.lt]
      intro h
      exact le_of_lt h
    have htrans : ∀ a b c : Dbl, Dbl.before a b = false → Dbl.before b c = false →
        Dbl.before a c = false := by
      intro a b c
      cases a <;> cases b <;> cases c <;> simp [Dbl.before, Dbl.lt]
      intro h1 h2
      exact le_trans h2 h1
    have hlt : ∀ a b : Dbl, a < b → Dbl.before a b = true := by
      intro a b h
      have h1 : Dbl.lt a b = true := h
      cases a <;> cases b <;> simp [Dbl.before, Dbl.lt] at h1 ⊢
      exact h1
    have key : ∀ (q : List NodePtr) (n : NodePtr) (q1 : List NodePtr),
        popMin q = some (n, q1) →
        q.Perm (n :: q1) ∧ ∀ m ∈ q, Dbl.before m.fScore n.fScore = false := by
      intro q
      induction q with
      | nil => intro n q1 h; simp [popMin] at h
      | cons a rest ih =>
        intro n q1 h
        simp only [popMin] at h
        cases hr : popMin rest with
        | none =>
          rw [hr] at h
          simp only [Option.some.injEq, Prod.mk.injEq] at h
          obtain ⟨rfl, rfl⟩ := h
          have hrest : rest = [] := by
            cases rest with
            | nil => rfl
            | cons b r =>
              simp only [popMin] at hr
              cases h2 : popMin r with
              | none => rw [h2] at hr; simp at hr
              | some p =>
                obtain ⟨m, r1⟩ := p
                rw [h2] at hr
                by_cases hc : Dbl.before m.fScore b.fScore = true <;> simp [hc] at hr
          subst hrest
          refine ⟨List.Perm.refl _, ?_⟩
          intro m hm
          rw [List.mem_singleton] at hm
          subst hm
          exact hirr _
        | some p =>
          obtain ⟨m, r⟩ := p
          rw [hr] at h
          obtain ⟨hp, hmin⟩ := ih m r hr
          by_cases hc : Dbl.before m.fScore a.fScore = true
          · simp only [hc, if_true, Option.some.injEq, Prod.mk.injEq] at h
            obtain ⟨rfl, rfl⟩ := h
            refine ⟨(List.Perm.cons a hp).trans (List.Perm.swap _ _ _), ?_⟩
            intro k hk
            rcases List.mem_cons.1 hk with rfl | hk
            · exact hasym _ _ hc
            · exact hmin k hk
          · simp only [hc, Bool.false_eq_true, if_false, Option.some.injEq,
              Prod.mk.injEq] at h
            obtain ⟨rfl, rfl⟩ := h
            refine ⟨List.Perm.refl _, ?_⟩
            intro k hk
            rcases List.mem_cons.1 hk with rfl | hk
            · exact hirr _
            · exact htrans _ _ _ (hmin k hk) (by simpa using hc)
    intro q n q1 h
    obtain ⟨hp, hmin⟩ := key q n q1 h
    refine ⟨hp, ?_⟩
    intro m hm hcmp
    have := hlt m.fScore n.fScore hcmp
    rw [hmin m hm] at this
    exact Bool.noConfusion this

/-- The entry `popMin` extracts has an f-score strictly below that of every
other entry: the top of the open set is not tied. -/
def uniqueTop (q : List NodePtr) : Bool :=
  match popMin q with
  | none => true
  | some (n, rest) => rest.all fun m => decide (n.fScore < m.fScore)

/-- The loop on the list queue never extracts from a tied top. -/
def tieFreeLoop (g : Globals) (dest : Point) : Nat → Search listOpenSet → Bool
  | 0, _ => true
  | fuel + 1, s =>
    uniqueTop s.openSet &&
      match iterate listOpenSet g dest s with
      | .next s1 => tieFreeLoop g dest fuel s1
      | _ => true

/-- The search for `net` never extracts from a tied top, so its course does
not depend on how the priority queue orders equal f-scores. -/
def tieFree (g : Globals) (net : Net) : Bool :=
  match initialSearch listOpenSet g net with
  | none => true
  | some s0 => tieFreeLoop g net.destination (loopFuel g) s0

/-- A loop state over any priority queue and a loop state over the list
queue hold the same tables and the same entries. -/
def SimRel (pq : OpenSet) (s : Search pq) (t : Search listOpenSet) : Prop :=
  s.gScores = t.gScores ∧ s.visitedCells = t.visitedCells ∧
  (pq.toList s.openSet).Perm (listOpenSet.toList t.openSet)

/-- The order "`a` may stand before `b`" induced by `NetComparator`. -/
def netBefore (a b : Net) : Prop := ¬ NetComparator b a

instance : DecidableRel netBefore := fun a b => by
  unfold netBefore; infer_instance

/-- Insertion sort by `NetComparator`, one admissible behaviour of `std::sort`. -/
def insertionSortAlg : SortAlgorithm where
  sort l := l.insertionSort netBefore
  perm l := List.perm_insertionSort netBefore l
  sorted l := by
    haveI : IsTotal Net netBefore :=
      ⟨fun a b => by unfold netBefore NetComparator; omega⟩
    haveI : IsTrans Net netBefore :=
      ⟨fun a b c h1 h2 => by unfold netBefore NetComparator at *; omega⟩
    exact List.sorted_insertionSort netBefore l

/-! ## Concrete inputs -/

/-- A 3x1 grid with a short net (id 1) listed before a long net (id 2). -/
def swapInput : Input :=
  { columns := 3, rows := 1, propagationLoss := 1, crossingLoss := 0, bendingLoss := 0,
    records := [(1, 0, 0, 1, 0), (2, 0, 0, 2, 0)] }

/-- A 2x1 grid with one net and `propagation loss` equal to the largest
finite `double`. -/
def hugeLossInput : Input :=
  { columns := 2, rows := 1, propagationLoss := dblMax, crossingLoss := 0, bendingLoss := 0,
    records := [(1, 0, 0, 1, 0)] }

/-- A 3x2 grid (rows `y = 0` and `y = 1`) with coefficients 1, 1, 3: cell
(2,0) carries usage 10, cell (0,1) usage 1, the endpoints (0,0) and (2,1)
usage 1. -/
def bendGlobals : Globals :=
  { rows := 2, columns := 3, propagationLoss := 1, crossingLoss := 1, bendingLoss := 3,
    cellUsage := [[1, 0, 10], [1, 0, 1]],
    gScores := assignTable 2 3 dblMax,
    visitedCells := assignTable 2 3 false,
    nets := [] }

/-- The net from (0,0) to (2,1). -/
def bendNet : Net := Net.new 1 ⟨0, 0⟩ ⟨2, 1⟩

/-- A 2x1 grid with coefficients 1, 0, 0 and usage 1 on both cells. -/
def lineGlobals : Globals :=
  { rows := 1, columns := 2, propagationLoss := 1, crossingLoss := 0, bendingLoss := 0,
    cellUsage := [[1, 1]],
    gScores := assignTable 1 2 dblMax,
    visitedCells := assignTable 1 2 false,
    nets := [] }

/-- The net from (0,0) to (1,0). -/
def lineNet : Net := Net.new 1 ⟨0, 0⟩ ⟨1, 0⟩

/-- The goal node of the search for `lineNet` in `lineGlobals`. -/
def lineGoal : NodePtr :=
  .node ⟨1, 0⟩ 1 1 Direction.RIGHT (.node ⟨0, 0⟩ 0 1 Direction.NONE .null)

/-- The globals after routing `lineNet` in `lineGlobals`. -/
def lineGlobalsRouted : Globals :=
  { lineGlobals with cellUsage := [[2, 2]], gScores := [[0, 1]],
                     visitedCells := [[true, true]] }

/-- The net `lineNet` after routing. -/
def lineNetRouted : Net := { lineNet with path := [⟨0, 0⟩, ⟨1, 0⟩] }

/-- A net of the 2x1 grid whose destination (5,0) lies outside the grid. -/
def strayNet : Net := Net.new 2 ⟨0, 0⟩ ⟨5, 0⟩

/-- The globals after `initialize` has read `hugeLossInput`. -/
def hugeLossGlobals : Globals :=
  { rows := 1, columns := 2, propagationLoss := dblMax, crossingLoss := 0, bendingLoss := 0,
    cellUsage := [[1, 1]],
    gScores := assignTable 1 2 dblMax,
    visitedCells := assignTable 1 2 false,
    nets := [lineNet] }

/-- The globals after the failed search for `lineNet` in `hugeLossGlobals`:
only the source was finalized. -/
def hugeLossGlobalsAfter : Globals :=
  { hugeLossGlobals with gScores := [[0, dblMax]], visitedCells := [[true, false]] }

/-- The globals after routing `bendNet` in `bendGlobals`. -/
def bendGlobalsRouted : Globals :=
  { bendGlobals with cellUsage := [[2, 1, 10], [1, 1, 2]],
                     gScores := [[0, 1, 12], [2, 5, 10]],
                     visitedCells := [[true, true, false], [true, true, true]] }

/-- The net `bendNet` after routing. -/
def bendNetRouted : Net := { bendNet with path := [⟨0, 0⟩, ⟨1, 0⟩, ⟨1, 1⟩, ⟨2, 1⟩] }

/-! ## Specification vocabulary -/

/-- The cell lies inside the grid: `0 ≤ x < columns` and `0 ≤ y < rows`. -/
def InGrid (g : Globals) (p : Point) : Prop :=
  0 ≤ p.x ∧ p.x < g.columns ∧ 0 ≤ p.y ∧ p.y < g.rows

instance (g : Globals) (p : Point) : Decidable (InGrid g p) := by
  unfold InGrid; infer_instance

/-- A table has `rows` rows of `columns` entries each. -/
def HasDims {α : Type} (t : List (List α)) (rows columns : Int) : Prop :=
  t.length = rows.toNat ∧ ∀ row ∈ t, row.length = columns.toNat

instance {α : Type} (t : List (List α)) (rows columns : Int) :
    Decidable (HasDims t rows columns) := by
  unfold HasDims; infer_instance

/-- The three tables have the dimensions of the grid, as after the grid
directive of `initialize`. -/
def WellFormed (g : Globals) : Prop :=
  HasDims g.cellUsage g.rows g.columns ∧
  HasDims g.gScores g.rows g.columns ∧
  HasDims g.visitedCells g.rows g.columns

instance (g : Globals) : Decidable (WellFormed g) := by
  unfold WellFormed; infer_instance

/-- Two points differ by exactly 1 in exactly one coordinate. -/
def Adjacent (p q : Point) : Prop :=
  (|p.x - q.x| = 1 ∧ p.y = q.y) ∨ (p.x = q.x ∧ |p.y - q.y| = 1)

instance (p q : Point) : Decidable (Adjacent p q) := by
  unfold Adjacent; infer_instance

/-- Every two consecutive points of the path are adjacent. -/
def FourConnected : List Point → Prop
  | p :: q :: rest => Adjacent p q ∧ FourConnected (q :: rest)
  | _ => True

/-- Decision procedure for `FourConnected`. -/
def decFourConnected : (path : List Point) → Decidable (FourConnected path)
  | [] => isTrue trivial
  | [_] => isTrue trivial
  | p :: q :: rest =>
    match (inferInstance : Decidable (Adjacent p q)), decFourConnected (q :: rest) with
    | isTrue h1, isTrue h2 => isTrue ⟨h1, h2⟩
    | isFalse h1, _ => isFalse fun h => h1 h.1
    | _, isFalse h2 => isFalse fun h => h2 h.2

instance (path : List Point) : Decidable (FourConnected path) := decFourConnected path

/-- A 4-connected in-grid path from `src` to `dst`. -/
def IsRoute (g : Globals) (src dst : Point) (path : List Point) : Prop :=
  path.head? = some src ∧ path.getLast? = some dst ∧
  FourConnected path ∧ ∀ p ∈ path, InGrid g p

instance (g : Globals) (src dst : Point) (path : List Point) :
    Decidable (IsRoute g src dst path) := by
  unfold IsRoute; infer_instance

/-- The usage counter of a cell (0 outside the table). -/
def usageAt (g : Globals) (p : Point) : Int :=
  (tget g.cellUsage p.y p.x).getD 0

/-- The direction of the move from `p` to the adjacent point `q`. -/
def moveDirection (p q : Point) : Direction :=
  if q.x = p.x ∧ q.y = p.y + 1 then .UP
  else if q.x = p.x ∧ q.y = p.y - 1 then .DOWN
  else if q.x = p.x - 1 ∧ q.y = p.y then .LEFT
  else if q.x = p.x + 1 ∧ q.y = p.y then .RIGHT
  else .NONE

/-- Step cost in the words of the specification: `propagationLoss +
crossingLoss * targetCellUsage`, plus `bendingLoss` when the current
direction is defined and differs from the new one; an exact rational, computed
from the values of the coefficients without rounding. -/
def stepCost (g : Globals) (currentDirection newDirection : Direction)
    (targetCellUsage : Int) : ℚ :=
  g.propagationLoss.val + g.crossingLoss.val * targetCellUsage +
    (if currentDirection ≠ Direction.NONE ∧ currentDirection ≠ newDirection
     then g.bendingLoss.val else 0)

/-- Sum of the step costs along a path that was entered with direction `dir`. -/
def pathCostFrom (g : Globals) : Direction → List Point → ℚ
  | dir, p :: q :: rest =>
    stepCost g dir (moveDirection p q) (usageAt g q) +
      pathCostFrom g (moveDirection p q) (q :: rest)
  | _, _ => 0

/-- Total cost of a path: the first step carries no bend penalty. -/
def pathCost (g : Globals) (path : List Point) : ℚ :=
  pathCostFrom g Direction.NONE path

/-- Every usage counter of the table is non-negative. -/
def UsageNonneg (g : Globals) : Prop :=
  ∀ row ∈ g.cellUsage, ∀ u ∈ row, (0 : Int) ≤ u

instance (g : Globals) : Decidable (UsageNonneg g) := by
  unfold UsageNonneg; infer_instance


/-! ## Invariant vocabulary -/

/-- The nodes the search for `net` can create: the start node, and every
node the neighbour loop pushes for a move in direction index `i` from such a
node into an in-grid cell with usage counter `usage`. -/
inductive NodeOK (g : Globals) (net : Net) : NodePtr → Prop where
  | start : NodeOK g net
      (.node net.source 0 (heuristic g.propagationLoss net.source net.destination)
        Direction.NONE .null)
  | step (pos : Point) (gc fc : Dbl) (dir : Direction) (par : NodePtr) (i : Nat)
      (usage : Int) :
      NodeOK g net (.node pos gc fc dir par) → i < 4 →
      InGrid g ⟨pos.x + dx i, pos.y + dy i⟩ →
      tget g.cellUsage (pos.y + dy i) (pos.x + dx i) = some usage →
      NodeOK g net
        (.node ⟨pos.x + dx i, pos.y + dy i⟩ (gc + waveguideLoss g dir i usage)
          (gc + waveguideLoss g dir i usage +
            heuristic g.propagationLoss ⟨pos.x + dx i, pos.y + dy i⟩ net.destination)
          (indexToDirection i) (.node pos gc fc dir par))

/-- The cells on the parent chain of a node are pairwise distinct and all
finalized. -/
def AncOK (vis : List (List Bool)) (n : NodePtr) : Prop :=
  (reversePath n.parent).Nodup ∧
  ∀ c ∈ reversePath n.parent, tget vis c.y c.x = some true

/-- Loop invariant on the open set: every entry was created by the search and
hangs below a chain of distinct finalized cells. -/
def Basic (pq : OpenSet) (g : Globals) (net : Net) (s : Search pq) : Prop :=
  ∀ n ∈ pq.toList s.openSet, NodeOK g net n ∧ AncOK s.visitedCells n

/-- A table is readable exactly at the cells of the grid. -/
def TableDims {α : Type} (g : Globals) (t : List (List α)) : Prop :=
  ∀ y x, (tget t y x).isSome ↔ InGrid g ⟨x, y⟩

/-- The cells of the grid, as pairs `(x, y)`. -/
def gridCells (g : Globals) : Finset (Int × Int) :=
  Finset.Ico 0 g.columns ×ˢ Finset.Ico 0 g.rows

/-- The grid cells that are not finalized yet. -/
def unvisited (g : Globals) (vis : List (List Bool)) : Finset (Int × Int) :=
  (gridCells g).filter fun c => tget vis c.2 c.1 = some false

/-- Termination measure of the loop: the entries of the open set plus four
for every cell still to be finalized. -/
def potential (pq : OpenSet) (g : Globals) (s : Search pq) : Nat :=
  (pq.toList s.openSet).length + 4 * (unvisited g s.visitedCells).card

/-- Loop invariant for totality: the per-search tables have the grid's
dimensions and the open set satisfies `Basic`. -/
def Shaped (pq : OpenSet) (g : Globals) (net : Net) (s : Search pq) : Prop :=
  TableDims g s.gScores ∧ TableDims g s.visitedCells ∧ Basic pq g net s

/-- The g-score recorded for a cell is finite and below the sentinel. -/
def LowAt (gs : List (List Dbl)) (p : Point) : Prop :=
  ∃ v : ℚ, tget gs p.y p.x = some (.fin v) ∧ v < dblMaxQ

/-- Every recorded g-score is a finite value. -/
def FinTable (gs : List (List Dbl)) : Prop :=
  ∀ y x w, tget gs y x = some w → ∃ v : ℚ, w = .fin v

/-- Every cell that is not finalized but has a g-score below the sentinel has
an entry in the open set. -/
def Covered (pq : OpenSet) (g : Globals) (s : Search pq) : Prop :=
  ∀ p, InGrid g p → tget s.visitedCells p.y p.x = some false → LowAt s.gScores p →
    ∃ gc fc dir par, NodePtr.node p gc fc dir par ∈ pq.toList s.openSet

/-- The neighbour of `p` in direction index `i`, when inside the grid, is
finalized or has a g-score below the sentinel. -/
def Closed (g : Globals) (vis : List (List Bool)) (gs : List (List Dbl)) (p : Point)
    (i : Nat) : Prop :=
  InGrid g ⟨p.x + dx i, p.y + dy i⟩ →
    tget vis (p.y + dy i) (p.x + dx i) = some true ∨ LowAt gs ⟨p.x + dx i, p.y + dy i⟩

/-- Loop invariant for completeness of the search. -/
def Complete (pq : OpenSet) (g : Globals) (net : Net) (s : Search pq) : Prop :=
  Covered pq g s ∧
  (∀ p, InGrid g p → tget s.visitedCells p.y p.x = some true →
    ∀ i, i < 4 → Closed g s.visitedCells s.gScores p i) ∧
  LowAt s.gScores net.source ∧
  tget s.visitedCells net.destination.y net.destination.x = some false ∧
  FinTable s.gScores

/-- The completeness invariant in the middle of the neighbour loop of the node
at `pos`, after the passes `0 .. i-1`; `vis1` is the finalized-flag table with
`pos` already marked. -/
def ExpandStage (pq : OpenSet) (g : Globals) (net : Net) (vis1 : List (List Bool))
    (pos : Point) (i : Nat) (t : Search pq) : Prop :=
  t.visitedCells = vis1 ∧ Covered pq g t ∧
  (∀ p, InGrid g p → tget vis1 p.y p.x = some true → p ≠ pos →
    ∀ k, k < 4 → Closed g vis1 t.gScores p k) ∧
  (∀ j, j < i → Closed g vis1 t.gScores pos j) ∧
  LowAt t.gScores net.source ∧ FinTable t.gScores

/-- The exact cost of entering a cell when no bend is charged, with the count
the neighbour loop uses: `propagationLoss + crossingLoss * max(0, usage)`. -/
def cellCost (g : Globals) (p : Point) : ℚ :=
  g.propagationLoss.val + g.crossingLoss.val * ((max 0 (usageAt g p) : Int) : ℚ)

/-- The cell `p` can be reached from `src` by moves inside the grid whose cell
costs add up to `k`. -/
inductive Reach (g : Globals) (src : Point) : Point → ℚ → Prop where
  | base : Reach g src src 0
  | step (p : Point) (k : ℚ) (i : Nat) : Reach g src p k → i < 4 →
      InGrid g ⟨p.x + dx i, p.y + dy i⟩ →
      Reach g src ⟨p.x + dx i, p.y + dy i⟩ (k + cellCost g ⟨p.x + dx i, p.y + dy i⟩)

/-- The exact cost of a path when no bend is charged: the sum of
`propagationLoss + crossingLoss * max(0, usage)` over the cells the path
enters. -/
def entryCost (g : Globals) (path : List Point) : ℚ :=
  (path.tail.map (cellCost g)).sum

/-- Every open-set entry has a finite g-score below the sentinel and not below
the g-score recorded for its cell. -/
def QueueBound (pq : OpenSet) (s : Search pq) : Prop :=
  ∀ pos gc fc dir par, NodePtr.node pos gc fc dir par ∈ pq.toList s.openSet →
    ∃ gq : ℚ, gc = .fin gq ∧ gq < dblMaxQ ∧
      ∃ v : ℚ, tget s.gScores pos.y pos.x = some (.fin v) ∧ v ≤ gq

/-- The g-score recorded for a finalized cell is a lower bound of the cost of
every way to reach it. -/
def VisitedOptimal (g : Globals) (net : Net) (vis : List (List Bool))
    (gs : List (List Dbl)) : Prop :=
  ∀ p, InGrid g p → tget vis p.y p.x = some true →
    ∃ v : ℚ, tget gs p.y p.x = some (.fin v) ∧ ∀ k, Reach g net.source p k → v ≤ k

/-- The g-score recorded for the neighbour of `p` in direction index `i` is at
most `v` plus the cost of entering the neighbour. -/
def RelaxedFrom (g : Globals) (gs : List (List Dbl)) (v : ℚ) (p : Point) (i : Nat) : Prop :=
  InGrid g ⟨p.x + dx i, p.y + dy i⟩ →
    ∃ vn : ℚ, tget gs (p.y + dy i) (p.x + dx i) = some (.fin vn) ∧
      vn ≤ v + cellCost g ⟨p.x + dx i, p.y + dy i⟩

/-- Every finalized cell other than `pos` has relaxed all its neighbours. -/
def VisitedRelaxed (g : Globals) (vis : List (List Bool)) (gs : List (List Dbl))
    (pos : Option Point) : Prop :=
  ∀ p, InGrid g p → tget vis p.y p.x = some true → some p ≠ pos →
    ∃ v : ℚ, tget gs p.y p.x = some (.fin v) ∧ ∀ i, i < 4 → RelaxedFrom g gs v p i

/-- Every cell that is not finalized and has a g-score below the sentinel has
an open-set entry with exactly that g-score. -/
def OpenCovered (pq : OpenSet) (g : Globals) (s : Search pq) : Prop :=
  ∀ p, InGrid g p → tget s.visitedCells p.y p.x = some false →
    ∀ v : ℚ, tget s.gScores p.y p.x = some (.fin v) → v < dblMaxQ →
      ∃ fc dir par, NodePtr.node p (.fin v) fc dir par ∈ pq.toList s.openSet

/-- Every recorded g-score is finite and at most the sentinel, and when below
it, it is the cost of some way to reach the cell. -/
def Realizable (g : Globals) (net : Net) (gs : List (List Dbl)) : Prop :=
  ∀ p, InGrid g p → ∀ w, tget gs p.y p.x = some w →
    ∃ v : ℚ, w = .fin v ∧ v ≤ dblMaxQ ∧ (v < dblMaxQ → Reach g net.source p v)

/-- Loop invariant for optimality of the search without bend penalty. -/
def Optimal (pq : OpenSet) (g : Globals) (net : Net) (s : Search pq) : Prop :=
  QueueBound pq s ∧ VisitedOptimal g net s.visitedCells s.gScores ∧
  VisitedRelaxed g s.visitedCells s.gScores none ∧ OpenCovered pq g s ∧
  Realizable g net s.gScores ∧
  tget s.gScores net.source.y net.source.x = some (.fin 0)

/-- The optimality invariant in the middle of the neighbour loop of the node
at `pos` with g-score `gc`, after the passes `0 .. i-1`. -/
def OptStage (pq : OpenSet) (g : Globals) (net : Net) (vis1 : List (List Bool))
    (pos : Point) (gc : ℚ) (i : Nat) (t : Search pq) : Prop :=
  t.visitedCells = vis1 ∧ QueueBound pq t ∧ VisitedOptimal g net vis1 t.gScores ∧
  VisitedRelaxed g vis1 t.gScores (some pos) ∧
  (tget t.gScores pos.y pos.x = some (.fin gc) ∧
    ∀ j, j < i → RelaxedFrom g t.gScores gc pos j) ∧
  OpenCovered pq g t ∧ Realizable g net t.gScores ∧
  tget t.gScores net.source.y net.source.x = some (.fin 0)

/-- The Manhattan distance of two points, as a mathematical integer. -/
def manhattan (a b : Point) : Int := |a.x - b.x| + |a.y - b.y|

/-- The exact value of the expression `propagationLoss + crossingLoss *
crossingCount + bendingLoss * bendingCount` of the neighbour loop: the same
counts, no rounding. -/
def moveCost (g : Globals) (dir : Direction) (i : Nat) (usage : Int) : ℚ :=
  g.propagationLoss.val + g.crossingLoss.val * ((max 0 usage : Int) : ℚ) +
    (if dir = Direction.NONE ∨ dir = indexToDirection i then 0 else g.bendingLoss.val)

/-- The regime in which no operation of the search rounds.  The three
coefficients are the non-negative multiples `p`, `c`, `b` of one power of two
`2^t` (with `-1074 ≤ t ≤ 970`), no usage counter exceeds `U` (with
`0 ≤ U < 2^31`), `rows + columns ≤ 2^31`, and
`2 * rows * columns * (p + c * U + b) ≤ 2^53`: every score is then a multiple
of `2^t` of at most 53 bits. -/
structure ExactRegime (g : Globals) (U t : Int) (p c b : Nat) : Prop where
  unit_ge : -1074 ≤ t
  unit_le : t ≤ 970
  propagation : g.propagationLoss = .fin ((p : ℚ) * pow2 t)
  crossing : g.crossingLoss = .fin ((c : ℚ) * pow2 t)
  bending : g.bendingLoss = .fin ((b : ℚ) * pow2 t)
  usage_nonneg : 0 ≤ U
  usage_int : U < 2147483648
  usage_le : ∀ row ∈ g.cellUsage, ∀ u ∈ row, u ≤ U
  size : g.rows + g.columns ≤ 2147483648
  bound : 2 * (g.rows.toNat * g.columns.toNat) * (p + c * U.toNat + b) ≤ 9007199254740992

/-- A rational is a multiple `n * 2^t` with `n ≤ N`. -/
def OnGrid (t : Int) (N : Nat) (q : ℚ) : Prop :=
  ∃ n : Nat, n ≤ N ∧ q = (n : ℚ) * pow2 t

/-- How many times a cell occurs on a path. -/
def occurrences (path : List Point) (y x : Int) : Nat :=
  path.count ⟨x, y⟩

/-- Equality of loop states over the list queue is decidable. -/
instance decEqSearchList : DecidableEq (Search listOpenSet) := fun a b =>
  match a, b with
  | ⟨qa, ga, va⟩, ⟨qb, gb, vb⟩ =>
    match (inferInstance : DecidableEq (List NodePtr)) qa qb,
          (inferInstance : DecidableEq (List (List Dbl))) ga gb,
          (inferInstance : DecidableEq (List (List Bool))) va vb with
    | isTrue hq, isTrue hg, isTrue hv => isTrue (by subst hq hg hv; rfl)
    | isFalse hq, _, _ => isFalse (fun h => hq (by injection h))
    | _, isFalse hg, _ => isFalse (fun h => hg (by injection h))
    | _, _, isFalse hv => isFalse (fun h => hv (by injection h))

/-- The loop state of the search for `lineNet` in `lineGlobals` after the
source has been finalized. -/
def lineSearchExpanding : Search listOpenSet :=
  { openSet := ([] : List NodePtr), gScores := [[0, dblMax]], visitedCells := [[true, false]] }

/-- The same state after the pass of the neighbour loop for direction RIGHT. -/
def lineSearchRelaxed : Search listOpenSet :=
  { openSet := ([lineGoal] : List NodePtr), gScores := [[0, 1]],
    visitedCells := [[true, false]] }

/-- Both endpoints of every record lie inside the grid of the input. -/
def EndpointsInside (inp : Input) : Prop :=
  ∀ r ∈ inp.records,
    (0 ≤ (recordNet r).source.x ∧ (recordNet r).source.x < inp.columns ∧
      0 ≤ (recordNet r).source.y ∧ (recordNet r).source.y < inp.rows) ∧
    (0 ≤ (recordNet r).destination.x ∧ (recordNet r).destination.x < inp.columns ∧
      0 ≤ (recordNet r).destination.y ∧ (recordNet r).destination.y < inp.rows)

instance (inp : Input) : Decidable (EndpointsInside inp) := by
  unfold EndpointsInside; infer_instance

/-- A 2x2 grid with three nets; the second one has equal endpoints. -/
def loopInput : Input :=
  { columns := 2, rows := 2, propagationLoss := 1, crossingLoss := 1, bendingLoss := 1,
    records := [(1, 0, 0, 1, 1), (2, 1, 0, 1, 0), (3, 1, 1, 0, 0)] }

/-- The 1x1 grid with coefficients 1, 1, 1 after `initialize` has read one net
from (0,0) to (0,0). -/
def unitGlobals : Globals :=
  { rows := 1, columns := 1, propagationLoss := 1, crossingLoss := 1, bendingLoss := 1,
    cellUsage := [[2]],
    gScores := assignTable 1 1 dblMax,
    visitedCells := assignTable 1 1 false,
    nets := [] }

/-- The net from (0,0) to (0,0). -/
def unitNet : Net := Net.new 1 ⟨0, 0⟩ ⟨0, 0⟩

/-- The net's `halfPerimeterWireLength` is the Manhattan distance between its
source and its destination. -/
def HpwlOK (n : Net) : Prop :=
  n.halfPerimeterWireLength = manhattan n.source n.destination

instance (n : Net) : Decidable (HpwlOK n) := by
  unfold HpwlOK; infer_instance

/-- The globals `lineGlobals` with the per-cell tables as an earlier search
left them. -/
def lineGlobalsStale : Globals :=
  { lineGlobals with gScores := [[0, 1]], visitedCells := [[true, true]] }

/-- Total cost of a path when no bend is charged, in the words of the
specification: for every step, `propagationLoss` plus `crossingLoss` times
the usage of the cell the step enters. -/
def totalCost (g : Globals) (path : List Point) : ℚ :=
  (path.tail.map fun p =>
    g.propagationLoss.val + g.crossingLoss.val * (usageAt g p : ℚ)).sum

/-- A priority queue kept as an unordered list to which `push` appends at the
end: among entries of equal `fScore` it yields them in another order than
`listOpenSet`. -/
def appendOpenSet : OpenSet where
  Q := List NodePtr
  empty := []
  push q n := q ++ [n]
  pop := popMin
  toList q := q
  toList_empty := rfl
  toList_push q n := List.perm_append_singleton n q
  pop_none := listOpenSet.pop_none
  pop_some := listOpenSet.pop_some

/-- A 3x3 grid with one net from (0,0) to (2,2); all losses are zero except
`propagation loss 1`. -/
def squareInput : Input :=
  { columns := 3, rows := 3, propagationLoss := 1, crossingLoss := 0, bendingLoss := 0,
    records := [(1, 0, 0, 2, 2)] }

/-- The net from (0,0) to (2,2). -/
def squareNet : Net := Net.new 1 ⟨0, 0⟩ ⟨2, 2⟩

/-- The globals after `initialize` has read `squareInput`. -/
def squareGlobals : Globals :=
  { rows := 3, columns := 3, propagationLoss := 1, crossingLoss := 0, bendingLoss := 0,
    cellUsage := [[1, 0, 0], [0, 0, 0], [0, 0, 1]],
    gScores := assignTable 3 3 dblMax,
    visitedCells := assignTable 3 3 false,
    nets := [squareNet] }

/-- A 7x1 grid with `propagation loss 0.1` (the `double` nearest to 1/10, as
`stod` returns it), no crossing or bending loss, and usage 0 everywhere. -/
def tenthGlobals : Globals :=
  { rows := 1, columns := 7, propagationLoss := Dbl.round (1 / 10), crossingLoss := 0,
    bendingLoss := 0,
    cellUsage := [[0, 0, 0, 0, 0, 0, 0]],
    gScores := assignTable 1 7 dblMax,
    visitedCells := assignTable 1 7 false,
    nets := [] }

/-- A 2x1 grid with `propagation loss 10000000000000000`, `crossing loss 1`,
no bending loss, and usage 1 on both cells. -/
def coarseGlobals : Globals :=
  { rows := 1, columns := 2, propagationLoss := 10000000000000000, crossingLoss := 1,
    bendingLoss := 0,
    cellUsage := [[1, 1]],
    gScores := assignTable 1 2 dblMax,
    visitedCells := assignTable 1 2 false,
    nets := [] }

/-- The start node of the search for `bendNet` in `bendGlobals`. -/
def bendStart : NodePtr := .node ⟨0, 0⟩ 0 3 Direction.NONE .null

/-- The loop state of the search for `bendNet` in `bendGlobals` while the node
of cell (1,0), created by the move RIGHT out of the start node, is expanded:
the cells (0,0) and (1,0) are finalized and the node of cell (0,1) waits in
the open set. -/
def bendSearchExpanding : Search listOpenSet :=
  { openSet := ([.node ⟨0, 1⟩ 2 4 Direction.UP bendStart] : List NodePtr),
    gScores := [[0, 1, dblMax], [2, dblMax, dblMax]],
    visitedCells := [[true, true, false], [false, false, false]] }

/-- The same state after the pass of the neighbour loop for direction UP. -/
def bendSearchRelaxed : Search listOpenSet :=
  { openSet := ([.node ⟨1, 1⟩ 5 6 Direction.UP (.node ⟨1, 0⟩ 1 3 Direction.RIGHT bendStart),
                 .node ⟨0, 1⟩ 2 4 Direction.UP bendStart] : List NodePtr),
    gScores := [[0, 1, dblMax], [2, 5, dblMax]],
    visitedCells := [[true, true, false], [false, false, false]] }

/-- The globals after `initialize` has read `swapInput`. -/
def swapGlobals : Globals :=
  { rows := 1, columns := 3, propagationLoss := 1, crossingLoss := 0, bendingLoss := 0,
    cellUsage := [[2, 1, 1]],
    gScores := assignTable 1 3 dblMax,
    visitedCells := assignTable 1 3 false,
    nets := [Net.new 1 ⟨0, 0⟩ ⟨1, 0⟩, Net.new 2 ⟨0, 0⟩ ⟨2, 0⟩] }

/-- The nets of `swapInput` as `main` leaves them: net 2 first, then net 1,
each with its path. -/
def swapRouted : List Net :=
  [{ Net.new 2 ⟨0, 0⟩ ⟨2, 0⟩ with path := [⟨0, 0⟩, ⟨1, 0⟩, ⟨2, 0⟩] },
   { Net.new 1 ⟨0, 0⟩ ⟨1, 0⟩ with path := [⟨0, 0⟩, ⟨1, 0⟩] }]

/-- The globals after `main` has sorted and routed the nets of `swapInput`. -/
def swapGlobalsRouted : Globals :=
  { swapGlobals with
    nets := [Net.new 2 ⟨0, 0⟩ ⟨2, 0⟩, Net.new 1 ⟨0, 0⟩ ⟨1, 0⟩],
    cellUsage := [[4, 3, 2]], gScores := [[0, 1, dblMax]],
    visitedCells := [[true, true, false]] }

/-- One call `aStarRouting(net)` made by the routing loop of `main`: the
globals when the call starts, the net passed, and the globals and the net when
the call returns. -/
structure RoutingCall where
  before : Globals
  net : Net
  after : Globals
  routed : Net
deriving DecidableEq

/-- The routing loop of `main` (lines 276-278) with a log of its calls: the
calls `aStarRouting(net)` in the order in which the loop makes them, each one
starting from the globals the previous one left. -/
def routingCalls (pq : OpenSet) (g : Globals) : List Net → Option (List RoutingCall)
  | [] => some []
  | net :: rest =>
    match aStarRouting pq g net with
    | none => none
    | some (g1, net1) =>
      match routingCalls pq g1 rest with
      | none => none
      | some calls => some (⟨g, net, g1, net1⟩ :: calls)

/-- Every counter of the first usage map is at most the counter of the same
cell in the second one. -/
def UsageLe (a b : List (List Int)) : Prop :=
  ∀ y x u, tget a y x = some u → ∃ v, tget b y x = some v ∧ u ≤ v

/-- The globals when `main` starts to route the nets of `swapInput`. -/
def swapGlobalsSorted : Globals :=
  { swapGlobals with nets := [Net.new 2 ⟨0, 0⟩ ⟨2, 0⟩, Net.new 1 ⟨0, 0⟩ ⟨1, 0⟩] }

/-- The globals after `main` has routed net 2 of `swapInput`. -/
def swapGlobalsMiddle : Globals :=
  { swapGlobalsSorted with
    cellUsage := [[3, 2, 2]], gScores := [[0, 1, 2]],
    visitedCells := [[true, true, true]] }

/-- A 3x2 grid (rows `y = 0` and `y = 1`) with `propagation loss 0.15` and
`crossing loss 0.1` (the nearest `double`s, as `stod` returns them) and no
bending loss; the usage counters of row 0 are 2, 9, 0 and those of row 1 are
0, 3, 3. -/
def roundGlobals : Globals :=
  { rows := 2, columns := 3, propagationLoss := Dbl.round (3 / 20),
    crossingLoss := Dbl.round (1 / 10), bendingLoss := 0,
    cellUsage := [[2, 9, 0], [0, 3, 3]],
    gScores := assignTable 2 3 dblMax,
    visitedCells := assignTable 2 3 false,
    nets := [] }

/-- The net from (0,0) to (2,0). -/
def roundNet : Net := Net.new 1 ⟨0, 0⟩ ⟨2, 0⟩

/-! ## Arithmetic on `double` -/

theorem pow2_eq_zpow (k : Int) : pow2 k = (2 : ℚ) ^ k := by
  unfold pow2
  split_ifs with h
  · obtain ⟨n, rfl⟩ := Int.eq_ofNat_of_zero_le h
    simp
  · have hk : k = -((-k).toNat : Int) := by omega
    rw [Nat.cast_pow, Nat.cast_ofNat]
    nth_rewrite 2 [hk]
    rw [zpow_neg, zpow_natCast, one_div]

theorem pow2_pos (k : Int) : 0 < pow2 k := by
  rw [pow2_eq_zpow]
  positivity

theorem pow2_add (a b : Int) : pow2 (a + b) = pow2 a * pow2 b := by
  rw [pow2_eq_zpow, pow2_eq_zpow, pow2_eq_zpow, zpow_add₀ (by norm_num)]

theorem pow2_le_pow2 (a b : Int) (h : a ≤ b) : pow2 a ≤ pow2 b := by
  rw [pow2_eq_zpow, pow2_eq_zpow]
  exact zpow_le_zpow_right₀ (by norm_num) h

theorem pow2_lt_pow2 (a b : Int) (h : a < b) : pow2 a < pow2 b := by
  rw [pow2_eq_zpow, pow2_eq_zpow]
  exact zpow_lt_zpow_right₀ (by norm_num) h

theorem pow2_natCast (n : Nat) : pow2 (n : Int) = ((2 ^ n : Nat) : ℚ) := by
  unfold pow2
  rw [if_pos (by omega), Int.toNat_ofNat]

theorem log2Fuel_spec : ∀ (fuel n : Nat), n ≤ fuel → 1 ≤ n →
    2 ^ log2Fuel fuel n ≤ n ∧ n < 2 ^ (log2Fuel fuel n + 1) := by
  intro fuel
  induction fuel with
  | zero => intro n h1 h2; omega
  | succ f ih =>
    intro n h1 h2
    unfold log2Fuel
    split_ifs with h
    · have : n = 1 := by omega
      subst this
      simp
    · obtain ⟨a, b⟩ := ih (n / 2) (by omega) (by omega)
      rw [pow_succ, pow_succ]
      omega

/-- The binade exponent is not above the magnitude. -/
theorem binade_le (q : ℚ) (hq : q ≠ 0) : pow2 (binade q) ≤ |q| := by
  unfold binade
  simp only
  split_ifs with h
  · exact h
  · have hn : 1 ≤ q.num.natAbs := by
      have := Rat.num_ne_zero.2 hq
      omega
    have hd : 1 ≤ q.den := q.den_pos
    obtain ⟨a1, _⟩ := log2Fuel_spec _ _ (le_refl _) hn
    obtain ⟨_, b2⟩ := log2Fuel_spec _ _ (le_refl _) hd
    set ln := log2Fuel q.num.natAbs q.num.natAbs
    set ld := log2Fuel q.den q.den
    have habs : |q| = (q.num.natAbs : ℚ) / (q.den : ℚ) := by
      conv_lhs => rw [← Rat.num_div_den q]
      rw [abs_div, Nat.abs_cast, ← Int.cast_abs, Int.abs_eq_natAbs, Int.cast_natCast]
    rw [habs, le_div_iff₀ (by exact_mod_cast hd)]
    have e : ((ln : Int) - (ld : Int) - 1) = (ln : Int) + (-((ld : Int) + 1)) := by ring
    rw [e, pow2_add, pow2_natCast]
    have h3 : pow2 (-((ld : Int) + 1)) * (q.den : ℚ) ≤ 1 := by
      rw [pow2_eq_zpow, zpow_neg]
      rw [inv_mul_le_iff₀ (by positivity), mul_one]
      have : ((ld : Int) + 1) = ((ld + 1 : Nat) : Int) := by push_cast; ring
      rw [this, zpow_natCast]
      exact_mod_cast le_of_lt b2
    calc ((2 ^ ln : Nat) : ℚ) * pow2 (-((ld : Int) + 1)) * (q.den : ℚ)
        = ((2 ^ ln : Nat) : ℚ) * (pow2 (-((ld : Int) + 1)) * (q.den : ℚ)) := by ring
      _ ≤ ((2 ^ ln : Nat) : ℚ) * 1 := by
          apply mul_le_mul_of_nonneg_left h3
          positivity
      _ = ((2 ^ ln : Nat) : ℚ) := by ring
      _ ≤ (q.num.natAbs : ℚ) := by exact_mod_cast a1

theorem roundEven_intCast (z : Int) : roundEven (z : ℚ) = z := by
  have hf : Rat.floor (z : ℚ) = z := by
    show ⌊(z : ℚ)⌋ = z
    exact Int.floor_intCast z
  unfold roundEven
  simp only [hf, sub_self]
  norm_num

/-- A multiple `n * 2^t` with `n ≤ 2^53` in the exponent range of `double`
is representable: rounding leaves it as it is. -/
theorem round_units (t : Int) (n : Nat) (h1 : -1074 ≤ t) (h2 : t ≤ 970)
    (hn : n ≤ 9007199254740992) :
    Dbl.round ((n : ℚ) * pow2 t) = .fin ((n : ℚ) * pow2 t) := by
  unfold Dbl.round
  by_cases h0 : n = 0
  · subst h0
    simp
  have hnpos : (0 : ℚ) < (n : ℚ) := by exact_mod_cast Nat.pos_of_ne_zero h0
  have hqpos : 0 < (n : ℚ) * pow2 t := mul_pos hnpos (pow2_pos t)
  rw [if_neg (ne_of_gt hqpos)]
  simp only
  have hb := binade_le _ (ne_of_gt hqpos)
  rw [abs_of_pos hqpos] at hb
  set e := binade ((n : ℚ) * pow2 t)
  have hq53 : (n : ℚ) * pow2 t ≤ pow2 (t + 53) := by
    rw [pow2_add, mul_comm (pow2 t)]
    apply mul_le_mul_of_nonneg_right _ (le_of_lt (pow2_pos t))
    rw [show (53 : Int) = ((53 : Nat) : Int) by rfl, pow2_natCast]
    exact_mod_cast hn
  have he : e ≤ t + 53 := by
    by_contra hc
    have := pow2_lt_pow2 (t + 53) e (by omega)
    linarith
  -- the quotient by the spacing is an integer
  have hint : ∃ z : Int, (n : ℚ) * pow2 t / pow2 (max e (-1022) - 52) = (z : ℚ) := by
    by_cases hcase : max e (-1022) - 52 ≤ t
    · obtain ⟨k, hk⟩ := Int.eq_ofNat_of_zero_le (show 0 ≤ t - (max e (-1022) - 52) by omega)
      refine ⟨(n : Int) * 2 ^ k, ?_⟩
      have : t = (max e (-1022) - 52) + (k : Int) := by omega
      nth_rewrite 1 [this]
      rw [pow2_add, pow2_natCast]
      have hp := pow2_pos (max e (-1022) - 52)
      field_simp
      ring
    · have hE : max e (-1022) = e := by
        apply max_eq_left
        by_contra hc
        have : max e (-1022) = -1022 := max_eq_right (by omega)
        omega
      have he2 : e = t + 53 := by omega
      refine ⟨2 ^ 52, ?_⟩
      have hnn : (n : ℚ) * pow2 t = pow2 (t + 53) := by
        apply le_antisymm hq53
        rw [← he2]
        exact hb
      rw [hnn, hE, he2]
      have : t + 53 = (t + 53 - 52) + ((52 : Nat) : Int) := by omega
      nth_rewrite 1 [this]
      rw [pow2_add, pow2_natCast]
      have hp := pow2_pos (t + 53 - 52)
      field_simp
  obtain ⟨z, hz⟩ := hint
  rw [hz, roundEven_intCast, ← hz]
  have hp := pow2_pos (max e (-1022) - 52)
  have hback : (n : ℚ) * pow2 t / pow2 (max e (-1022) - 52) * pow2 (max e (-1022) - 52) =
      (n : ℚ) * pow2 t := by
    field_simp
  rw [hback]
  have hlt : (n : ℚ) * pow2 t < pow2 1024 :=
    lt_of_le_of_lt hq53 (pow2_lt_pow2 _ _ (by omega))
  rw [if_neg (not_le.2 hlt), if_neg]
  have := pow2_pos 1024
  linarith

theorem Dbl.add_fin (a b : ℚ) : Dbl.fin a + Dbl.fin b = Dbl.round (a + b) := rfl

theorem Dbl.mul_fin (a b : ℚ) : Dbl.fin a * Dbl.fin b = Dbl.round (a * b) := rfl

theorem Dbl.intCast_eq (z : Int) : ((z : Int) : Dbl) = Dbl.round (z : ℚ) := rfl

theorem Dbl.zero_eq : (0 : Dbl) = Dbl.fin 0 := by
  show Dbl.fin ((0 : Nat) : ℚ) = Dbl.fin 0
  rw [Nat.cast_zero]

theorem Dbl.fin_lt_fin (a b : ℚ) : Dbl.fin a < Dbl.fin b ↔ a < b := by
  show Dbl.lt (Dbl.fin a) (Dbl.fin b) = true ↔ a < b
  simp [Dbl.lt]

theorem dbl_lt_irrefl (a : Dbl) : ¬ a < a := by
  cases a with
  | fin q => rw [Dbl.fin_lt_fin]; exact lt_irrefl q
  | pinf => exact fun h => Bool.noConfusion h
  | ninf => exact fun h => Bool.noConfusion h
  | nan => exact fun h => Bool.noConfusion h

theorem dbl_lt_asymm (a b : Dbl) (h : a < b) : ¬ b < a := by
  cases a <;> cases b <;>
    first
    | exact fun h2 => Bool.noConfusion h2
    | exact absurd h (fun h2 => Bool.noConfusion h2)
    | (rw [Dbl.fin_lt_fin] at h ⊢; exact lt_asymm h)

theorem dbl_lt_trans (a b c : Dbl) (h1 : a < b) (h2 : b < c) : a < c := by
  cases a <;> cases b <;> cases c <;>
    first
    | exact absurd h1 (fun h => Bool.noConfusion h)
    | exact absurd h2 (fun h => Bool.noConfusion h)
    | rfl
    | (rw [Dbl.fin_lt_fin] at h1 h2 ⊢; exact lt_trans h1 h2)

theorem pow2_zero : pow2 0 = 1 := by
  unfold pow2
  simp

/-- Conversion of an `int` in the range of exactly representable integers. -/
theorem Dbl.intCast_exact (z : Int) (h0 : 0 ≤ z) (h1 : z ≤ 9007199254740992) :
    ((z : Int) : Dbl) = Dbl.fin (z : ℚ) := by
  obtain ⟨n, rfl⟩ := Int.eq_ofNat_of_zero_le h0
  have := round_units 0 n (by omega) (by omega) (by omega)
  rw [pow2_zero, mul_one] at this
  rw [Dbl.intCast_eq]
  simpa using this

/-- The sum of two multiples of `2^t` is exact while it stays within 53 bits. -/
theorem units_add (t : Int) (a b : Nat) (h1 : -1074 ≤ t) (h2 : t ≤ 970)
    (h : a + b ≤ 9007199254740992) :
    Dbl.fin ((a : ℚ) * pow2 t) + Dbl.fin ((b : ℚ) * pow2 t) =
      Dbl.fin (((a + b : Nat) : ℚ) * pow2 t) := by
  rw [Dbl.add_fin, ← add_mul, ← Nat.cast_add]
  exact round_units t (a + b) h1 h2 h

/-- The product of a multiple of `2^t` and a converted `int` is exact while
it stays within 53 bits. -/
theorem units_mul_int (t : Int) (c : Nat) (k : Int) (h1 : -1074 ≤ t) (h2 : t ≤ 970)
    (hk0 : 0 ≤ k) (hk : k ≤ 9007199254740992) (h : c * k.toNat ≤ 9007199254740992) :
    Dbl.fin ((c : ℚ) * pow2 t) * ((k : Int) : Dbl) =
      Dbl.fin (((c * k.toNat : Nat) : ℚ) * pow2 t) := by
  rw [Dbl.intCast_exact k hk0 hk, Dbl.mul_fin]
  obtain ⟨n, rfl⟩ := Int.eq_ofNat_of_zero_le hk0
  have := round_units t (c * n) h1 h2 (by simpa using h)
  simp only [Int.toNat_ofNat, Int.cast_natCast]
  rw [← this]
  congr 1
  push_cast
  ring

theorem int_mul_units (t : Int) (c : Nat) (k : Int) (h1 : -1074 ≤ t) (h2 : t ≤ 970)
    (hk0 : 0 ≤ k) (hk : k ≤ 9007199254740992) (h : k.toNat * c ≤ 9007199254740992) :
    ((k : Int) : Dbl) * Dbl.fin ((c : ℚ) * pow2 t) =
      Dbl.fin (((k.toNat * c : Nat) : ℚ) * pow2 t) := by
  rw [Dbl.intCast_exact k hk0 hk, Dbl.mul_fin]
  obtain ⟨n, rfl⟩ := Int.eq_ofNat_of_zero_le hk0
  have := round_units t (n * c) h1 h2 (by simpa using h)
  simp only [Int.toNat_ofNat, Int.cast_natCast]
  rw [← this]
  congr 1
  push_cast
  ring

theorem wrap32_of_range (z : Int) (h1 : -2147483648 ≤ z) (h2 : z < 2147483648) :
    wrap32 z = z := by
  unfold wrap32
  omega

/-- Inside a grid with `rows + columns ≤ 2^31` the `int` sum of `heuristic`
does not wrap. -/
theorem manhattan32_of_small (a b : Point)
    (h : |a.x - b.x| + |a.y - b.y| < 2147483648) :
    manhattan32 a b = |a.x - b.x| + |a.y - b.y| := by
  unfold manhattan32
  have hx := abs_nonneg (a.x - b.x)
  have hy := abs_nonneg (a.y - b.y)
  have ex : wrap32 (a.x - b.x) = a.x - b.x := by
    apply wrap32_of_range
    · rcases abs_cases (a.x - b.x) with ⟨e, _⟩ | ⟨e, _⟩ <;> omega
    · rcases abs_cases (a.x - b.x) with ⟨e, _⟩ | ⟨e, _⟩ <;> omega
  have ey : wrap32 (a.y - b.y) = a.y - b.y := by
    apply wrap32_of_range
    · rcases abs_cases (a.y - b.y) with ⟨e, _⟩ | ⟨e, _⟩ <;> omega
    · rcases abs_cases (a.y - b.y) with ⟨e, _⟩ | ⟨e, _⟩ <;> omega
  rw [ex, ey, wrap32_of_range |a.x - b.x| (by omega) (by omega),
    wrap32_of_range |a.y - b.y| (by omega) (by omega),
    wrap32_of_range _ (by omega) (by omega)]

/-! ## Table lemmas -/

theorem tget_tset {α : Type} (t t1 : List (List α)) (y x : Int) (v : α)
    (h : tset t y x v = some t1) (y1 x1 : Int) :
    tget t1 y1 x1 = if y1 = y ∧ x1 = x then some v else tget t y1 x1 := by
  unfold tset at h
  split_ifs at h with h0
  cases hrow : t[y.toNat]? with
  | none => rw [hrow] at h; simp at h
  | some row =>
    rw [hrow] at h
    simp only at h
    split_ifs at h with hx
    simp only [Option.some.injEq] at h
    subst h
    have hylt : y.toNat < t.length := by
      rcases List.getElem?_eq_some.1 hrow with ⟨hlt, _⟩
      exact hlt
    unfold tget
    by_cases h1 : 0 ≤ y1 ∧ 0 ≤ x1
    · simp only [h1, and_self, if_true]
      by_cases hy : y1 = y
      · subst hy
        simp only [true_and]
        rw [List.getElem?_set_self hylt]
        simp only
        by_cases hxx : x1 = x
        · subst hxx
          simp [List.getElem?_set_self hx]
        · have : x.toNat ≠ x1.toNat := by omega
          rw [List.getElem?_set_ne this]
          simp [hxx, hrow]
      · have : y.toNat ≠ y1.toNat := by omega
        rw [List.getElem?_set_ne this]
        simp [hy]
    · simp only [h1, if_false]
      have : ¬ (y1 = y ∧ x1 = x) := by
        rintro ⟨rfl, rfl⟩; exact h1 h0
      simp [this]

theorem tget_tset_self {α : Type} (t t1 : List (List α)) (y x : Int) (v : α)
    (h : tset t y x v = some t1) : tget t1 y x = some v := by
  rw [tget_tset t t1 y x v h]; simp

theorem tget_tset_ne {α : Type} (t t1 : List (List α)) (y x : Int) (v : α)
    (h : tset t y x v = some t1) (y1 x1 : Int) (hne : ¬ (y1 = y ∧ x1 = x)) :
    tget t1 y1 x1 = tget t y1 x1 := by
  rw [tget_tset t t1 y x v h]; simp [hne]

theorem tset_isSome {α : Type} (t : List (List α)) (y x : Int) (v : α) :
    (tset t y x v).isSome = (tget t y x).isSome := by
  unfold tset tget
  split_ifs with h0
  · cases hrow : t[y.toNat]? with
    | none => simp
    | some row =>
      simp only
      by_cases hx : x.toNat < row.length
      · simp [hx]
      · simp [hx, not_lt.1 hx]
  · rfl

theorem tset_of_tget {α : Type} (t : List (List α)) (y x : Int) (v w : α)
    (h : tget t y x = some w) : ∃ t1, tset t y x v = some t1 := by
  have h1 := tset_isSome t y x v
  rw [h] at h1
  exact Option.isSome_iff_exists.1 h1

theorem tget_of_tset {α : Type} (t t1 : List (List α)) (y x : Int) (v : α)
    (h : tset t y x v = some t1) : ∃ w, tget t y x = some w := by
  have h1 := tset_isSome t y x v
  rw [h] at h1
  exact Option.isSome_iff_exists.1 h1.symm

/-- A table of the grid's dimensions is readable exactly at the in-grid cells. -/
theorem tget_isSome_of_hasDims {α : Type} (t : List (List α)) (rows columns : Int)
    (h : HasDims t rows columns) (y x : Int) :
    (tget t y x).isSome ↔ (0 ≤ x ∧ x < columns ∧ 0 ≤ y ∧ y < rows) := by
  obtain ⟨hlen, hrow⟩ := h
  unfold tget
  by_cases h0 : 0 ≤ y ∧ 0 ≤ x
  · simp only [h0, and_self, if_true, true_and]
    cases hr : t[y.toNat]? with
    | none =>
      have : t.length ≤ y.toNat := List.getElem?_eq_none_iff.1 hr
      simp only [Option.isSome_none, Bool.false_eq_true, false_iff, not_and, not_lt]
      intro _
      omega
    | some row =>
      obtain ⟨hlt, hget⟩ := List.getElem?_eq_some.1 hr
      have hmem : row ∈ t := by rw [← hget]; exact List.getElem_mem hlt
      have hl := hrow row hmem
      simp only
      constructor
      · intro hs
        obtain ⟨w, hw⟩ := Option.isSome_iff_exists.1 hs
        obtain ⟨hlt2, _⟩ := List.getElem?_eq_some.1 hw
        omega
      · intro ⟨h1, h2⟩
        have : x.toNat < row.length := by omega
        simp [List.getElem?_eq_getElem this]
  · simp only [h0, if_false, Option.isSome_none, Bool.false_eq_true, false_iff]
    intro h1
    exact h0 ⟨h1.2.2.1, h1.1⟩

/-! ## Output: segment count and order -/

theorem segmentCount_nil : segmentCount [] = -1 := by decide!

theorem readNetRecords_nets : ∀ (records : List (Int × Int × Int × Int × Int))
    (g g1 : Globals), readNetRecords g records = some g1 →
    g1.nets = g.nets ++ records.map recordNet := by
  intro records
  induction records with
  | nil => intro g g1 h; simp [readNetRecords] at h; subst h; simp
  | cons r rest ih =>
    intro g g1 h
    obtain ⟨id, x1, y1, x2, y2⟩ := r
    simp only [readNetRecords] at h
    cases h1 : tget g.cellUsage y1 x1 with
    | none => rw [h1] at h; exact absurd h (by simp)
    | some u1 =>
      rw [h1] at h
      simp only at h
      cases h2 : tset g.cellUsage y1 x1 (u1 + 1) with
      | none => rw [h2] at h; exact absurd h (by simp)
      | some usage1 =>
        rw [h2] at h
        simp only at h
        cases h3 : tget usage1 y2 x2 with
        | none => rw [h3] at h; exact absurd h (by simp)
        | some u2 =>
          rw [h3] at h
          simp only at h
          cases h4 : tset usage1 y2 x2 (u2 + 1) with
          | none => rw [h4] at h; exact absurd h (by simp)
          | some usage2 =>
            rw [h4] at h
            simp only at h
            rw [ih _ _ h]; simp

theorem initializeGlobals_nets (inp : Input) (g : Globals)
    (h : initializeGlobals inp = some g) : g.nets = inp.records.map recordNet := by
  unfold initializeGlobals at h
  rw [readNetRecords_nets _ _ _ h]; simp

theorem aStarRouting_id (pq : OpenSet) (g g1 : Globals) (net net1 : Net)
    (h : aStarRouting pq g net = some (g1, net1)) : net1.id = net.id := by
  unfold aStarRouting at h
  cases hs : search pq g net with
  | none => rw [hs] at h; exact absurd h (by simp)
  | some r =>
    obtain ⟨s, goal⟩ := r
    rw [hs] at h
    cases goal with
    | null =>
      simp only [Option.some.injEq, Prod.mk.injEq] at h; rw [← h.2]
    | node pos gc fc dir par =>
      simp only at h
      cases hi : incrementUsage g.cellUsage (reversePath (NodePtr.node pos gc fc dir par)).reverse with
      | none => rw [hi] at h; exact absurd h (by simp)
      | some u =>
        rw [hi] at h
        simp only [Option.some.injEq, Prod.mk.injEq] at h; rw [← h.2]

theorem routeAll_ids (pq : OpenSet) : ∀ (l : List Net) (g g1 : Globals) (l1 : List Net),
    routeAll pq g l = some (g1, l1) → l1.map (fun n => n.id) = l.map (fun n => n.id) := by
  intro l
  induction l with
  | nil => intro g g1 l1 h; simp [routeAll] at h; rw [← h.2]
  | cons net rest ih =>
    intro g g1 l1 h
    simp only [routeAll] at h
    cases ha : aStarRouting pq g net with
    | none => rw [ha] at h; exact absurd h (by simp)
    | some r =>
      obtain ⟨ga, neta⟩ := r
      rw [ha] at h
      simp only at h
      cases hb : routeAll pq ga rest with
      | none => rw [hb] at h; exact absurd h (by simp)
      | some r2 =>
        obtain ⟨gb, restb⟩ := r2
        rw [hb] at h
        simp only [Option.some.injEq, Prod.mk.injEq] at h
        rw [← h.2]
        simp only [List.map_cons]
        rw [ih _ _ _ hb, aStarRouting_id pq _ _ _ _ ha]

theorem writeOutput_ids : ∀ (l : List Net) (out : List NetOutput),
    writeOutput l = some out → outputIds out = l.map (fun n => n.id) := by
  intro l
  induction l with
  | nil =>
    intro out h
    rw [writeOutput] at h
    simp only [Option.some.injEq] at h
    subst h; rfl
  | cons net rest ih =>
    intro out h
    rw [writeOutput] at h
    cases h1 : segmentLines net.path with
    | none => rw [h1] at h; exact absurd h (by simp)
    | some lines =>
      rw [h1] at h
      simp only at h
      cases h2 : writeOutput rest with
      | none => rw [h2] at h; exact absurd h (by simp)
      | some out1 =>
        rw [h2] at h
        simp only [Option.some.injEq] at h
        subst h
        have := ih _ h2
        unfold outputIds at this ⊢
        rw [List.map_cons, List.map_cons, this]

/-- The ids written by `main` are those of the sorted container. -/
theorem main_outputIds (pq : OpenSet) (srt : SortAlgorithm) (inp : Input)
    (out : List NetOutput) (h : main pq srt inp = some out) :
    outputIds out = (routingOrder srt (inp.records.map recordNet)).map (fun n => n.id) := by
  unfold main at h
  cases hg : initializeGlobals inp with
  | none => rw [hg] at h; exact absurd h (by simp)
  | some g =>
    rw [hg] at h
    simp only at h
    cases hr : routeAll pq { g with nets := routingOrder srt g.nets } (routingOrder srt g.nets) with
    | none => rw [hr] at h; exact absurd h (by simp)
    | some r =>
      obtain ⟨g2, routed⟩ := r
      rw [hr] at h
      simp only at h
      rw [writeOutput_ids _ _ h, routeAll_ids pq _ _ _ _ hr, initializeGlobals_nets inp g hg]

/-- Sorting a short net followed by a longer one must swap them. -/
theorem sort_two_swapped (srt : SortAlgorithm) (a b : Net)
    (h : a.halfPerimeterWireLength < b.halfPerimeterWireLength) :
    srt.sort [a, b] = [b, a] := by
  have hp := srt.perm [a, b]
  have hs := srt.sorted [a, b]
  have hlen := hp.length_eq
  have hab : a ≠ b := by rintro rfl; omega
  generalize srt.sort [a, b] = l at hp hs hlen
  match l, hlen with
  | [c, d], _ =>
    have hc : c ∈ [a, b] := hp.subset (by simp)
    have hd : d ∈ [a, b] := hp.subset (by simp)
    have ha : a ∈ [c, d] := hp.symm.subset (by simp)
    have hb : b ∈ [c, d] := hp.symm.subset (by simp)
    have hnd : ¬ NetComparator d c := by
      simpa using hs
    simp only [List.mem_cons, List.mem_singleton, List.not_mem_nil, or_false] at hc hd ha hb
    rcases hc with rfl | rfl <;> rcases hd with rfl | rfl
    · simp at hb; exact absurd hb.symm hab
    · exact absurd h hnd
    · rfl
    · simp at ha; exact absurd ha hab

theorem dblMaxQ_pos : 0 < dblMaxQ := by
  unfold dblMaxQ; norm_num

theorem dblMax_eq : dblMax = Dbl.fin dblMaxQ := by
  unfold dblMax; rfl

/-- Routing a concatenation routes the first part, commits its usage, and
then routes the second part from the resulting globals. -/
theorem routeAll_append (pq : OpenSet) : ∀ (l1 l2 : List Net) (g : Globals),
    routeAll pq g (l1 ++ l2) =
      match routeAll pq g l1 with
      | none => none
      | some (g1, r1) =>
        match routeAll pq g1 l2 with
        | none => none
        | some (g2, r2) => some (g2, r1 ++ r2) := by
  intro l1
  induction l1 with
  | nil =>
    intro l2 g
    simp only [List.nil_append, routeAll]
    cases routeAll pq g l2 with
    | none => rfl
    | some r => rfl
  | cons net rest ih =>
    intro l2 g
    simp only [List.cons_append, routeAll]
    cases ha : aStarRouting pq g net with
    | none => rfl
    | some r =>
      obtain ⟨ga, neta⟩ := r
      simp only
      have ih2 := ih l2 ga
      rw [show rest.append l2 = rest ++ l2 from rfl, ih2]
      cases hb : routeAll pq ga rest with
      | none => rfl
      | some r1 =>
        obtain ⟨gb, restb⟩ := r1
        simp only
        cases hc : routeAll pq gb l2 with
        | none => rfl
        | some r2 => rfl

theorem pairwise_index_lt {α : Type} (R : α → α → Prop) (l : List α) (h : l.Pairwise R)
    (i j : Nat) (a b : α) (hi : l[i]? = some a) (hj : l[j]? = some b) (hij : i < j) :
    R a b := by
  obtain ⟨hi1, hi2⟩ := List.getElem?_eq_some.1 hi
  obtain ⟨hj1, hj2⟩ := List.getElem?_eq_some.1 hj
  have := (List.pairwise_iff_getElem.1 h) i j hi1 hj1 hij
  rw [hi2, hj2] at this
  exact this

/-- C6 (as amended): the order in which `writeOutput` emits the nets is the
order in which `main` routed them: the ids written are the ids of the sorted
container, a permutation of the ids read. -/
theorem output_order_is_routing_order (pq : OpenSet) (srt : SortAlgorithm) (inp : Input)
    (out : List NetOutput) (h : main pq srt inp = some out) :
    outputIds out = (routingOrder srt (inp.records.map recordNet)).map (fun n => n.id) ∧
    (outputIds out).Perm (inp.records.map (fun r => r.1)) := by
  have h1 := main_outputIds pq srt inp out h
  refine ⟨h1, ?_⟩
  rw [h1]
  have hp := (srt.perm (inp.records.map recordNet)).map (fun n => n.id)
  have e : (inp.records.map recordNet).map (fun n => n.id) = inp.records.map (fun r => r.1) := by
    rw [List.map_map]
    rfl
  rw [e] at hp
  exact hp

/-- C6 (counterexample): for the input listing net 1 (length 1) before net 2
(length 2), the ids are read in the order 1, 2 but written in the order 2, 1,
whatever the priority queue and the sorting algorithm. -/
theorem output_order_not_input_order :
    swapInput.records.map (fun r => r.1) = [1, 2] ∧
    (main listOpenSet insertionSortAlg swapInput).map outputIds = some [2, 1] ∧
    ∀ (pq : OpenSet) (srt : SortAlgorithm) (out : List NetOutput),
      main pq srt swapInput = some out → outputIds out = [2, 1] := by
  refine ⟨by decide, by decide!, ?_⟩
  intro pq srt out h
  rw [main_outputIds pq srt swapInput out h]
  unfold routingOrder
  have e : swapInput.records.map recordNet =
      [recordNet (1, 0, 0, 1, 0), recordNet (2, 0, 0, 2, 0)] := rfl
  rw [e, sort_two_swapped srt _ _ (by decide)]
  rfl

/-- C6 (witness): the amended statement at `swapInput`. -/
theorem output_order_is_routing_order_witness :
    outputIds [⟨2, 2, [⟨0, 0, 1, 0⟩, ⟨1, 0, 2, 0⟩]⟩, ⟨1, 1, [⟨0, 0, 1, 0⟩]⟩] =
      (routingOrder insertionSortAlg (swapInput.records.map recordNet)).map (fun n => n.id) ∧
    (outputIds [⟨2, 2, [⟨0, 0, 1, 0⟩, ⟨1, 0, 2, 0⟩]⟩, ⟨1, 1, [⟨0, 0, 1, 0⟩]⟩]).Perm
      (swapInput.records.map (fun r => r.1)) :=
  output_order_is_routing_order listOpenSet insertionSortAlg swapInput _ (by decide!)

/-! ## Cost model -/

theorem dxdy_cases (i : Nat) (h : i < 4) :
    (dx i = 0 ∧ dy i = 1) ∨ (dx i = 0 ∧ dy i = -1) ∨
    (dx i = -1 ∧ dy i = 0) ∨ (dx i = 1 ∧ dy i = 0) := by
  interval_cases i <;> simp [dx, dy]

theorem manhattan_le_of_step (a b c d e f : Int)
    (h : (|a - b| = 1 ∧ c = d) ∨ (a = b ∧ |c - d| = 1)) :
    |a - e| + |c - f| ≤ 1 + (|b - e| + |d - f|) := by
  rcases h with ⟨h1, h2⟩ | ⟨h1, h2⟩
  · subst h2
    rcases abs_cases (a - b) with ⟨e1, _⟩ | ⟨e1, _⟩ <;>
    rcases abs_cases (a - e) with ⟨e2, _⟩ | ⟨e2, _⟩ <;>
    rcases abs_cases (b - e) with ⟨e3, _⟩ | ⟨e3, _⟩ <;> omega
  · subst h1
    rcases abs_cases (c - d) with ⟨e1, _⟩ | ⟨e1, _⟩ <;>
    rcases abs_cases (c - f) with ⟨e2, _⟩ | ⟨e2, _⟩ <;>
    rcases abs_cases (d - f) with ⟨e3, _⟩ | ⟨e3, _⟩ <;> omega

theorem adjacent_of_step (c : Point) (i : Nat) (h : i < 4) :
    Adjacent c ⟨c.x + dx i, c.y + dy i⟩ := by
  unfold Adjacent
  rcases dxdy_cases i h with ⟨h1, h2⟩ | ⟨h1, h2⟩ | ⟨h1, h2⟩ | ⟨h1, h2⟩ <;>
    simp [h1, h2]

theorem tget_mem {α : Type} (t : List (List α)) (y x : Int) (v : α)
    (h : tget t y x = some v) : ∃ row ∈ t, v ∈ row := by
  unfold tget at h
  split_ifs at h
  cases hr : t[y.toNat]? with
  | none => rw [hr] at h; exact absurd h (by simp)
  | some row =>
    rw [hr] at h
    simp only at h
    obtain ⟨h1, h2⟩ := List.getElem?_eq_some.1 hr
    obtain ⟨h3, h4⟩ := List.getElem?_eq_some.1 h
    exact ⟨row, by rw [← h2]; exact List.getElem_mem h1, by rw [← h4]; exact List.getElem_mem h3⟩

theorem usageAt_nonneg (g : Globals) (hU : UsageNonneg g) (p : Point) : 0 ≤ usageAt g p := by
  unfold usageAt
  cases h : tget g.cellUsage p.y p.x with
  | none => simp
  | some u =>
    obtain ⟨row, h1, h2⟩ := tget_mem _ _ _ _ h
    simpa using hU row h1 u h2

/-! ## The search loop: case analysis -/

theorem relax_cases (pq : OpenSet) (g : Globals) (dest pos : Point) (gc fc : Dbl)
    (dir : Direction) (par : NodePtr) (i : Nat) (s s1 : Search pq)
    (h : relax pq g dest (.node pos gc fc dir par) i s = some s1) :
    (¬ InGrid g ⟨pos.x + dx i, pos.y + dy i⟩ ∧ s1 = s) ∨
    (InGrid g ⟨pos.x + dx i, pos.y + dy i⟩ ∧
      tget s.visitedCells (pos.y + dy i) (pos.x + dx i) = some true ∧ s1 = s) ∨
    (InGrid g ⟨pos.x + dx i, pos.y + dy i⟩ ∧
      tget s.visitedCells (pos.y + dy i) (pos.x + dx i) = some false ∧
      ∃ usage old, tget g.cellUsage (pos.y + dy i) (pos.x + dx i) = some usage ∧
        tget s.gScores (pos.y + dy i) (pos.x + dx i) = some old ∧
        ((¬ (gc + waveguideLoss g dir i usage < old) ∧ s1 = s) ∨
         (gc + waveguideLoss g dir i usage < old ∧
          ∃ gs, tset s.gScores (pos.y + dy i) (pos.x + dx i)
              (gc + waveguideLoss g dir i usage) = some gs ∧
            s1 = { openSet := pq.push s.openSet
                     (.node ⟨pos.x + dx i, pos.y + dy i⟩ (gc + waveguideLoss g dir i usage)
                       (gc + waveguideLoss g dir i usage +
                         heuristic g.propagationLoss ⟨pos.x + dx i, pos.y + dy i⟩ dest)
                       (indexToDirection i) (.node pos gc fc dir par)),
                   gScores := gs,
                   visitedCells := s.visitedCells }))) := by
  unfold relax at h
  simp only at h
  by_cases hb : pos.x + dx i < 0 ∨ pos.x + dx i ≥ g.columns ∨ pos.y + dy i < 0 ∨
      pos.y + dy i ≥ g.rows
  · rw [if_pos hb] at h
    simp only [Option.some.injEq] at h
    left
    refine ⟨?_, h.symm⟩
    unfold InGrid
    simp only
    omega
  · rw [if_neg hb] at h
    have hin : InGrid g ⟨pos.x + dx i, pos.y + dy i⟩ := by
      unfold InGrid
      simp only
      omega
    right
    cases hv : tget s.visitedCells (pos.y + dy i) (pos.x + dx i) with
    | none => rw [hv] at h; exact absurd h (by simp)
    | some b =>
      rw [hv] at h
      cases b with
      | true =>
        simp only [Option.some.injEq] at h
        left
        exact ⟨hin, rfl, h.symm⟩
      | false =>
        simp only at h
        right
        refine ⟨hin, rfl, ?_⟩
        cases hu : tget g.cellUsage (pos.y + dy i) (pos.x + dx i) with
        | none => rw [hu] at h; exact absurd h (by simp)
        | some usage =>
          rw [hu] at h
          simp only at h
          cases ho : tget s.gScores (pos.y + dy i) (pos.x + dx i) with
          | none => rw [ho] at h; exact absurd h (by simp)
          | some old =>
            rw [ho] at h
            simp only at h
            refine ⟨usage, old, rfl, rfl, ?_⟩
            by_cases hlt : gc + waveguideLoss g dir i usage < old
            · rw [if_pos hlt] at h
              right
              cases hs : tset s.gScores (pos.y + dy i) (pos.x + dx i)
                  (gc + waveguideLoss g dir i usage) with
              | none => rw [hs] at h; exact absurd h (by simp)
              | some gs =>
                rw [hs] at h
                simp only [Option.some.injEq] at h
                exact ⟨hlt, gs, rfl, h.symm⟩
            · rw [if_neg hlt] at h
              simp only [Option.some.injEq] at h
              left
              exact ⟨hlt, h.symm⟩

theorem relax_null (pq : OpenSet) (g : Globals) (dest : Point) (i : Nat) (s : Search pq) :
    relax pq g dest .null i s = none := rfl

/-- A property that each pass of the neighbour loop carries from stage `i` to
stage `i + 1` holds at stage 4 after the loop. -/
theorem expand_induct (pq : OpenSet) (g : Globals) (dest : Point) (cur : NodePtr)
    (J : Nat → Search pq → Prop)
    (hstep : ∀ (i : Nat) (s s1 : Search pq), i < 4 → J i s →
      relax pq g dest cur i s = some s1 → J (i + 1) s1)
    (s s1 : Search pq) (h0 : J 0 s) (h : expand pq g dest cur s = some s1) : J 4 s1 := by
  unfold expand at h
  cases h1 : relax pq g dest cur 0 s with
  | none => rw [h1] at h; exact absurd h (by simp)
  | some a =>
    rw [h1] at h
    simp only [Option.some_bind] at h
    cases h2 : relax pq g dest cur 1 a with
    | none => rw [h2] at h; exact absurd h (by simp)
    | some b =>
      rw [h2] at h
      simp only [Option.some_bind] at h
      cases h3 : relax pq g dest cur 2 b with
      | none => rw [h3] at h; exact absurd h (by simp)
      | some c =>
        rw [h3] at h
        simp only [Option.some_bind] at h
        exact hstep 3 c s1 (by omega) (hstep 2 b c (by omega) (hstep 1 a b (by omega)
          (hstep 0 s a (by omega) h0 h1) h2) h3) h

theorem iterate_exhausted (pq : OpenSet) (g : Globals) (dest : Point) (s : Search pq)
    (h : iterate pq g dest s = .exhausted) : pq.toList s.openSet = [] := by
  unfold iterate at h
  cases hp : pq.pop s.openSet with
  | none => exact (pq.pop_none _).1 hp
  | some r =>
    obtain ⟨cur, q⟩ := r
    rw [hp] at h
    cases cur with
    | null => exact absurd h (by simp)
    | node pos gc fc dir par =>
      simp only at h
      cases hv : tget s.visitedCells pos.y pos.x with
      | none => rw [hv] at h; exact absurd h (by simp)
      | some b =>
        rw [hv] at h
        cases b with
        | true => exact absurd h (by simp)
        | false =>
          simp only at h
          cases hs : tset s.visitedCells pos.y pos.x true with
          | none => rw [hs] at h; exact absurd h (by simp)
          | some vis =>
            rw [hs] at h
            simp only at h
            split_ifs at h
            cases he : expand pq g dest (.node pos gc fc dir par)
                { openSet := q, gScores := s.gScores, visitedCells := vis } with
            | none => rw [he] at h; exact absurd h (by simp)
            | some s2 => rw [he] at h; exact absurd h (by simp)

theorem iterate_next_cases (pq : OpenSet) (g : Globals) (dest : Point) (s s1 : Search pq)
    (h : iterate pq g dest s = .next s1) :
    ∃ pos gc fc dir par q, pq.pop s.openSet = some (.node pos gc fc dir par, q) ∧
      ((tget s.visitedCells pos.y pos.x = some true ∧
          s1 = { openSet := q, gScores := s.gScores, visitedCells := s.visitedCells }) ∨
       (tget s.visitedCells pos.y pos.x = some false ∧
          ¬ (pos.x = dest.x ∧ pos.y = dest.y) ∧
          ∃ vis, tset s.visitedCells pos.y pos.x true = some vis ∧
            expand pq g dest (.node pos gc fc dir par)
              { openSet := q, gScores := s.gScores, visitedCells := vis } = some s1)) := by
  unfold iterate at h
  cases hp : pq.pop s.openSet with
  | none => rw [hp] at h; exact absurd h (by simp)
  | some r =>
    obtain ⟨cur, q⟩ := r
    rw [hp] at h
    cases cur with
    | null => exact absurd h (by simp)
    | node pos gc fc dir par =>
      simp only at h
      refine ⟨pos, gc, fc, dir, par, q, rfl, ?_⟩
      cases hv : tget s.visitedCells pos.y pos.x with
      | none => rw [hv] at h; exact absurd h (by simp)
      | some b =>
        rw [hv] at h
        cases b with
        | true =>
          simp only [Iteration.next.injEq] at h
          left
          exact ⟨rfl, h.symm⟩
        | false =>
          simp only at h
          right
          cases hs : tset s.visitedCells pos.y pos.x true with
          | none => rw [hs] at h; exact absurd h (by simp)
          | some vis =>
            rw [hs] at h
            simp only at h
            by_cases hd : pos.x = dest.x ∧ pos.y = dest.y
            · rw [if_pos hd] at h; exact absurd h (by simp)
            · rw [if_neg hd] at h
              cases he : expand pq g dest (.node pos gc fc dir par)
                  { openSet := q, gScores := s.gScores, visitedCells := vis } with
              | none => rw [he] at h; exact absurd h (by simp)
              | some s2 =>
                rw [he] at h
                simp only [Iteration.next.injEq] at h
                subst h
                exact ⟨rfl, hd, vis, rfl, he⟩

theorem iterate_found_cases (pq : OpenSet) (g : Globals) (dest : Point) (s s1 : Search pq)
    (goal : NodePtr) (h : iterate pq g dest s = .found s1 goal) :
    ∃ pos gc fc dir par q vis, goal = .node pos gc fc dir par ∧
      pq.pop s.openSet = some (goal, q) ∧
      tget s.visitedCells pos.y pos.x = some false ∧
      pos.x = dest.x ∧ pos.y = dest.y ∧
      tset s.visitedCells pos.y pos.x true = some vis ∧
      s1 = { openSet := q, gScores := s.gScores, visitedCells := vis } := by
  unfold iterate at h
  cases hp : pq.pop s.openSet with
  | none => rw [hp] at h; exact absurd h (by simp)
  | some r =>
    obtain ⟨cur, q⟩ := r
    rw [hp] at h
    cases cur with
    | null => exact absurd h (by simp)
    | node pos gc fc dir par =>
      simp only at h
      cases hv : tget s.visitedCells pos.y pos.x with
      | none => rw [hv] at h; exact absurd h (by simp)
      | some b =>
        rw [hv] at h
        cases b with
        | true => exact absurd h (by simp)
        | false =>
          simp only at h
          cases hs : tset s.visitedCells pos.y pos.x true with
          | none => rw [hs] at h; exact absurd h (by simp)
          | some vis =>
            rw [hs] at h
            simp only at h
            by_cases hd : pos.x = dest.x ∧ pos.y = dest.y
            · rw [if_pos hd] at h
              simp only [Iteration.found.injEq] at h
              obtain ⟨h1, h2⟩ := h
              subst h1 h2
              exact ⟨pos, gc, fc, dir, par, q, vis, rfl, rfl, hv, hd.1, hd.2, hs, rfl⟩
            · rw [if_neg hd] at h
              cases he : expand pq g dest (.node pos gc fc dir par)
                  { openSet := q, gScores := s.gScores, visitedCells := vis } with
              | none => rw [he] at h; exact absurd h (by simp)
              | some s2 => rw [he] at h; exact absurd h (by simp)

/-- Partial correctness of the loop: an invariant of the continuing
iterations holds in the state in which the last iteration started. -/
theorem aStarLoop_inv (pq : OpenSet) (g : Globals) (dest : Point)
    (I : Search pq → Prop)
    (hI : ∀ s s1, I s → iterate pq g dest s = .next s1 → I s1) :
    ∀ (fuel : Nat) (s : Search pq) (r : Search pq × NodePtr), I s →
      aStarLoop pq g dest fuel s = some r →
      ∃ s0, I s0 ∧ ((iterate pq g dest s0 = .exhausted ∧ r = (s0, .null)) ∨
        (iterate pq g dest s0 = .found r.1 r.2)) := by
  intro fuel
  induction fuel with
  | zero => intro s r _ h; simp [aStarLoop] at h
  | succ n ih =>
    intro s r hs h
    rw [aStarLoop] at h
    cases hit : iterate pq g dest s with
    | undefined => rw [hit] at h; exact absurd h (by simp)
    | exhausted =>
      rw [hit] at h
      simp only [Option.some.injEq] at h
      exact ⟨s, hs, Or.inl ⟨hit, h.symm⟩⟩
    | found s1 goal =>
      rw [hit] at h
      simp only [Option.some.injEq] at h
      subst h
      exact ⟨s, hs, Or.inr hit⟩
    | next s1 =>
      rw [hit] at h
      simp only at h
      exact ih s1 r (hI s s1 hs hit) h

/-! ## Nodes created by the search -/

theorem pop_mem (pq : OpenSet) (q q1 : pq.Q) (n : NodePtr) (h : pq.pop q = some (n, q1)) :
    n ∈ pq.toList q ∧ ∀ m ∈ pq.toList q1, m ∈ pq.toList q := by
  obtain ⟨hp, _⟩ := pq.pop_some q n q1 h
  refine ⟨hp.symm.subset (List.mem_cons_self _ _), ?_⟩
  intro m hm
  exact hp.symm.subset (List.mem_cons_of_mem _ hm)

theorem push_mem (pq : OpenSet) (q : pq.Q) (n m : NodePtr) :
    m ∈ pq.toList (pq.push q n) ↔ m = n ∨ m ∈ pq.toList q := by
  rw [(pq.toList_push q n).mem_iff, List.mem_cons]

theorem tget_tset_true_mono (vis vis1 : List (List Bool)) (y x : Int)
    (h : tset vis y x true = some vis1) (y1 x1 : Int) (h1 : tget vis y1 x1 = some true) :
    tget vis1 y1 x1 = some true := by
  rw [tget_tset vis vis1 y x true h]
  split_ifs
  · rfl
  · exact h1

theorem AncOK.mono (vis vis1 : List (List Bool)) (n : NodePtr)
    (hm : ∀ y x, tget vis y x = some true → tget vis1 y x = some true)
    (h : AncOK vis n) : AncOK vis1 n :=
  ⟨h.1, fun c hc => hm _ _ (h.2 c hc)⟩

/-- When a node is finalized its whole chain is duplicate-free and finalized. -/
theorem chain_ok_of_finalize (vis vis1 : List (List Bool)) (pos : Point) (gc fc : Dbl)
    (dir : Direction) (par : NodePtr)
    (ha : AncOK vis (.node pos gc fc dir par))
    (hv : tget vis pos.y pos.x = some false)
    (hs : tset vis pos.y pos.x true = some vis1) :
    (reversePath (.node pos gc fc dir par)).Nodup ∧
    ∀ c ∈ reversePath (.node pos gc fc dir par), tget vis1 c.y c.x = some true := by
  obtain ⟨h1, h2⟩ := ha
  simp only [NodePtr.parent] at h1 h2
  constructor
  · simp only [reversePath, List.nodup_cons]
    refine ⟨?_, h1⟩
    intro hmem
    have := h2 pos hmem
    rw [hv] at this
    exact absurd this (by simp)
  · intro c hc
    simp only [reversePath, List.mem_cons] at hc
    rcases hc with rfl | hc
    · exact tget_tset_self vis vis1 _ _ true hs
    · exact tget_tset_true_mono vis vis1 _ _ hs _ _ (h2 c hc)

theorem basic_relax (pq : OpenSet) (g : Globals) (net : Net) (pos : Point) (gc fc : Dbl)
    (dir : Direction) (par : NodePtr) (i : Nat) (hi : i < 4) (s s1 : Search pq)
    (hcur : NodeOK g net (.node pos gc fc dir par))
    (hchain : (reversePath (.node pos gc fc dir par)).Nodup ∧
      ∀ c ∈ reversePath (.node pos gc fc dir par), tget s.visitedCells c.y c.x = some true)
    (hb : Basic pq g net s)
    (h : relax pq g net.destination (.node pos gc fc dir par) i s = some s1) :
    s1.visitedCells = s.visitedCells ∧ Basic pq g net s1 := by
  rcases relax_cases pq g net.destination pos gc fc dir par i s s1 h with
    ⟨_, rfl⟩ | ⟨_, _, rfl⟩ | ⟨hin, _, usage, old, hu, _, ⟨_, rfl⟩ | ⟨_, gs, _, rfl⟩⟩
  · exact ⟨rfl, hb⟩
  · exact ⟨rfl, hb⟩
  · exact ⟨rfl, hb⟩
  · refine ⟨rfl, ?_⟩
    intro n hn
    simp only at hn
    rcases (push_mem pq _ _ _).1 hn with rfl | hn
    · exact ⟨NodeOK.step pos gc fc dir par i usage hcur hi hin hu, hchain⟩
    · exact hb n hn

theorem basic_expand (pq : OpenSet) (g : Globals) (net : Net) (pos : Point) (gc fc : Dbl)
    (dir : Direction) (par : NodePtr) (s s1 : Search pq)
    (hcur : NodeOK g net (.node pos gc fc dir par))
    (hchain : (reversePath (.node pos gc fc dir par)).Nodup ∧
      ∀ c ∈ reversePath (.node pos gc fc dir par), tget s.visitedCells c.y c.x = some true)
    (hb : Basic pq g net s)
    (h : expand pq g net.destination (.node pos gc fc dir par) s = some s1) :
    s1.visitedCells = s.visitedCells ∧ Basic pq g net s1 := by
  refine expand_induct pq g net.destination (.node pos gc fc dir par)
    (fun _ t => t.visitedCells = s.visitedCells ∧ Basic pq g net t) ?_ s s1 ⟨rfl, hb⟩ h
  intro i t t1 hi ht hr
  have hchain1 : (reversePath (.node pos gc fc dir par)).Nodup ∧
      ∀ c ∈ reversePath (.node pos gc fc dir par), tget t.visitedCells c.y c.x = some true := by
    rw [ht.1]; exact hchain
  obtain ⟨e, hb1⟩ := basic_relax pq g net pos gc fc dir par i hi t t1 hcur hchain1 ht.2 hr
  exact ⟨e.trans ht.1, hb1⟩

theorem basic_next (pq : OpenSet) (g : Globals) (net : Net) (s s1 : Search pq)
    (hb : Basic pq g net s) (h : iterate pq g net.destination s = .next s1) :
    Basic pq g net s1 := by
  obtain ⟨pos, gc, fc, dir, par, q, hp, hcase⟩ := iterate_next_cases pq g net.destination s s1 h
  obtain ⟨hcur, hrest⟩ := pop_mem pq _ _ _ hp
  rcases hcase with ⟨_, rfl⟩ | ⟨hv, _, vis, hs, he⟩
  · intro n hn
    exact hb n (hrest n hn)
  · have hchain := chain_ok_of_finalize s.visitedCells vis pos gc fc dir par
      (hb _ hcur).2 hv hs
    have hb0 : Basic pq g net
        { openSet := q, gScores := s.gScores, visitedCells := vis } := by
      intro n hn
      have := hb n (hrest n hn)
      exact ⟨this.1, AncOK.mono _ _ _ (tget_tset_true_mono _ _ _ _ hs) this.2⟩
    exact (basic_expand pq g net pos gc fc dir par _ s1 (hb _ hcur).1 hchain hb0 he).2

theorem basic_init (pq : OpenSet) (g : Globals) (net : Net) (gs : List (List Dbl))
    (vis : List (List Bool)) :
    Basic pq g net
      { openSet := pq.push pq.empty
          (.node net.source 0 (heuristic g.propagationLoss net.source net.destination)
            Direction.NONE .null),
        gScores := gs, visitedCells := vis } := by
  intro n hn
  simp only at hn
  rcases (push_mem pq _ _ _).1 hn with rfl | hn
  · refine ⟨NodeOK.start, ?_⟩
    unfold AncOK
    simp [NodePtr.parent, reversePath]
  · rw [pq.toList_empty] at hn
    exact absurd hn (List.not_mem_nil _)

theorem initialSearch_cases (pq : OpenSet) (g : Globals) (net : Net) (s0 : Search pq)
    (h : initialSearch pq g net = some s0) :
    ∃ gs0 vis0 gs1, fillRows g.rows.toNat g.gScores dblMax = some gs0 ∧
      fillRows g.rows.toNat g.visitedCells false = some vis0 ∧
      tset gs0 net.source.y net.source.x 0 = some gs1 ∧
      s0 = { openSet := pq.push pq.empty
               (.node net.source 0 (heuristic g.propagationLoss net.source net.destination)
                 Direction.NONE .null),
             gScores := gs1, visitedCells := vis0 } := by
  unfold initialSearch at h
  cases h1 : fillRows g.rows.toNat g.gScores dblMax with
  | none => rw [h1] at h; exact absurd h (by simp)
  | some gs0 =>
    cases h2 : fillRows g.rows.toNat g.visitedCells false with
    | none => rw [h1, h2] at h; exact absurd h (by simp)
    | some vis0 =>
      rw [h1, h2] at h
      simp only at h
      cases h3 : tset gs0 net.source.y net.source.x 0 with
      | none => rw [h3] at h; exact absurd h (by simp)
      | some gs1 =>
        rw [h3] at h
        simp only [Option.some.injEq] at h
        exact ⟨gs0, vis0, gs1, rfl, rfl, h3, h.symm⟩

/-- What the loop hands to the path reconstruction: either no goal node, or a
node created by the search, positioned at the destination, whose chain has no
repeated cell. -/
theorem search_goal (pq : OpenSet) (g : Globals) (net : Net) (s : Search pq) (goal : NodePtr)
    (h : search pq g net = some (s, goal)) :
    goal = .null ∨
    (NodeOK g net goal ∧ (reversePath goal).Nodup ∧
      (reversePath goal).head? = some net.destination) := by
  unfold search at h
  cases hi : initialSearch pq g net with
  | none => rw [hi] at h; exact absurd h (by simp)
  | some st =>
    rw [hi] at h
    simp only at h
    obtain ⟨gs0, vis0, gs1, _, _, _, rfl⟩ := initialSearch_cases pq g net st hi
    obtain ⟨s0, hb, hfin⟩ := aStarLoop_inv pq g net.destination (Basic pq g net)
      (fun a b ha hab => basic_next pq g net a b ha hab) _ _ _
      (basic_init pq g net gs1 vis0) h
    rcases hfin with ⟨_, he⟩ | hf
    · left
      simp only [Prod.mk.injEq] at he
      exact he.2
    · right
      obtain ⟨pos, gc, fc, dir, par, q, vis, hg, hp, hv, hx, hy, hs, _⟩ :=
        iterate_found_cases pq g net.destination s0 _ _ hf
      simp only at hg
      subst hg
      obtain ⟨hcur, _⟩ := pop_mem pq _ _ _ hp
      have hchain := chain_ok_of_finalize s0.visitedCells vis pos gc fc dir par
        (hb _ hcur).2 hv hs
      refine ⟨(hb _ hcur).1, hchain.1, ?_⟩
      simp only [reversePath, List.head?_cons, Option.some.injEq]
      cases pos
      cases hd : net.destination
      rw [hd] at hx hy
      simp only at hx hy
      subst hx hy
      rfl

/-! ## Shape of the reconstructed path -/

theorem adjacent_symm (p q : Point) (h : Adjacent p q) : Adjacent q p := by
  unfold Adjacent at *
  rcases h with ⟨h1, h2⟩ | ⟨h1, h2⟩
  · left; exact ⟨by rw [abs_sub_comm]; exact h1, h2.symm⟩
  · right; exact ⟨h1.symm, by rw [abs_sub_comm]; exact h2⟩

theorem fourConnected_snoc : ∀ (l : List Point) (q : Point), FourConnected l →
    (∀ p, l.getLast? = some p → Adjacent p q) → FourConnected (l ++ [q]) := by
  intro l
  induction l with
  | nil => intro q _ _; simp [FourConnected]
  | cons a rest ih =>
    intro q hc hl
    cases rest with
    | nil =>
      simp only [List.cons_append, List.nil_append, FourConnected, and_true]
      exact hl a rfl
    | cons b rest2 =>
      simp only [List.cons_append, FourConnected] at hc ⊢
      refine ⟨hc.1, ?_⟩
      have := ih q hc.2 (fun p hp => hl p (by rw [List.getLast?_cons_cons]; exact hp))
      simpa using this

theorem reversePath_node (pos : Point) (gc fc : Dbl) (dir : Direction) (par : NodePtr) :
    reversePath (.node pos gc fc dir par) = pos :: reversePath par := rfl

/-- The chain of a node created by the search, read from its root, is a
4-connected path that starts at the source; every cell after the source is
inside the grid. -/
theorem nodeOK_path (g : Globals) (net : Net) (n : NodePtr) (h : NodeOK g net n) :
    n ≠ .null ∧ (reversePath n).reverse.head? = some net.source ∧
    FourConnected (reversePath n).reverse ∧
    ∀ c ∈ reversePath n, c = net.source ∨ InGrid g c := by
  induction h with
  | start =>
    refine ⟨by simp, by simp [reversePath], by simp [reversePath, FourConnected], ?_⟩
    intro c hc
    simp only [reversePath, List.mem_singleton] at hc
    exact Or.inl hc
  | step pos gc fc dir par i usage hcur hi hin hu ih =>
    obtain ⟨_, h1, h2, h3⟩ := ih
    refine ⟨by simp, ?_, ?_, ?_⟩
    · rw [reversePath_node, List.reverse_cons]
      rw [List.head?_append_of_ne_nil _ (by simp [reversePath_node])]
      exact h1
    · rw [reversePath_node, List.reverse_cons]
      apply fourConnected_snoc _ _ h2
      intro p hp
      rw [List.getLast?_reverse, reversePath_node, List.head?_cons] at hp
      simp only [Option.some.injEq] at hp
      subst hp
      exact adjacent_of_step pos i hi
    · intro c hc
      rw [reversePath_node, List.mem_cons] at hc
      rcases hc with rfl | hc
      · exact Or.inr hin
      · exact h3 c hc

/-! ## The usage update -/

theorem incrementUsage_spec : ∀ (path : List Point) (usage usage1 : List (List Int)),
    incrementUsage usage path = some usage1 →
    ∀ y x, tget usage1 y x = (tget usage y x).map (fun u => u + (occurrences path y x : Int)) := by
  intro path
  induction path with
  | nil =>
    intro usage usage1 h y x
    simp only [incrementUsage, Option.some.injEq] at h
    subst h
    cases tget usage y x <;> simp [occurrences]
  | cons p rest ih =>
    intro usage usage1 h y x
    rw [incrementUsage] at h
    cases h1 : tget usage p.y p.x with
    | none => rw [h1] at h; exact absurd h (by simp)
    | some u =>
      rw [h1] at h
      simp only at h
      cases h2 : tset usage p.y p.x (u + 1) with
      | none => rw [h2] at h; exact absurd h (by simp)
      | some usage2 =>
        rw [h2] at h
        simp only at h
        rw [ih usage2 usage1 h y x, tget_tset usage usage2 p.y p.x (u + 1) h2 y x]
        unfold occurrences
        by_cases hyx : y = p.y ∧ x = p.x
        · obtain ⟨rfl, rfl⟩ := hyx
          simp only [and_self, if_true, Option.map_some', h1, List.count_cons_self]
          congr 1
          push_cast
          ring
        · simp only [hyx, if_false]
          have hne : (p == (⟨x, y⟩ : Point)) = false := by
            rw [beq_eq_false_iff_ne]
            intro he
            apply hyx
            rw [he]
            exact ⟨rfl, rfl⟩
          rw [List.count_cons, hne]
          simp

theorem aStarRouting_of_goal (pq : OpenSet) (g : Globals) (net : Net) (goal : NodePtr)
    (h : goalNode pq g net = some goal) :
    ∃ s : Search pq, search pq g net = some (s, goal) ∧
      aStarRouting pq g net =
        match goal with
        | .null => some ({ g with gScores := s.gScores, visitedCells := s.visitedCells }, net)
        | .node _ _ _ _ _ =>
          match incrementUsage g.cellUsage (reversePath goal).reverse with
          | none => none
          | some usage =>
            some ({ g with gScores := s.gScores, visitedCells := s.visitedCells,
                           cellUsage := usage },
                  { net with path := (reversePath goal).reverse }) := by
  unfold goalNode at h
  cases hs : search pq g net with
  | none => rw [hs] at h; exact absurd h (by simp)
  | some r =>
    obtain ⟨s, goal1⟩ := r
    rw [hs] at h
    simp only [Option.map_some', Option.some.injEq] at h
    subst h
    refine ⟨s, rfl, ?_⟩
    unfold aStarRouting
    rw [hs]
    cases goal1 <;> rfl

/-- A successful call stores the reversed chain of the goal node and
increments the usage along it. -/
theorem aStarRouting_success (pq : OpenSet) (g g1 : Globals) (net net1 : Net)
    (goal : NodePtr) (hgoal : goalNode pq g net = some goal) (hnn : goal ≠ .null)
    (hr : aStarRouting pq g net = some (g1, net1)) :
    net1 = { net with path := (reversePath goal).reverse } ∧
    incrementUsage g.cellUsage (reversePath goal).reverse = some g1.cellUsage ∧
    NodeOK g net goal ∧ (reversePath goal).Nodup ∧
    (reversePath goal).head? = some net.destination := by
  obtain ⟨s, hs, ha⟩ := aStarRouting_of_goal pq g net goal hgoal
  have hg := search_goal pq g net s goal hs
  rcases hg with hnull | ⟨h1, h2, h3⟩
  · exact absurd hnull hnn
  · cases goal with
    | null => exact absurd rfl hnn
    | node pos gc fc dir par =>
      rw [hr] at ha
      simp only at ha
      cases hi : incrementUsage g.cellUsage (reversePath (.node pos gc fc dir par)).reverse with
      | none => rw [hi] at ha; exact absurd ha (by simp)
      | some usage =>
        rw [hi] at ha
        simp only [Option.some.injEq, Prod.mk.injEq] at ha
        obtain ⟨e1, e2⟩ := ha
        subst e1 e2
        exact ⟨rfl, rfl, h1, h2, h3⟩

/-- The path stored by a successful call is non-empty, runs from the source to
the destination, and is 4-connected. -/
theorem stored_path_shape (pq : OpenSet) (g g1 : Globals) (net net1 : Net)
    (goal : NodePtr) (hgoal : goalNode pq g net = some goal) (hnn : goal ≠ .null)
    (hr : aStarRouting pq g net = some (g1, net1)) :
    net1.path ≠ [] ∧ net1.path.head? = some net.source ∧
    net1.path.getLast? = some net.destination ∧ FourConnected net1.path := by
  obtain ⟨e, _, hok, _, hd⟩ := aStarRouting_success pq g g1 net net1 goal hgoal hnn hr
  have hp := nodeOK_path g net goal hok
  rw [e]
  refine ⟨?_, hp.2.1, ?_, hp.2.2.1⟩
  · intro he
    have h1 := hp.2.1
    simp only at he
    rw [he] at h1
    simp at h1
  · simp only
    rw [List.getLast?_reverse]
    exact hd

/-- C2: when `aStarRouting` stores a path (the loop ended with a non-null
`goalNode`), the path is non-empty, its first point is the net's source, its
last point is the net's destination, and every two consecutive points differ
by exactly 1 in exactly one coordinate. -/
theorem stored_path_connects (pq : OpenSet) (g g1 : Globals) (net net1 : Net)
    (goal : NodePtr) (hgoal : goalNode pq g net = some goal) (hnn : goal ≠ .null)
    (hr : aStarRouting pq g net = some (g1, net1)) :
    net1.path ≠ [] ∧ net1.path.head? = some net.source ∧
    net1.path.getLast? = some net.destination ∧ FourConnected net1.path := by
  obtain ⟨e, _, hok, _, hd⟩ := aStarRouting_success pq g g1 net net1 goal hgoal hnn hr
  obtain ⟨_, h1, h2, _⟩ := nodeOK_path g net goal hok
  subst e
  simp only
  refine ⟨?_, h1, ?_, h2⟩
  · intro he
    rw [he] at h1
    simp at h1
  · rw [List.getLast?_reverse]
    exact hd

/-- C2 (witness): the 2x1 grid with the net from (0,0) to (1,0). -/
theorem stored_path_connects_witness :
    lineNetRouted.path ≠ [] ∧ lineNetRouted.path.head? = some lineNet.source ∧
    lineNetRouted.path.getLast? = some lineNet.destination ∧
    FourConnected lineNetRouted.path :=
  stored_path_connects listOpenSet lineGlobals lineGlobalsRouted lineNet lineNetRouted
    lineGoal (by decide!) (by decide) (by decide!)

theorem usageNonneg_iff (g : Globals) :
    UsageNonneg g ↔ ∀ y x u, tget g.cellUsage y x = some u → 0 ≤ u := by
  constructor
  · intro h y x u hu
    obtain ⟨row, h1, h2⟩ := tget_mem _ _ _ _ hu
    exact h row h1 u h2
  · intro h row hrow u hu
    obtain ⟨i, hi, e1⟩ := List.mem_iff_getElem.1 hrow
    obtain ⟨j, hj, e2⟩ := List.mem_iff_getElem.1 hu
    apply h (i : Int) (j : Int) u
    unfold tget
    have h0 : (0 : Int) ≤ (i : Int) ∧ (0 : Int) ≤ (j : Int) := ⟨by omega, by omega⟩
    rw [if_pos h0]
    simp only [Int.toNat_ofNat]
    rw [List.getElem?_eq_getElem hi, e1]
    simp only
    rw [List.getElem?_eq_getElem hj, e2]

/-- Every call changes the usage table by adding, at each cell, the number of
times the cell occurs on some path (the empty path when nothing is stored). -/
theorem aStarRouting_usage (pq : OpenSet) (g g1 : Globals) (net net1 : Net)
    (h : aStarRouting pq g net = some (g1, net1)) :
    ∃ path : List Point, ∀ y x,
      tget g1.cellUsage y x =
        (tget g.cellUsage y x).map (fun u => u + (occurrences path y x : Int)) := by
  unfold aStarRouting at h
  cases hs : search pq g net with
  | none => rw [hs] at h; exact absurd h (by simp)
  | some r =>
    obtain ⟨s, goal⟩ := r
    rw [hs] at h
    cases goal with
    | null =>
      simp only [Option.some.injEq, Prod.mk.injEq] at h
      refine ⟨[], ?_⟩
      intro y x
      rw [← h.1]
      cases tget g.cellUsage y x <;> simp [occurrences]
    | node pos gc fc dir par =>
      simp only at h
      cases hi : incrementUsage g.cellUsage (reversePath (NodePtr.node pos gc fc dir par)).reverse with
      | none => rw [hi] at h; exact absurd h (by simp)
      | some u =>
        rw [hi] at h
        simp only [Option.some.injEq, Prod.mk.injEq] at h
        refine ⟨(reversePath (NodePtr.node pos gc fc dir par)).reverse, ?_⟩
        intro y x
        rw [← h.1]
        exact incrementUsage_spec _ _ _ hi y x

theorem aStarRouting_usage_mono (pq : OpenSet) (g g1 : Globals) (net net1 : Net)
    (h : aStarRouting pq g net = some (g1, net1)) :
    (∀ y x u, tget g.cellUsage y x = some u →
      ∃ u1, tget g1.cellUsage y x = some u1 ∧ u ≤ u1) ∧
    (UsageNonneg g → UsageNonneg g1) := by
  obtain ⟨path, hp⟩ := aStarRouting_usage pq g g1 net net1 h
  constructor
  · intro y x u hu
    refine ⟨u + (occurrences path y x : Int), ?_, by omega⟩
    rw [hp y x, hu]
    rfl
  · intro hg
    rw [usageNonneg_iff] at hg ⊢
    intro y x u hu
    rw [hp y x] at hu
    cases h0 : tget g.cellUsage y x with
    | none => rw [h0] at hu; exact absurd hu (by simp)
    | some u0 =>
      rw [h0] at hu
      simp only [Option.map_some', Option.some.injEq] at hu
      have := hg y x u0 h0
      omega

theorem usageLe_refl (a : List (List Int)) : UsageLe a a :=
  fun _ _ u hu => ⟨u, hu, le_refl u⟩

theorem usageLe_trans (a b c : List (List Int)) (h1 : UsageLe a b) (h2 : UsageLe b c) :
    UsageLe a c := by
  intro y x u hu
  obtain ⟨v, hv, l1⟩ := h1 y x u hu
  obtain ⟨w, hw, l2⟩ := h2 y x v hv
  exact ⟨w, hw, le_trans l1 l2⟩

theorem mem_of_getElem_some {α : Type} (l : List α) (i : Nat) (a : α) (h : l[i]? = some a) :
    a ∈ l := by
  obtain ⟨h1, h2⟩ := List.getElem?_eq_some.1 h
  rw [← h2]
  exact List.getElem_mem h1

/-- The routing loop and its log agree: the nets passed are the nets of the
container, in container order, and the nets returned are those of the loop. -/
theorem routingCalls_of_routeAll (pq : OpenSet) : ∀ (l : List Net) (g g1 : Globals)
    (routed : List Net), routeAll pq g l = some (g1, routed) →
    ∃ calls, routingCalls pq g l = some calls ∧
      calls.map (fun c => c.net) = l ∧ calls.map (fun c => c.routed) = routed := by
  intro l
  induction l with
  | nil =>
    intro g g1 routed h
    simp only [routeAll, Option.some.injEq, Prod.mk.injEq] at h
    exact ⟨[], rfl, rfl, by rw [← h.2]; rfl⟩
  | cons net rest ih =>
    intro g g1 routed h
    simp only [routeAll] at h
    cases ha : aStarRouting pq g net with
    | none => rw [ha] at h; exact absurd h (by simp)
    | some r =>
      obtain ⟨ga, neta⟩ := r
      rw [ha] at h
      simp only at h
      cases hb : routeAll pq ga rest with
      | none => rw [hb] at h; exact absurd h (by simp)
      | some r2 =>
        obtain ⟨gb, restb⟩ := r2
        rw [hb] at h
        simp only [Option.some.injEq, Prod.mk.injEq] at h
        obtain ⟨calls, hc, h1, h2⟩ := ih ga gb restb hb
        refine ⟨⟨g, net, ga, neta⟩ :: calls, ?_, ?_, ?_⟩
        · simp only [routingCalls, ha, hc]
        · simp only [List.map_cons, h1]
        · simp only [List.map_cons, h2]
          exact h.2

/-- Every entry of the log is a call of `aStarRouting`; the first call starts
from the globals of the loop, every other call from the globals the call
before it left; and the usage counters at the start of a call are at least
those any earlier call left. -/
theorem routingCalls_spec (pq : OpenSet) : ∀ (l : List Net) (g : Globals)
    (calls : List RoutingCall), routingCalls pq g l = some calls →
    (∀ c ∈ calls, aStarRouting pq c.before c.net = some (c.after, c.routed)) ∧
    (∀ c, calls.head? = some c → c.before = g) ∧
    (∀ (i : Nat) (c d : RoutingCall), calls[i]? = some c → calls[i + 1]? = some d →
      d.before = c.after) ∧
    (∀ c ∈ calls, UsageLe g.cellUsage c.before.cellUsage) ∧
    (∀ (i j : Nat) (c d : RoutingCall), i < j → calls[i]? = some c → calls[j]? = some d →
      UsageLe c.after.cellUsage d.before.cellUsage) := by
  intro l
  induction l with
  | nil =>
    intro g calls h
    simp only [routingCalls, Option.some.injEq] at h
    subst h
    refine ⟨?_, ?_, ?_, ?_, ?_⟩
    · intro c hc; exact absurd hc (List.not_mem_nil _)
    · intro c hc; simp at hc
    · intro i c d hc; simp at hc
    · intro c hc; exact absurd hc (List.not_mem_nil _)
    · intro i j c d _ hc; simp at hc
  | cons net rest ih =>
    intro g calls h
    simp only [routingCalls] at h
    cases ha : aStarRouting pq g net with
    | none => rw [ha] at h; exact absurd h (by simp)
    | some r =>
      obtain ⟨ga, neta⟩ := r
      rw [ha] at h
      simp only at h
      cases hb : routingCalls pq ga rest with
      | none => rw [hb] at h; exact absurd h (by simp)
      | some calls1 =>
        rw [hb] at h
        simp only [Option.some.injEq] at h
        subst h
        obtain ⟨i1, i2, i3, i4, i5⟩ := ih ga calls1 hb
        have hmono : UsageLe g.cellUsage ga.cellUsage :=
          (aStarRouting_usage_mono pq g ga net neta ha).1
        refine ⟨?_, ?_, ?_, ?_, ?_⟩
        · intro c hc
          rcases List.mem_cons.1 hc with rfl | hc2
          · exact ha
          · exact i1 c hc2
        · intro c hc
          simp only [List.head?_cons, Option.some.injEq] at hc
          rw [← hc]
        · intro i c d hc hd
          cases i with
          | zero =>
            simp only [List.getElem?_cons_zero, Option.some.injEq] at hc
            simp only [zero_add, List.getElem?_cons_succ] at hd
            rw [← hc]
            apply i2 d
            cases calls1 with
            | nil => simp at hd
            | cons a rest1 =>
              simp only [List.getElem?_cons_zero, Option.some.injEq] at hd
              simp only [List.head?_cons, hd]
          | succ n =>
            simp only [List.getElem?_cons_succ] at hc hd
            exact i3 n c d hc hd
        · intro c hc
          rcases List.mem_cons.1 hc with rfl | hc2
          · exact usageLe_refl _
          · exact usageLe_trans _ _ _ hmono (i4 c hc2)
        · intro i j c d hij hc hd
          cases j with
          | zero => omega
          | succ m =>
            simp only [List.getElem?_cons_succ] at hd
            cases i with
            | zero =>
              simp only [List.getElem?_cons_zero, Option.some.injEq] at hc
              rw [← hc]
              exact i4 d (mem_of_getElem_some _ _ _ hd)
            | succ n =>
              simp only [List.getElem?_cons_succ] at hc
              exact i5 n m c d (by omega) hc hd

/-- A call for a net that carries no path yet adds at least 1 to the usage
counter of every cell of the path it stores. -/
theorem aStarRouting_commit (pq : OpenSet) (g g1 : Globals) (net net1 : Net)
    (h : aStarRouting pq g net = some (g1, net1)) (hp : net.path = []) :
    ∀ q ∈ net1.path, ∀ u, tget g.cellUsage q.y q.x = some u →
      ∃ v, tget g1.cellUsage q.y q.x = some v ∧ u + 1 ≤ v := by
  unfold aStarRouting at h
  cases hs : search pq g net with
  | none => rw [hs] at h; exact absurd h (by simp)
  | some r =>
    obtain ⟨s, goal⟩ := r
    rw [hs] at h
    cases goal with
    | null =>
      simp only [Option.some.injEq, Prod.mk.injEq] at h
      intro q hq
      rw [← h.2, hp] at hq
      exact absurd hq (List.not_mem_nil _)
    | node pos gc fc dir par =>
      simp only at h
      cases hi : incrementUsage g.cellUsage
          (reversePath (NodePtr.node pos gc fc dir par)).reverse with
      | none => rw [hi] at h; exact absurd h (by simp)
      | some u1 =>
        rw [hi] at h
        simp only [Option.some.injEq, Prod.mk.injEq] at h
        intro q hq u hu
        rw [← h.2] at hq
        simp only at hq
        rw [← h.1]
        simp only
        rw [incrementUsage_spec _ _ _ hi q.y q.x, hu]
        refine ⟨_, rfl, ?_⟩
        show u + 1 ≤ u +
          (occurrences (reversePath (NodePtr.node pos gc fc dir par)).reverse q.y q.x : Int)
        have hc : 0 < occurrences (reversePath (NodePtr.node pos gc fc dir par)).reverse
            q.y q.x := by
          unfold occurrences
          exact List.count_pos_iff.2 hq
        omega

/-- C8: when `main` runs to the end, its routing loop makes one call
`aStarRouting(net)` per net, and the nets passed, in call order, are the
container after `std::sort` with `NetComparator`: a permutation of the input
nets that is non-increasing in `halfPerimeterWireLength`.  The first call
starts from the initialized globals, every other call from the globals the
call before it left, and the nets the calls return are what `writeOutput`
writes.  For every two nets with unequal lengths the call for the longer one
comes first, and when the call for the shorter one starts, every usage counter
is at least what the call for the longer one left, and the counter of every
cell on the path stored for the longer one is at least 1 above its value
before that call. -/
theorem routing_order_descending (pq : OpenSet) (srt : SortAlgorithm) (inp : Input)
    (out : List NetOutput) (h : main pq srt inp = some out) :
    ∃ g calls, initializeGlobals inp = some g ∧
      routingCalls pq { g with nets := routingOrder srt g.nets } (routingOrder srt g.nets) =
        some calls ∧
      writeOutput (calls.map fun c => c.routed) = some out ∧
      (∀ c ∈ calls, aStarRouting pq c.before c.net = some (c.after, c.routed)) ∧
      (∀ c, calls.head? = some c → c.before = { g with nets := routingOrder srt g.nets }) ∧
      (∀ (i : Nat) (c d : RoutingCall), calls[i]? = some c → calls[i + 1]? = some d →
        d.before = c.after) ∧
      (calls.map fun c => c.net).Perm (inp.records.map recordNet) ∧
      (calls.map fun c => c.net).Pairwise
        (fun a b => a.halfPerimeterWireLength ≥ b.halfPerimeterWireLength) ∧
      (∀ (i j : Nat) (c d : RoutingCall), calls[i]? = some c → calls[j]? = some d →
        c.net.halfPerimeterWireLength > d.net.halfPerimeterWireLength →
        i < j ∧ UsageLe c.after.cellUsage d.before.cellUsage ∧
        ∀ q ∈ c.routed.path, ∀ u, tget c.before.cellUsage q.y q.x = some u →
          ∃ v, tget d.before.cellUsage q.y q.x = some v ∧ u + 1 ≤ v) := by
  unfold main at h
  cases hg : initializeGlobals inp with
  | none => rw [hg] at h; exact absurd h (by simp)
  | some g =>
    rw [hg] at h
    simp only at h
    cases hr : routeAll pq { g with nets := routingOrder srt g.nets }
        (routingOrder srt g.nets) with
    | none => rw [hr] at h; exact absurd h (by simp)
    | some r =>
      obtain ⟨g2, routed⟩ := r
      rw [hr] at h
      simp only at h
      obtain ⟨calls, hc, hnets, hrouted⟩ := routingCalls_of_routeAll pq _ _ _ _ hr
      obtain ⟨s1, s2, s3, _, s5⟩ := routingCalls_spec pq _ _ _ hc
      have hnets0 := initializeGlobals_nets inp g hg
      have hsorted : (calls.map fun c => c.net).Pairwise
          (fun a b => a.halfPerimeterWireLength ≥ b.halfPerimeterWireLength) := by
        rw [hnets]
        refine (srt.sorted g.nets).imp ?_
        intro a b hab
        unfold NetComparator at hab
        omega
      refine ⟨g, calls, rfl, hc, by rw [hrouted]; exact h, s1, s2, s3, ?_, hsorted, ?_⟩
      · rw [hnets, ← hnets0]
        exact srt.perm g.nets
      · intro i j c d hi hj hlen
        have hi2 : (calls.map fun c => c.net)[i]? = some c.net := by
          rw [List.getElem?_map, hi]; rfl
        have hj2 : (calls.map fun c => c.net)[j]? = some d.net := by
          rw [List.getElem?_map, hj]; rfl
        have hij : i < j := by
          by_contra hcon
          rcases Nat.lt_or_ge j i with hlt | hge
          · have := pairwise_index_lt _ _ hsorted j i d.net c.net hj2 hi2 hlt
            omega
          · have e : i = j := by omega
            subst e
            rw [hi] at hj
            simp only [Option.some.injEq] at hj
            subst hj
            omega
        have hle := s5 i j c d hij hi hj
        refine ⟨hij, hle, ?_⟩
        intro q hq u hu
        have hcm : c.net ∈ g.nets := by
          have h1 : c.net ∈ calls.map fun c => c.net :=
            List.mem_map.2 ⟨c, mem_of_getElem_some _ _ _ hi, rfl⟩
          rw [hnets] at h1
          exact (srt.perm g.nets).mem_iff.1 h1
        have hpath : c.net.path = [] := by
          rw [hnets0, List.mem_map] at hcm
          obtain ⟨r, _, e⟩ := hcm
          rw [← e]
          rfl
        obtain ⟨v, hv, l1⟩ := aStarRouting_commit pq _ _ _ _
          (s1 c (mem_of_getElem_some _ _ _ hi)) hpath q hq u hu
        obtain ⟨w, hw, l2⟩ := hle q.y q.x v hv
        exact ⟨w, hw, by omega⟩

/-- On `swapInput`, which lists net 1 (length 1) before net 2 (length 2), the
routing loop of `main` first calls `aStarRouting` for net 2 and then, from the
globals that call left, for net 1. -/
theorem swap_routing_calls :
    initializeGlobals swapInput = some swapGlobals ∧
    routingOrder insertionSortAlg swapGlobals.nets = swapGlobalsSorted.nets ∧
    routingCalls listOpenSet swapGlobalsSorted swapGlobalsSorted.nets =
      some [⟨swapGlobalsSorted, Net.new 2 ⟨0, 0⟩ ⟨2, 0⟩, swapGlobalsMiddle,
              { Net.new 2 ⟨0, 0⟩ ⟨2, 0⟩ with path := [⟨0, 0⟩, ⟨1, 0⟩, ⟨2, 0⟩] }⟩,
            ⟨swapGlobalsMiddle, Net.new 1 ⟨0, 0⟩ ⟨1, 0⟩, swapGlobalsRouted,
              { Net.new 1 ⟨0, 0⟩ ⟨1, 0⟩ with path := [⟨0, 0⟩, ⟨1, 0⟩] }⟩] := by
  refine ⟨by decide!, by decide!, by decide!⟩

/-- C8 (witness): the statement at `swapInput`. -/
theorem routing_order_descending_witness :
    ∃ g calls, initializeGlobals swapInput = some g ∧
      routingCalls listOpenSet { g with nets := routingOrder insertionSortAlg g.nets } (routingOrder insertionSortAlg g.nets) =
        some calls ∧
      writeOutput (calls.map fun c => c.routed) =
        some [⟨2, 2, [⟨0, 0, 1, 0⟩, ⟨1, 0, 2, 0⟩]⟩, ⟨1, 1, [⟨0, 0, 1, 0⟩]⟩] ∧
      (∀ c ∈ calls, aStarRouting listOpenSet c.before c.net = some (c.after, c.routed)) ∧
      (∀ c, calls.head? = some c → c.before = { g with nets := routingOrder insertionSortAlg g.nets }) ∧
      (∀ (i : Nat) (c d : RoutingCall), calls[i]? = some c → calls[i + 1]? = some d →
        d.before = c.after) ∧
      (calls.map fun c => c.net).Perm (swapInput.records.map recordNet) ∧
      (calls.map fun c => c.net).Pairwise
        (fun a b => a.halfPerimeterWireLength ≥ b.halfPerimeterWireLength) ∧
      (∀ (i j : Nat) (c d : RoutingCall), calls[i]? = some c → calls[j]? = some d →
        c.net.halfPerimeterWireLength > d.net.halfPerimeterWireLength →
        i < j ∧ UsageLe c.after.cellUsage d.before.cellUsage ∧
        ∀ q ∈ c.routed.path, ∀ u, tget c.before.cellUsage q.y q.x = some u →
          ∃ v, tget d.before.cellUsage q.y q.x = some v ∧ u + 1 ≤ v) :=
  routing_order_descending listOpenSet insertionSortAlg swapInput _ (by decide!)

/-! ## Totality of the search -/

theorem tableDims_tset {α : Type} (g : Globals) (t t1 : List (List α)) (y x : Int) (v : α)
    (ht : TableDims g t) (h : tset t y x v = some t1) : TableDims g t1 := by
  intro y1 x1
  rw [tget_tset t t1 y x v h, ← ht y1 x1]
  split_ifs with hc
  · obtain ⟨rfl, rfl⟩ := hc
    obtain ⟨w, hw⟩ := tget_of_tset t t1 _ _ v h
    simp [hw]
  · rfl

theorem tableDims_of_hasDims {α : Type} (g : Globals) (t : List (List α))
    (h : HasDims t g.rows g.columns) : TableDims g t := by
  intro y x
  rw [tget_isSome_of_hasDims t g.rows g.columns h y x]
  rfl

theorem tget_of_inGrid {α : Type} (g : Globals) (t : List (List α)) (ht : TableDims g t)
    (p : Point) (hp : InGrid g p) : ∃ v, tget t p.y p.x = some v :=
  Option.isSome_iff_exists.1 ((ht p.y p.x).2 hp)

theorem fillRows_full {α : Type} (v : α) : ∀ t : List (List α),
    fillRows t.length t v = some (t.map fun r => List.replicate r.length v) := by
  intro t
  induction t with
  | nil => rfl
  | cons row rest ih =>
    simp only [List.length_cons, fillRows, ih, List.map_cons]

theorem fillRows_hasDims {α : Type} (g : Globals) (t : List (List α)) (v : α)
    (h : HasDims t g.rows g.columns) :
    ∃ t1, fillRows g.rows.toNat t v = some t1 ∧ HasDims t1 g.rows g.columns ∧
      ∀ y x w, tget t1 y x = some w → w = v := by
  refine ⟨t.map fun r => List.replicate r.length v, ?_, ?_, ?_⟩
  · rw [← h.1]; exact fillRows_full v t
  · refine ⟨by rw [List.length_map]; exact h.1, ?_⟩
    intro row hrow
    obtain ⟨r, hr, rfl⟩ := List.mem_map.1 hrow
    rw [List.length_replicate]
    exact h.2 r hr
  · intro y x w hw
    obtain ⟨row, hrow, hmem⟩ := tget_mem _ _ _ _ hw
    obtain ⟨r, _, rfl⟩ := List.mem_map.1 hrow
    exact (List.mem_replicate.1 hmem).2

theorem nodeOK_inGrid (g : Globals) (net : Net) (hsrc : InGrid g net.source)
    (pos : Point) (gc fc : Dbl) (dir : Direction) (par : NodePtr)
    (h : NodeOK g net (.node pos gc fc dir par)) : InGrid g pos := by
  obtain ⟨_, _, _, h3⟩ := nodeOK_path g net _ h
  rcases h3 pos (by rw [reversePath_node]; exact List.mem_cons_self _ _) with rfl | hin
  · exact hsrc
  · exact hin

theorem relax_total (pq : OpenSet) (g : Globals) (dest pos : Point) (gc fc : Dbl)
    (dir : Direction) (par : NodePtr) (i : Nat) (s : Search pq)
    (hU : TableDims g g.cellUsage) (hG : TableDims g s.gScores)
    (hV : TableDims g s.visitedCells) :
    ∃ s1, relax pq g dest (.node pos gc fc dir par) i s = some s1 ∧
      TableDims g s1.gScores ∧ s1.visitedCells = s.visitedCells ∧
      (pq.toList s1.openSet).length ≤ (pq.toList s.openSet).length + 1 := by
  unfold relax
  simp only
  by_cases hb : pos.x + dx i < 0 ∨ pos.x + dx i ≥ g.columns ∨ pos.y + dy i < 0 ∨
      pos.y + dy i ≥ g.rows
  · rw [if_pos hb]
    exact ⟨s, rfl, hG, rfl, by omega⟩
  · rw [if_neg hb]
    have hin : InGrid g ⟨pos.x + dx i, pos.y + dy i⟩ := by
      unfold InGrid
      simp only
      omega
    obtain ⟨b, hvb⟩ := tget_of_inGrid g _ hV _ hin
    obtain ⟨u, hu⟩ := tget_of_inGrid g _ hU _ hin
    obtain ⟨old, ho⟩ := tget_of_inGrid g _ hG _ hin
    simp only at hvb hu ho
    rw [hvb]
    cases b with
    | true => exact ⟨s, rfl, hG, rfl, by omega⟩
    | false =>
      simp only
      rw [hu]
      simp only
      rw [ho]
      simp only
      by_cases hlt : gc + waveguideLoss g dir i u < old
      · rw [if_pos hlt]
        obtain ⟨gs, hgs⟩ := tset_of_tget s.gScores _ _ (gc + waveguideLoss g dir i u) old ho
        rw [hgs]
        refine ⟨_, rfl, tableDims_tset g _ _ _ _ _ hG hgs, rfl, ?_⟩
        simp only
        rw [(pq.toList_push _ _).length_eq, List.length_cons]
      · rw [if_neg hlt]
        exact ⟨s, rfl, hG, rfl, by omega⟩

theorem expand_total (pq : OpenSet) (g : Globals) (dest pos : Point) (gc fc : Dbl)
    (dir : Direction) (par : NodePtr) (s : Search pq)
    (hU : TableDims g g.cellUsage) (hG : TableDims g s.gScores)
    (hV : TableDims g s.visitedCells) :
    ∃ s1, expand pq g dest (.node pos gc fc dir par) s = some s1 ∧
      TableDims g s1.gScores ∧ s1.visitedCells = s.visitedCells ∧
      (pq.toList s1.openSet).length ≤ (pq.toList s.openSet).length + 4 := by
  obtain ⟨a, ha, ga, va, la⟩ := relax_total pq g dest pos gc fc dir par 0 s hU hG hV
  obtain ⟨b, hb, gb, vb, lb⟩ := relax_total pq g dest pos gc fc dir par 1 a hU ga (va ▸ hV)
  obtain ⟨c, hc, gc1, vc, lc⟩ := relax_total pq g dest pos gc fc dir par 2 b hU gb
    (vb ▸ va ▸ hV)
  obtain ⟨d, hd, gd, vd, ld⟩ := relax_total pq g dest pos gc fc dir par 3 c hU gc1
    (vc ▸ vb ▸ va ▸ hV)
  refine ⟨d, ?_, gd, by rw [vd, vc, vb, va], by omega⟩
  unfold expand
  rw [ha]
  simp only [Option.some_bind]
  rw [hb]
  simp only [Option.some_bind]
  rw [hc]
  simp only [Option.some_bind]
  exact hd

theorem unvisited_card_finalize (g : Globals) (vis vis1 : List (List Bool)) (pos : Point)
    (hin : InGrid g pos) (hv : tget vis pos.y pos.x = some false)
    (hs : tset vis pos.y pos.x true = some vis1) :
    (unvisited g vis1).card + 1 ≤ (unvisited g vis).card := by
  have hsub : unvisited g vis1 ⊆ (unvisited g vis).erase (pos.x, pos.y) := by
    intro c hc
    unfold unvisited at hc ⊢
    rw [Finset.mem_filter] at hc
    rw [Finset.mem_erase, Finset.mem_filter]
    obtain ⟨h1, h2⟩ := hc
    rw [tget_tset vis vis1 _ _ true hs] at h2
    split_ifs at h2 with hcase
    · exact absurd h2 (by simp)
    · refine ⟨?_, h1, h2⟩
      intro he
      apply hcase
      rw [he]
      exact ⟨rfl, rfl⟩
  have hmem : (pos.x, pos.y) ∈ unvisited g vis := by
    unfold unvisited gridCells
    rw [Finset.mem_filter, Finset.mem_product, Finset.mem_Ico, Finset.mem_Ico]
    unfold InGrid at hin
    exact ⟨⟨⟨hin.1, hin.2.1⟩, ⟨hin.2.2.1, hin.2.2.2⟩⟩, hv⟩
  have h1 := Finset.card_le_card hsub
  rw [Finset.card_erase_of_mem hmem] at h1
  have h2 : 0 < (unvisited g vis).card := Finset.card_pos.2 ⟨_, hmem⟩
  omega

theorem unvisited_card_le (g : Globals) (vis : List (List Bool)) :
    (unvisited g vis).card ≤ g.rows.toNat * g.columns.toNat := by
  unfold unvisited
  refine le_trans (Finset.card_filter_le _ _) ?_
  unfold gridCells
  rw [Finset.card_product, Int.card_Ico, Int.card_Ico]
  simp only [sub_zero]
  rw [Nat.mul_comm]

/-- Under the shape invariant an iteration is never undefined; when the loop
continues, the invariant is kept and the termination measure drops. -/
theorem iterate_progress (pq : OpenSet) (g : Globals) (net : Net)
    (hU : TableDims g g.cellUsage) (hsrc : InGrid g net.source) (s : Search pq)
    (hs : Shaped pq g net s) :
    iterate pq g net.destination s = .exhausted ∨
    (∃ s1 goal, iterate pq g net.destination s = .found s1 goal) ∨
    (∃ s1, iterate pq g net.destination s = .next s1 ∧ Shaped pq g net s1 ∧
      potential pq g s1 < potential pq g s) := by
  obtain ⟨hG, hV, hB⟩ := hs
  cases hp : pq.pop s.openSet with
  | none =>
    left
    unfold iterate
    rw [hp]
  | some r =>
    obtain ⟨cur, q⟩ := r
    right
    obtain ⟨hcur, hrest⟩ := pop_mem pq _ _ _ hp
    have hlen : (pq.toList s.openSet).length = (pq.toList q).length + 1 := by
      rw [(pq.pop_some _ _ _ hp).1.length_eq, List.length_cons]
    have hok := (hB cur hcur).1
    cases cur with
    | null => exact absurd rfl (nodeOK_path g net _ hok).1
    | node pos gc fc dir par =>
      have hin := nodeOK_inGrid g net hsrc pos gc fc dir par hok
      obtain ⟨b, hvb⟩ := tget_of_inGrid g _ hV _ hin
      cases b with
      | true =>
        right
        have hit : iterate pq g net.destination s =
            .next { openSet := q, gScores := s.gScores, visitedCells := s.visitedCells } := by
          unfold iterate
          rw [hp]
          simp only
          rw [hvb]
        refine ⟨_, hit, ⟨hG, hV, basic_next pq g net s _ hB hit⟩, ?_⟩
        unfold potential
        simp only
        omega
      | false =>
        obtain ⟨vis, hvis⟩ := tset_of_tget s.visitedCells _ _ true false hvb
        by_cases hd : pos.x = net.destination.x ∧ pos.y = net.destination.y
        · left
          refine ⟨{ openSet := q, gScores := s.gScores, visitedCells := vis },
            .node pos gc fc dir par, ?_⟩
          unfold iterate
          rw [hp]
          simp only
          rw [hvb]
          simp only
          rw [hvis]
          simp only
          rw [if_pos hd]
        · right
          have hV1 : TableDims g vis := tableDims_tset g _ _ _ _ _ hV hvis
          obtain ⟨s1, he, hG1, hv1, hl1⟩ := expand_total pq g net.destination pos gc fc dir par
            { openSet := q, gScores := s.gScores, visitedCells := vis } hU hG hV1
          have hit : iterate pq g net.destination s = .next s1 := by
            unfold iterate
            rw [hp]
            simp only
            rw [hvb]
            simp only
            rw [hvis]
            simp only
            rw [if_neg hd, he]
          refine ⟨s1, hit, ⟨hG1, by rw [hv1]; exact hV1, basic_next pq g net s _ hB hit⟩, ?_⟩
          unfold potential
          rw [hv1]
          simp only at hl1 ⊢
          have := unvisited_card_finalize g s.visitedCells vis pos hin hvb hvis
          omega

theorem aStarLoop_total (pq : OpenSet) (g : Globals) (net : Net)
    (hU : TableDims g g.cellUsage) (hsrc : InGrid g net.source) :
    ∀ (fuel : Nat) (s : Search pq), Shaped pq g net s → potential pq g s < fuel →
      ∃ r, aStarLoop pq g net.destination fuel s = some r := by
  intro fuel
  induction fuel with
  | zero => intro s _ h; omega
  | succ n ih =>
    intro s hs hpot
    rw [aStarLoop]
    rcases iterate_progress pq g net hU hsrc s hs with he | ⟨s1, goal, hf⟩ | ⟨s1, hn, hs1, hlt⟩
    · rw [he]; exact ⟨_, rfl⟩
    · rw [hf]; exact ⟨_, rfl⟩
    · rw [hn]
      exact ih s1 hs1 (by omega)

/-- The state in which the loop starts on a well-formed grid: nothing is
finalized, the source has g-score 0 and every other cell the sentinel. -/
theorem search_init (pq : OpenSet) (g : Globals) (net : Net) (hwf : WellFormed g)
    (hsrc : InGrid g net.source) :
    ∃ gs1 vis0, search pq g net =
        aStarLoop pq g net.destination (loopFuel g)
          { openSet := pq.push pq.empty
              (.node net.source 0 (heuristic g.propagationLoss net.source net.destination)
                Direction.NONE .null),
            gScores := gs1, visitedCells := vis0 } ∧
      TableDims g gs1 ∧ TableDims g vis0 ∧
      (∀ p, InGrid g p → tget vis0 p.y p.x = some false) ∧
      tget gs1 net.source.y net.source.x = some 0 ∧
      (∀ p, InGrid g p → p ≠ net.source → tget gs1 p.y p.x = some dblMax) := by
  obtain ⟨_, hg, hv⟩ := hwf
  obtain ⟨gs0, e1, d1, a1⟩ := fillRows_hasDims g g.gScores dblMax hg
  obtain ⟨vis0, e2, d2, a2⟩ := fillRows_hasDims g g.visitedCells false hv
  have t1 := tableDims_of_hasDims g gs0 d1
  have t2 := tableDims_of_hasDims g vis0 d2
  obtain ⟨w, hw⟩ := tget_of_inGrid g gs0 t1 _ hsrc
  obtain ⟨gs1, hgs1⟩ := tset_of_tget gs0 _ _ (0 : Dbl) w hw
  refine ⟨gs1, vis0, ?_, tableDims_tset g _ _ _ _ _ t1 hgs1, t2, ?_,
    tget_tset_self _ _ _ _ _ hgs1, ?_⟩
  · unfold search initialSearch
    rw [e1, e2]
    simp only
    rw [hgs1]
  · intro p hp
    obtain ⟨b, hb⟩ := tget_of_inGrid g vis0 t2 p hp
    rw [hb, a2 _ _ _ hb]
  · intro p hp hne
    obtain ⟨v, hv1⟩ := tget_of_inGrid g gs0 t1 p hp
    rw [tget_tset_ne _ _ _ _ _ hgs1, hv1, a1 _ _ _ hv1]
    intro hc
    apply hne
    cases p
    cases hs : net.source
    rw [hs] at hc
    simp only at hc
    rw [hc.1, hc.2]

/-- Total correctness of the search on a well-formed grid: the loop returns,
and every invariant of the continuing iterations that holds initially holds
in the state in which the last iteration started. -/
theorem search_spec (pq : OpenSet) (g : Globals) (net : Net) (hwf : WellFormed g)
    (hsrc : InGrid g net.source) (I : Search pq → Prop)
    (hI : ∀ s s1, Shaped pq g net s → I s →
      iterate pq g net.destination s = .next s1 → I s1)
    (hinit : ∀ gs1 vis0, TableDims g gs1 → TableDims g vis0 →
      (∀ p, InGrid g p → tget vis0 p.y p.x = some false) →
      tget gs1 net.source.y net.source.x = some 0 →
      (∀ p, InGrid g p → p ≠ net.source → tget gs1 p.y p.x = some dblMax) →
      I { openSet := pq.push pq.empty
            (.node net.source 0 (heuristic g.propagationLoss net.source net.destination)
              Direction.NONE .null),
          gScores := gs1, visitedCells := vis0 }) :
    ∃ s goal, search pq g net = some (s, goal) ∧
      ∃ s0, Shaped pq g net s0 ∧ I s0 ∧
        ((iterate pq g net.destination s0 = .exhausted ∧ s = s0 ∧ goal = .null) ∨
         iterate pq g net.destination s0 = .found s goal) := by
  have hU : TableDims g g.cellUsage := tableDims_of_hasDims g _ hwf.1
  obtain ⟨gs1, vis0, hsearch, hG, hV, hfalse, hzero, hmax⟩ := search_init pq g net hwf hsrc
  have hshaped : Shaped pq g net
      { openSet := pq.push pq.empty
          (.node net.source 0 (heuristic g.propagationLoss net.source net.destination)
            Direction.NONE .null),
        gScores := gs1, visitedCells := vis0 } :=
    ⟨hG, hV, basic_init pq g net gs1 vis0⟩
  have hpot : potential pq g
      { openSet := pq.push pq.empty
          (.node net.source 0 (heuristic g.propagationLoss net.source net.destination)
            Direction.NONE .null),
        gScores := gs1, visitedCells := vis0 } < loopFuel g := by
    unfold potential loopFuel
    simp only
    rw [(pq.toList_push _ _).length_eq, List.length_cons, pq.toList_empty, List.length_nil]
    have := unvisited_card_le g vis0
    have e : 4 * g.rows.toNat * g.columns.toNat = 4 * (g.rows.toNat * g.columns.toNat) := by
      ring
    omega
  obtain ⟨r, hr⟩ := aStarLoop_total pq g net hU hsrc _ _ hshaped hpot
  obtain ⟨s, goal⟩ := r
  refine ⟨s, goal, hsearch.trans hr, ?_⟩
  obtain ⟨s0, ⟨hs0, hi0⟩, hfin⟩ := aStarLoop_inv pq g net.destination
    (fun t => Shaped pq g net t ∧ I t)
    (fun a b hab hit => by
      rcases iterate_progress pq g net hU hsrc a hab.1 with he | ⟨s1, gl, hf⟩ | ⟨s1, hn, hs1, _⟩
      · rw [he] at hit; exact absurd hit (by simp)
      · rw [hf] at hit; exact absurd hit (by simp)
      · rw [hn] at hit
        simp only [Iteration.next.injEq] at hit
        subst hit
        exact ⟨hs1, hI a s1 hab.1 hab.2 hn⟩)
    _ _ _ ⟨hshaped, hinit gs1 vis0 hG hV hfalse hzero hmax⟩ hr
  refine ⟨s0, hs0, hi0, ?_⟩
  rcases hfin with ⟨he, hr2⟩ | hf
  · left
    simp only [Prod.mk.injEq] at hr2
    exact ⟨he, hr2.1, hr2.2⟩
  · right
    exact hf

theorem incrementUsage_total (g : Globals) : ∀ (path : List Point) (usage : List (List Int)),
    TableDims g usage → (∀ p ∈ path, InGrid g p) →
    ∃ usage1, incrementUsage usage path = some usage1 := by
  intro path
  induction path with
  | nil => intro usage _ _; exact ⟨usage, rfl⟩
  | cons p rest ih =>
    intro usage hU hp
    obtain ⟨u, hu⟩ := tget_of_inGrid g usage hU p (hp p (List.mem_cons_self _ _))
    obtain ⟨usage2, h2⟩ := tset_of_tget usage _ _ (u + 1) u hu
    obtain ⟨usage1, h1⟩ := ih usage2 (tableDims_tset g _ _ _ _ _ hU h2)
      (fun q hq => hp q (List.mem_cons_of_mem _ hq))
    refine ⟨usage1, ?_⟩
    rw [incrementUsage, hu]
    simp only
    rw [h2]
    exact h1

/-- On a well-formed grid with the source inside it, `aStarRouting` is
defined: the loop ends within its fuel and every table access is in range. -/
theorem aStarRouting_total (pq : OpenSet) (g : Globals) (net : Net) (hwf : WellFormed g)
    (hsrc : InGrid g net.source) :
    ∃ goal g1 net1, goalNode pq g net = some goal ∧
      aStarRouting pq g net = some (g1, net1) := by
  obtain ⟨s, goal, hs, _⟩ := search_spec pq g net hwf hsrc (fun _ => True)
    (fun _ _ _ _ _ => trivial) (fun _ _ _ _ _ _ _ => trivial)
  have hgoal : goalNode pq g net = some goal := by
    unfold goalNode
    rw [hs]
    rfl
  obtain ⟨s2, hs2, ha⟩ := aStarRouting_of_goal pq g net goal hgoal
  refine ⟨goal, ?_⟩
  rcases search_goal pq g net s goal hs with hnull | ⟨hok, _, _⟩
  · subst hnull
    exact ⟨_, _, hgoal, ha⟩
  · cases goal with
    | null => exact ⟨_, _, hgoal, ha⟩
    | node pos gc fc dir par =>
      simp only at ha
      have hin : ∀ p ∈ (reversePath (.node pos gc fc dir par)).reverse, InGrid g p := by
        intro p hp
        rw [List.mem_reverse] at hp
        rcases (nodeOK_path g net _ hok).2.2.2 p hp with rfl | h
        · exact hsrc
        · exact h
      obtain ⟨usage1, hu⟩ := incrementUsage_total g _ g.cellUsage
        (tableDims_of_hasDims g _ hwf.1) hin
      rw [hu] at ha
      exact ⟨_, _, hgoal, ha⟩

/-- A destination outside the grid is never reached. -/
theorem goalNode_null_of_dest_outside (pq : OpenSet) (g : Globals) (net : Net)
    (hwf : WellFormed g) (hsrc : InGrid g net.source) (hdst : ¬ InGrid g net.destination) :
    goalNode pq g net = some .null := by
  obtain ⟨goal, g1, net1, hgoal, hr⟩ := aStarRouting_total pq g net hwf hsrc
  by_cases hnn : goal = .null
  · rw [hgoal, hnn]
  · exfalso
    obtain ⟨_, _, hok, _, hd⟩ := aStarRouting_success pq g g1 net net1 goal hgoal hnn hr
    apply hdst
    cases goal with
    | null => exact absurd rfl hnn
    | node pos gc fc dir par =>
      rw [reversePath_node, List.head?_cons] at hd
      simp only [Option.some.injEq] at hd
      rw [← hd]
      exact nodeOK_inGrid g net hsrc pos gc fc dir par hok

/-- C5: whenever `aStarRouting` fails to reach the destination (the loop ends
with a null `goalNode`), the call returns the net as it was (so an empty path
stays empty) and a usage map identical to the one before the call; this is the
case in particular when the source is inside the grid and the destination
outside it. -/
theorem failure_leaves_usage (pq : OpenSet) (g : Globals) (net : Net)
    (hgoal : goalNode pq g net = some .null) :
    (∃ g1, aStarRouting pq g net = some (g1, net) ∧ g1.cellUsage = g.cellUsage ∧
      (net.path = [] → ∀ g2 net2, aStarRouting pq g net = some (g2, net2) → net2.path = [])) ∧
    (∀ net2 : Net, WellFormed g → InGrid g net2.source → ¬ InGrid g net2.destination →
      goalNode pq g net2 = some .null) := by
  obtain ⟨s, _, ha⟩ := aStarRouting_of_goal pq g net .null hgoal
  simp only at ha
  refine ⟨⟨_, ha, rfl, ?_⟩, ?_⟩
  · intro hp g2 net2 h2
    rw [ha] at h2
    simp only [Option.some.injEq, Prod.mk.injEq] at h2
    rw [← h2.2]
    exact hp
  · intro net2 hwf hsrc hdst
    exact goalNode_null_of_dest_outside pq g net2 hwf hsrc hdst

/-- C5 (witness): the 2x1 grid and a net whose destination (5,0) is outside. -/
theorem failure_leaves_usage_witness :
    (∃ g1, aStarRouting listOpenSet lineGlobals strayNet = some (g1, strayNet) ∧
      g1.cellUsage = lineGlobals.cellUsage ∧
      (strayNet.path = [] → ∀ g2 net2,
        aStarRouting listOpenSet lineGlobals strayNet = some (g2, net2) → net2.path = [])) ∧
    (∀ net2 : Net, WellFormed lineGlobals → InGrid lineGlobals net2.source →
      ¬ InGrid lineGlobals net2.destination →
      goalNode listOpenSet lineGlobals net2 = some .null) :=
  failure_leaves_usage listOpenSet lineGlobals strayNet (by decide!)

/-! ## The regime without rounding -/

theorem onGrid_nonneg (t : Int) (N : Nat) (q : ℚ) (h : OnGrid t N q) : 0 ≤ q := by
  obtain ⟨n, _, rfl⟩ := h
  exact mul_nonneg (Nat.cast_nonneg n) (le_of_lt (pow2_pos t))

theorem onGrid_mono (t : Int) (A B : Nat) (q : ℚ) (hAB : A ≤ B) (h : OnGrid t A q) :
    OnGrid t B q := by
  obtain ⟨n, hn, e⟩ := h
  exact ⟨n, le_trans hn hAB, e⟩

theorem onGrid_add (t : Int) (A B : Nat) (a b : ℚ) (ha : OnGrid t A a) (hb : OnGrid t B b) :
    OnGrid t (A + B) (a + b) := by
  obtain ⟨n, hn, rfl⟩ := ha
  obtain ⟨m, hm, rfl⟩ := hb
  exact ⟨n + m, by omega, by push_cast; ring⟩

theorem onGrid_zero (t : Int) (N : Nat) : OnGrid t N 0 :=
  ⟨0, Nat.zero_le N, by simp⟩

/-- A multiple of `2^t` of at most 53 bits lies below the largest `double`. -/
theorem onGrid_lt_dblMax (t : Int) (N : Nat) (q : ℚ) (h2 : t ≤ 970)
    (hN : N ≤ 9007199254740992) (h : OnGrid t N q) : q < dblMaxQ := by
  obtain ⟨n, hn, rfl⟩ := h
  have h53 : (n : ℚ) ≤ 9007199254740992 := by exact_mod_cast le_trans hn hN
  have hp : pow2 t ≤ pow2 970 := pow2_le_pow2 t 970 h2
  have hpos := pow2_pos t
  have h1 : (n : ℚ) * pow2 t ≤ 9007199254740992 * pow2 970 :=
    mul_le_mul h53 hp (le_of_lt hpos) (by norm_num)
  have h970 : pow2 970 = 2 ^ 970 := by
    rw [show (970 : Int) = ((970 : Nat) : Int) by rfl, pow2_natCast, Nat.cast_pow, Nat.cast_ofNat]
  rw [h970] at h1
  unfold dblMaxQ
  have h3 : (9007199254740992 : ℚ) * 2 ^ 970 < (2 ^ 53 - 1) * 2 ^ 971 := by norm_num
  linarith

/-- Adding two multiples of `2^t` rounds nothing while the sum has at most 53
bits. -/
theorem fin_add_onGrid (t : Int) (A B : Nat) (a b : ℚ) (h1 : -1074 ≤ t) (h2 : t ≤ 970)
    (ha : OnGrid t A a) (hb : OnGrid t B b) (h : A + B ≤ 9007199254740992) :
    Dbl.fin a + Dbl.fin b = Dbl.fin (a + b) := by
  obtain ⟨n, hn, rfl⟩ := ha
  obtain ⟨m, hm, rfl⟩ := hb
  rw [units_add t n m h1 h2 (by omega)]
  congr 1
  push_cast
  ring

theorem regime_step_le (g : Globals) (U t : Int) (p c b : Nat)
    (reg : ExactRegime g U t p c b) (hN : 1 ≤ g.rows.toNat * g.columns.toNat) :
    p + c * U.toNat + b ≤ 9007199254740992 := by
  have h := reg.bound
  have h1 : 1 * (p + c * U.toNat + b) ≤
      2 * (g.rows.toNat * g.columns.toNat) * (p + c * U.toNat + b) :=
    Nat.mul_le_mul_right _ (by omega)
  omega

/-- The exact value of the cost of a move is a multiple of `2^t` of at most
`p + c * U + b` units. -/
theorem moveCost_onGrid (g : Globals) (U t : Int) (p c b : Nat)
    (reg : ExactRegime g U t p c b) (dir : Direction) (i : Nat) (usage : Int)
    (hu : usage ≤ U) : OnGrid t (p + c * U.toNat + b) (moveCost g dir i usage) := by
  have hU0 := reg.usage_nonneg
  obtain ⟨k, hk⟩ := Int.eq_ofNat_of_zero_le (le_max_left 0 usage)
  have hkU : k ≤ U.toNat := by
    have : max 0 usage ≤ U := max_le hU0 hu
    omega
  have hck : c * k ≤ c * U.toNat := Nat.mul_le_mul_left c hkU
  unfold moveCost
  rw [reg.propagation, reg.crossing, reg.bending, hk]
  simp only [Dbl.val]
  split_ifs
  · exact ⟨p + c * k, by omega, by push_cast; ring⟩
  · exact ⟨p + c * k + b, by omega, by push_cast; ring⟩

/-- In the regime without rounding the neighbour loop computes the exact cost
of a move. -/
theorem waveguideLoss_exact (g : Globals) (U t : Int) (p c b : Nat)
    (reg : ExactRegime g U t p c b) (hN : 1 ≤ g.rows.toNat * g.columns.toNat)
    (dir : Direction) (i : Nat) (usage : Int) (hu : usage ≤ U) :
    waveguideLoss g dir i usage = Dbl.fin (moveCost g dir i usage) := by
  have hM := regime_step_le g U t p c b reg hN
  have hU0 := reg.usage_nonneg
  have hU31 := reg.usage_int
  have h1 := reg.unit_ge
  have h2 := reg.unit_le
  obtain ⟨k, hk⟩ := Int.eq_ofNat_of_zero_le (le_max_left 0 usage)
  have hkU : k ≤ U.toNat := by
    have : max 0 usage ≤ U := max_le hU0 hu
    omega
  have hck : c * k ≤ c * U.toNat := Nat.mul_le_mul_left c hkU
  unfold waveguideLoss moveCost
  simp only
  rw [reg.propagation, reg.crossing, reg.bending, hk]
  simp only [Dbl.val]
  rw [units_mul_int t c (k : Int) h1 h2 (by omega) (by omega) (by simp only [Int.toNat_ofNat]; omega)]
  simp only [Int.toNat_ofNat]
  rw [units_add t p (c * k) h1 h2 (by omega)]
  split_ifs
  · rw [units_mul_int t b 0 h1 h2 (by omega) (by omega) (by simp)]
    rw [units_add t (p + c * k) (b * (0 : Int).toNat) h1 h2 (by simp; omega)]
    congr 1
    push_cast
    simp
    ring
  · rw [units_mul_int t b 1 h1 h2 (by omega) (by omega) (by simp; omega)]
    rw [units_add t (p + c * k) (b * (1 : Int).toNat) h1 h2 (by simp; omega)]
    congr 1
    push_cast
    simp
    ring

theorem grid_size_cast (g : Globals) (h1 : 0 ≤ g.rows) (h2 : 0 ≤ g.columns) :
    ((g.rows.toNat * g.columns.toNat : Nat) : Int) = g.rows * g.columns := by
  push_cast
  rw [Int.toNat_of_nonneg h1, Int.toNat_of_nonneg h2]

/-- Two cells of the grid are fewer than `rows * columns` moves apart. -/
theorem manhattan_lt_size (g : Globals) (a b : Point) (ha : InGrid g a) (hb : InGrid g b) :
    0 ≤ manhattan a b ∧ manhattan a b < g.rows + g.columns ∧
    (manhattan a b).toNat + 1 ≤ g.rows.toNat * g.columns.toNat := by
  unfold InGrid at ha hb
  have hm : 0 ≤ manhattan a b ∧ manhattan a b ≤ g.rows + g.columns - 2 := by
    unfold manhattan
    rcases abs_cases (a.x - b.x) with ⟨e1, _⟩ | ⟨e1, _⟩ <;>
    rcases abs_cases (a.y - b.y) with ⟨e2, _⟩ | ⟨e2, _⟩ <;> omega
  refine ⟨hm.1, by omega, ?_⟩
  have hr : 1 ≤ g.rows := by omega
  have hc : 1 ≤ g.columns := by omega
  have hprod : g.rows + g.columns - 1 ≤ g.rows * g.columns := by nlinarith
  have hcast := grid_size_cast g (by omega) (by omega)
  have : ((manhattan a b).toNat : Int) + 1 ≤ ((g.rows.toNat * g.columns.toNat : Nat) : Int) := by
    rw [hcast, Int.toNat_of_nonneg hm.1]
    omega
  exact_mod_cast this

/-- In the regime without rounding `heuristic` returns the exact product of
the Manhattan distance and `propagationLoss`. -/
theorem heuristic_exact (g : Globals) (U t : Int) (p c b : Nat)
    (reg : ExactRegime g U t p c b) (a dest : Point) (ha : InGrid g a)
    (hd : InGrid g dest) :
    heuristic g.propagationLoss a dest =
      Dbl.fin ((manhattan a dest : ℚ) * g.propagationLoss.val) ∧
    OnGrid t (g.rows.toNat * g.columns.toNat * (p + c * U.toNat + b))
      ((manhattan a dest : ℚ) * g.propagationLoss.val) := by
  obtain ⟨hm0, hm1, hm2⟩ := manhattan_lt_size g a dest ha hd
  have hsize := reg.size
  have hbound := reg.bound
  have e32 : manhattan32 a dest = manhattan a dest :=
    manhattan32_of_small a dest (by unfold manhattan at hm1; omega)
  obtain ⟨k, hk⟩ := Int.eq_ofNat_of_zero_le hm0
  have hkN : k + 1 ≤ g.rows.toNat * g.columns.toNat := by
    rw [hk] at hm2
    simpa using hm2
  have hkp : k * p ≤ g.rows.toNat * g.columns.toNat * (p + c * U.toNat + b) :=
    Nat.mul_le_mul (by omega) (by omega)
  have hle : g.rows.toNat * g.columns.toNat * (p + c * U.toNat + b) ≤ 9007199254740992 := by
    have : 2 * (g.rows.toNat * g.columns.toNat) * (p + c * U.toNat + b) =
        2 * (g.rows.toNat * g.columns.toNat * (p + c * U.toNat + b)) := by ring
    omega
  unfold heuristic
  rw [e32, reg.propagation, hk]
  simp only [Dbl.val]
  constructor
  · rw [int_mul_units t p (k : Int) reg.unit_ge reg.unit_le (by omega)
      (by rw [hk] at hm1; omega)
      (by simp only [Int.toNat_ofNat]; omega)]
    simp only [Int.toNat_ofNat]
    congr 1
    push_cast
    ring
  · exact ⟨k * p, hkp, by push_cast; ring⟩

theorem nodup_inGrid_length (g : Globals) (l : List Point) (hnd : l.Nodup)
    (hin : ∀ p ∈ l, InGrid g p) : l.length ≤ g.rows.toNat * g.columns.toNat := by
  have hinj : Function.Injective (fun p : Point => (p.x, p.y)) := by
    intro a b hab
    cases a
    cases b
    simp only [Prod.mk.injEq] at hab
    rw [hab.1, hab.2]
  have hnd2 : (l.map fun p : Point => (p.x, p.y)).Nodup := hnd.map hinj
  have hsub : (l.map fun p : Point => (p.x, p.y)).toFinset ⊆ gridCells g := by
    intro c hc
    rw [List.mem_toFinset, List.mem_map] at hc
    obtain ⟨p, hp, rfl⟩ := hc
    have := hin p hp
    unfold InGrid at this
    unfold gridCells
    rw [Finset.mem_product, Finset.mem_Ico, Finset.mem_Ico]
    exact ⟨⟨this.1, this.2.1⟩, ⟨this.2.2.1, this.2.2.2⟩⟩
  have h1 := Finset.card_le_card hsub
  rw [List.toFinset_card_of_nodup hnd2, List.length_map] at h1
  refine le_trans h1 ?_
  unfold gridCells
  rw [Finset.card_product, Int.card_Ico, Int.card_Ico]
  simp only [sub_zero]
  rw [Nat.mul_comm]

theorem point_eq_of_coords (p q : Point) (hy : p.y = q.y) (hx : p.x = q.x) : p = q := by
  cases p
  cases q
  simp only at hy hx
  rw [hy, hx]

theorem node_position_eq (p q : Point) (a b : Dbl) (c : Direction) (d : NodePtr)
    (a1 b1 : Dbl) (c1 : Direction) (d1 : NodePtr)
    (h : NodePtr.node p a b c d = NodePtr.node q a1 b1 c1 d1) : p = q := by
  injection h

theorem moveCost_eq_cellCost (g : Globals) (hB : g.bendingLoss.val = 0) (dir : Direction)
    (i : Nat) (q : Point) (usage : Int) (hu : tget g.cellUsage q.y q.x = some usage) :
    moveCost g dir i usage = cellCost g q := by
  unfold moveCost cellCost usageAt
  rw [hu, hB]
  simp

theorem regime_arith (N M L K : Nat) (hb : 2 * N * M ≤ K) (hL : L ≤ N) (h1 : 1 ≤ L) :
    (L - 1) * M + M = L * M ∧ L * M ≤ K ∧ L * M + N * M ≤ K := by
  have e : (L - 1) * M + M = L * M := by
    obtain ⟨k, rfl⟩ : ∃ k, L = k + 1 := ⟨L - 1, by omega⟩
    rw [Nat.add_sub_cancel, Nat.add_mul, Nat.one_mul]
  have h2 : L * M ≤ N * M := Nat.mul_le_mul_right M hL
  have h3 : 2 * N * M = N * M + N * M := by ring
  exact ⟨e, by omega, by omega⟩

/-- In the regime without rounding, the g-score of a node created by the
search is the exact sum of the costs of its moves, and its f-score adds the
exact heuristic. -/
theorem nodeOK_exact (g : Globals) (net : Net) (U t : Int) (p c b : Nat)
    (reg : ExactRegime g U t p c b) (hsrc : InGrid g net.source)
    (hdst : InGrid g net.destination) (n : NodePtr) (h : NodeOK g net n) :
    (reversePath n).length ≤ g.rows.toNat * g.columns.toNat + 1 →
    ∀ pos gc fc dir par, n = .node pos gc fc dir par →
      ∃ gq : ℚ, gc = Dbl.fin gq ∧
        OnGrid t (((reversePath n).length - 1) * (p + c * U.toNat + b)) gq ∧
        fc = Dbl.fin (gq + (manhattan pos net.destination : ℚ) * g.propagationLoss.val) ∧
        (g.bendingLoss.val = 0 → Reach g net.source pos gq ∧
          gq = ((reversePath n).reverse.tail.map (cellCost g)).sum) := by
  have h1 := reg.unit_ge
  have h2 := reg.unit_le
  have hbound := reg.bound
  induction h with
  | start =>
    intro _ pos gc fc dir par e
    injection e with e1 e2 e3 e4 e5
    subst e1 e2 e3
    refine ⟨0, Dbl.zero_eq, ?_, ?_, ?_⟩
    · exact onGrid_zero t _
    · rw [zero_add]
      exact (heuristic_exact g U t p c b reg _ _ hsrc hdst).1
    · intro _
      exact ⟨Reach.base, by simp [reversePath]⟩
  | step pos0 gc0 fc0 dir0 par0 i usage hcur hi hin hu ih =>
    intro hlen pos gc fc dir par e
    injection e with e1 e2 e3 e4 e5
    subst e1 e2 e3
    rw [reversePath_node, List.length_cons] at hlen
    have hlen0 : 1 ≤ (reversePath (NodePtr.node pos0 gc0 fc0 dir0 par0)).length := by
      rw [reversePath_node, List.length_cons]
      omega
    obtain ⟨g0, hg0, hgrid0, _, hreach0⟩ := ih (by omega) pos0 gc0 fc0 dir0 par0 rfl
    have hN : 1 ≤ g.rows.toNat * g.columns.toNat := by omega
    obtain ⟨row, hr1, hr2⟩ := tget_mem _ _ _ _ hu
    have huU : usage ≤ U := reg.usage_le row hr1 usage hr2
    have hw := waveguideLoss_exact g U t p c b reg hN dir0 i usage huU
    have hwg := moveCost_onGrid g U t p c b reg dir0 i usage huU
    obtain ⟨hLM, hLK, hLNK⟩ := regime_arith (g.rows.toNat * g.columns.toNat)
      (p + c * U.toNat + b) (reversePath (NodePtr.node pos0 gc0 fc0 dir0 par0)).length
      9007199254740992 hbound (by omega) hlen0
    have hsum : gc0 + waveguideLoss g dir0 i usage =
        Dbl.fin (g0 + moveCost g dir0 i usage) := by
      rw [hg0, hw]
      exact fin_add_onGrid t _ _ _ _ h1 h2 hgrid0 hwg (by rw [hLM]; exact hLK)
    have hgrid1 : OnGrid t ((reversePath (NodePtr.node pos0 gc0 fc0 dir0 par0)).length *
        (p + c * U.toNat + b)) (g0 + moveCost g dir0 i usage) := by
      rw [← hLM]
      exact onGrid_add t _ _ _ _ hgrid0 hwg
    obtain ⟨hh, hhg⟩ := heuristic_exact g U t p c b reg ⟨pos0.x + dx i, pos0.y + dy i⟩
      net.destination hin hdst
    refine ⟨g0 + moveCost g dir0 i usage, hsum, ?_, ?_, ?_⟩
    · rw [reversePath_node, List.length_cons, Nat.add_sub_cancel]
      exact hgrid1
    · rw [hsum, hh]
      exact fin_add_onGrid t _ _ _ _ h1 h2 hgrid1 hhg hLNK
    · intro hB
      obtain ⟨hr, hs⟩ := hreach0 hB
      have hmc := moveCost_eq_cellCost g hB dir0 i ⟨pos0.x + dx i, pos0.y + dy i⟩ usage hu
      rw [hmc]
      refine ⟨Reach.step pos0 g0 i hr hi hin, ?_⟩
      rw [reversePath_node ⟨pos0.x + dx i, pos0.y + dy i⟩, List.reverse_cons]
      have hne : (reversePath (NodePtr.node pos0 gc0 fc0 dir0 par0)).reverse ≠ [] := by
        simp [reversePath_node]
      rw [List.tail_append_of_ne_nil hne, List.map_append, List.sum_append, ← hs]
      simp

/-- The chain of an open-set entry has at most `rows * columns + 1` cells. -/
theorem ancOK_length (g : Globals) (net : Net) (hsrc : InGrid g net.source) (n : NodePtr)
    (vis : List (List Bool)) (hok : NodeOK g net n) (ha : AncOK vis n) :
    (reversePath n).length ≤ g.rows.toNat * g.columns.toNat + 1 := by
  obtain ⟨hnd, _⟩ := ha
  have hp := (nodeOK_path g net n hok).2.2.2
  cases n with
  | null => simp [reversePath]
  | node pos gc fc dir par =>
    simp only [NodePtr.parent] at hnd
    rw [reversePath_node, List.length_cons]
    have hin : ∀ q ∈ reversePath par, InGrid g q := by
      intro q hq
      rcases hp q (by rw [reversePath_node]; exact List.mem_cons_of_mem _ hq) with rfl | h
      · exact hsrc
      · exact h
    have := nodup_inGrid_length g _ hnd hin
    omega

/-- In the regime without rounding every open-set entry carries exact scores
below the largest `double`. -/
theorem entry_exact (pq : OpenSet) (g : Globals) (net : Net) (U t : Int) (p c b : Nat)
    (reg : ExactRegime g U t p c b) (hsrc : InGrid g net.source)
    (hdst : InGrid g net.destination) (s : Search pq) (hb : Basic pq g net s)
    (pos : Point) (gc fc : Dbl) (dir : Direction) (par : NodePtr)
    (hm : NodePtr.node pos gc fc dir par ∈ pq.toList s.openSet) :
    ∃ gq : ℚ, gc = Dbl.fin gq ∧ 0 ≤ gq ∧ gq < dblMaxQ ∧
      fc = Dbl.fin (gq + (manhattan pos net.destination : ℚ) * g.propagationLoss.val) ∧
      (g.bendingLoss.val = 0 → Reach g net.source pos gq) := by
  obtain ⟨hok, ha⟩ := hb _ hm
  have hlen := ancOK_length g net hsrc _ s.visitedCells hok ha
  obtain ⟨gq, h1, h2, h3, h4⟩ :=
    nodeOK_exact g net U t p c b reg hsrc hdst _ hok hlen pos gc fc dir par rfl
  refine ⟨gq, h1, onGrid_nonneg t _ _ h2, ?_, h3, fun hB => (h4 hB).1⟩
  apply onGrid_lt_dblMax t _ gq reg.unit_le _ h2
  rw [reversePath_node, List.length_cons] at hlen ⊢
  rw [Nat.add_sub_cancel]
  have hbound := reg.bound
  have h5 : (reversePath par).length * (p + c * U.toNat + b) ≤
      g.rows.toNat * g.columns.toNat * (p + c * U.toNat + b) :=
    Nat.mul_le_mul_right _ (by omega)
  have h2NM : 2 * (g.rows.toNat * g.columns.toNat) * (p + c * U.toNat + b) =
      g.rows.toNat * g.columns.toNat * (p + c * U.toNat + b) +
        g.rows.toNat * g.columns.toNat * (p + c * U.toNat + b) := by ring
  omega

/-- In the regime without rounding the tentative g-score of a move from a
finalized node is the exact sum, and it stays below the sentinel. -/
theorem tentative_exact (g : Globals) (net : Net) (U t : Int) (p c b : Nat)
    (reg : ExactRegime g U t p c b) (hsrc : InGrid g net.source)
    (hdst : InGrid g net.destination)
    (pos : Point) (gc fc : Dbl) (dir : Direction) (par : NodePtr)
    (hok : NodeOK g net (.node pos gc fc dir par))
    (hnd : (reversePath (.node pos gc fc dir par)).Nodup)
    (i : Nat) (usage : Int)
    (hu : tget g.cellUsage (pos.y + dy i) (pos.x + dx i) = some usage) :
    ∃ gq : ℚ, gc = Dbl.fin gq ∧
      gc + waveguideLoss g dir i usage = Dbl.fin (gq + moveCost g dir i usage) ∧
      gq + moveCost g dir i usage < dblMaxQ := by
  have hin : ∀ q ∈ reversePath (.node pos gc fc dir par), InGrid g q := by
    intro q hq
    rcases (nodeOK_path g net _ hok).2.2.2 q hq with rfl | h
    · exact hsrc
    · exact h
  have hlen := nodup_inGrid_length g _ hnd hin
  obtain ⟨gq, h1, h2, _, _⟩ :=
    nodeOK_exact g net U t p c b reg hsrc hdst _ hok (by omega) pos gc fc dir par rfl
  have hlen0 : 1 ≤ (reversePath (NodePtr.node pos gc fc dir par)).length := by
    rw [reversePath_node, List.length_cons]
    omega
  have hN : 1 ≤ g.rows.toNat * g.columns.toNat := by omega
  obtain ⟨row, hr1, hr2⟩ := tget_mem _ _ _ _ hu
  have huU : usage ≤ U := reg.usage_le row hr1 usage hr2
  have hw := waveguideLoss_exact g U t p c b reg hN dir i usage huU
  have hwg := moveCost_onGrid g U t p c b reg dir i usage huU
  obtain ⟨hLM, hLK, _⟩ := regime_arith (g.rows.toNat * g.columns.toNat)
    (p + c * U.toNat + b) (reversePath (NodePtr.node pos gc fc dir par)).length
    9007199254740992 reg.bound hlen hlen0
  refine ⟨gq, h1, ?_, ?_⟩
  · rw [h1, hw]
    exact fin_add_onGrid t _ _ _ _ reg.unit_ge reg.unit_le h2 hwg (by rw [hLM]; exact hLK)
  · exact onGrid_lt_dblMax t _ _ reg.unit_le (by rw [hLM]; exact hLK)
      (onGrid_add t _ _ _ _ h2 hwg)

/-! ## Completeness of the search -/

theorem grid_connected (g : Globals) (S : Point → Prop) (src : Point)
    (hsrc : InGrid g src) (h0 : S src)
    (hstep : ∀ p, InGrid g p → S p → ∀ i, i < 4 →
      InGrid g ⟨p.x + dx i, p.y + dy i⟩ → S ⟨p.x + dx i, p.y + dy i⟩) :
    ∀ p, InGrid g p → S p := by
  have key : ∀ (n : Nat) (p : Point), InGrid g p →
      (p.x - src.x).natAbs + (p.y - src.y).natAbs = n → S p := by
    intro n
    induction n with
    | zero =>
      intro p _ hd
      have e : p = src := by
        cases p
        cases src
        simp only at hd
        simp only [Point.mk.injEq]
        omega
      rw [e]
      exact h0
    | succ n ih =>
      intro p hp hd
      unfold InGrid at hp hsrc
      obtain ⟨px, py⟩ := p
      simp only at hp hd
      by_cases hx : px = src.x
      · by_cases hy : src.y < py
        · have h1 := ih ⟨px, py - 1⟩ (by unfold InGrid; simp only; omega)
            (by simp only; omega)
          have h2 := hstep ⟨px, py - 1⟩ (by unfold InGrid; simp only; omega) h1 0 (by omega)
            (by unfold InGrid; simp only [dx, dy]; omega)
          simpa [dx, dy] using h2
        · have h1 := ih ⟨px, py + 1⟩ (by unfold InGrid; simp only; omega)
            (by simp only; omega)
          have h2 := hstep ⟨px, py + 1⟩ (by unfold InGrid; simp only; omega) h1 1 (by omega)
            (by unfold InGrid; simp only [dx, dy]; omega)
          simpa [dx, dy] using h2
      · by_cases hlt : src.x < px
        · have h1 := ih ⟨px - 1, py⟩ (by unfold InGrid; simp only; omega)
            (by simp only; omega)
          have h2 := hstep ⟨px - 1, py⟩ (by unfold InGrid; simp only; omega) h1 3 (by omega)
            (by unfold InGrid; simp only [dx, dy]; omega)
          simpa [dx, dy] using h2
        · have h1 := ih ⟨px + 1, py⟩ (by unfold InGrid; simp only; omega)
            (by simp only; omega)
          have h2 := hstep ⟨px + 1, py⟩ (by unfold InGrid; simp only; omega) h1 2 (by omega)
            (by unfold InGrid; simp only [dx, dy]; omega)
          simpa [dx, dy] using h2
  intro p hp
  exact key _ p hp rfl

theorem closed_mono (g : Globals) (vis vis1 : List (List Bool)) (gs gs1 : List (List Dbl))
    (p : Point) (k : Nat)
    (hv : ∀ y x, tget vis y x = some true → tget vis1 y x = some true)
    (hl : ∀ q, LowAt gs q → LowAt gs1 q) (h : Closed g vis gs p k) :
    Closed g vis1 gs1 p k := by
  intro hin
  rcases h hin with h1 | h1
  · exact Or.inl (hv _ _ h1)
  · exact Or.inr (hl _ h1)

theorem complete_relax (pq : OpenSet) (g : Globals) (net : Net) (pos : Point) (gc fc : Dbl)
    (dir : Direction) (par : NodePtr) (i : Nat) (vis1 : List (List Bool))
    (t t1 : Search pq)
    (hbound : ∀ usage, tget g.cellUsage (pos.y + dy i) (pos.x + dx i) = some usage →
      ∃ tq : ℚ, gc + waveguideLoss g dir i usage = Dbl.fin tq ∧ tq < dblMaxQ)
    (hJ : ExpandStage pq g net vis1 pos i t)
    (h : relax pq g net.destination (.node pos gc fc dir par) i t = some t1) :
    ExpandStage pq g net vis1 pos (i + 1) t1 := by
  obtain ⟨hv, hcov, hold, hstage, hsrc, hfin⟩ := hJ
  rcases relax_cases pq g net.destination pos gc fc dir par i t t1 h with
    ⟨hout, rfl⟩ | ⟨_, hvt, rfl⟩ | ⟨hin, hvf, usage, old, hu, ho, ⟨hnlt, rfl⟩ | ⟨hlt, gs, hgs, rfl⟩⟩
  · refine ⟨hv, hcov, hold, ?_, hsrc, hfin⟩
    intro j hj
    rcases Nat.lt_succ_iff_lt_or_eq.1 hj with hj | rfl
    · exact hstage j hj
    · intro hin; exact absurd hin hout
  · refine ⟨hv, hcov, hold, ?_, hsrc, hfin⟩
    intro j hj
    rcases Nat.lt_succ_iff_lt_or_eq.1 hj with hj | rfl
    · exact hstage j hj
    · intro _; left; rw [← hv]; exact hvt
  · refine ⟨hv, hcov, hold, ?_, hsrc, hfin⟩
    intro j hj
    rcases Nat.lt_succ_iff_lt_or_eq.1 hj with hj | rfl
    · exact hstage j hj
    · intro _
      right
      obtain ⟨tq, htq, hlt2⟩ := hbound usage hu
      obtain ⟨o, rfl⟩ := hfin _ _ _ ho
      rw [htq, Dbl.fin_lt_fin] at hnlt
      exact ⟨o, ho, lt_of_le_of_lt (not_lt.1 hnlt) hlt2⟩
  · obtain ⟨tq, htq, hlt2⟩ := hbound usage hu
    rw [htq] at hgs hlt
    have hlow : ∀ q, LowAt t.gScores q → LowAt gs q := by
      intro q hq
      obtain ⟨v, hv1, hv2⟩ := hq
      unfold LowAt
      rw [tget_tset _ _ _ _ _ hgs]
      split_ifs
      · exact ⟨_, rfl, hlt2⟩
      · exact ⟨v, hv1, hv2⟩
    have hnew : LowAt gs ⟨pos.x + dx i, pos.y + dy i⟩ :=
      ⟨_, tget_tset_self _ _ _ _ _ hgs, hlt2⟩
    have hfin2 : FinTable gs := by
      intro y x w hw
      rw [tget_tset _ _ _ _ _ hgs] at hw
      split_ifs at hw
      · exact ⟨tq, (Option.some.inj hw).symm⟩
      · exact hfin y x w hw
    refine ⟨hv, ?_, ?_, ?_, hlow _ hsrc, hfin2⟩
    · intro p hp hpv hpl
      simp only at hpv hpl ⊢
      by_cases hc : p.y = pos.y + dy i ∧ p.x = pos.x + dx i
      · have e : p = ⟨pos.x + dx i, pos.y + dy i⟩ := point_eq_of_coords _ _ hc.1 hc.2
        subst e
        exact ⟨_, _, _, _, (push_mem pq _ _ _).2 (Or.inl rfl)⟩
      · have hpl2 : LowAt t.gScores p := by
          obtain ⟨v, hv1, hv2⟩ := hpl
          rw [tget_tset_ne _ _ _ _ _ hgs _ _ hc] at hv1
          exact ⟨v, hv1, hv2⟩
        obtain ⟨a, b, c, d, hm⟩ := hcov p hp hpv hpl2
        exact ⟨a, b, c, d, (push_mem pq _ _ _).2 (Or.inr hm)⟩
    · intro p hp hpv hne k hk
      exact closed_mono g vis1 vis1 _ _ p k (fun _ _ hh => hh) hlow (hold p hp hpv hne k hk)
    · intro j hj
      rcases Nat.lt_succ_iff_lt_or_eq.1 hj with hj | rfl
      · exact closed_mono g vis1 vis1 _ _ pos j (fun _ _ hh => hh) hlow (hstage j hj)
      · intro _
        right
        exact hnew

theorem complete_next (pq : OpenSet) (g : Globals) (net : Net) (U t : Int) (p c b : Nat)
    (reg : ExactRegime g U t p c b)
    (hsrc : InGrid g net.source) (hdst : InGrid g net.destination)
    (s s1 : Search pq) (hs : Shaped pq g net s) (hc : Complete pq g net s)
    (h : iterate pq g net.destination s = .next s1) : Complete pq g net s1 := by
  obtain ⟨hcov, hclosed, hlsrc, hdest, hfin0⟩ := hc
  obtain ⟨_, _, hB1⟩ := hs
  obtain ⟨pos, gc, fc, dir, par, q, hp, hcase⟩ := iterate_next_cases pq g net.destination s s1 h
  obtain ⟨hcur, _⟩ := pop_mem pq _ _ _ hp
  have hperm := (pq.pop_some _ _ _ hp).1
  rcases hcase with ⟨hvt, rfl⟩ | ⟨hvf, hnd, vis, hvis, he⟩
  · refine ⟨?_, hclosed, hlsrc, hdest, hfin0⟩
    intro p hpin hpv hpl
    simp only at hpv hpl ⊢
    obtain ⟨a, b, c, d, hm⟩ := hcov p hpin hpv hpl
    rcases List.mem_cons.1 (hperm.subset hm) with e | hm2
    · have := node_position_eq _ _ _ _ _ _ _ _ _ _ e
      subst this
      rw [hvt] at hpv
      exact absurd hpv (by simp)
    · exact ⟨a, b, c, d, hm2⟩
  · have hmono := tget_tset_true_mono _ _ _ _ hvis
    have hchain := chain_ok_of_finalize s.visitedCells vis pos gc fc dir par
      (hB1 _ hcur).2 hvf hvis
    have hstage0 : ExpandStage pq g net vis pos 0
        { openSet := q, gScores := s.gScores, visitedCells := vis } := by
      refine ⟨rfl, ?_, ?_, ?_, hlsrc, hfin0⟩
      · intro p hpin hpv hpl
        simp only at hpv hpl ⊢
        have hne : ¬ (p.y = pos.y ∧ p.x = pos.x) := by
          intro hc
          rw [hc.1, hc.2, tget_tset_self _ _ _ _ _ hvis] at hpv
          exact absurd hpv (by simp)
        rw [tget_tset_ne _ _ _ _ _ hvis _ _ hne] at hpv
        obtain ⟨a, b, c, d, hm⟩ := hcov p hpin hpv hpl
        rcases List.mem_cons.1 (hperm.subset hm) with e | hm2
        · have := node_position_eq _ _ _ _ _ _ _ _ _ _ e
          subst this
          exact absurd ⟨rfl, rfl⟩ hne
        · exact ⟨a, b, c, d, hm2⟩
      · intro p hpin hpv hne k hk
        have hne2 : ¬ (p.y = pos.y ∧ p.x = pos.x) := by
          intro hc
          exact hne (point_eq_of_coords _ _ hc.1 hc.2)
        rw [tget_tset_ne _ _ _ _ _ hvis _ _ hne2] at hpv
        exact closed_mono g _ _ _ _ p k hmono (fun _ hh => hh) (hclosed p hpin hpv k hk)
      · intro j hj
        omega
    have hfin := expand_induct pq g net.destination (.node pos gc fc dir par)
      (fun i t => ExpandStage pq g net vis pos i t)
      (fun i st st1 hi ht hr =>
        complete_relax pq g net pos gc fc dir par i vis st st1
          (fun usage hu => by
            obtain ⟨gq, _, h2, h3⟩ := tentative_exact g net U t p c b reg hsrc hdst
              pos gc fc dir par (hB1 _ hcur).1 hchain.1 i usage hu
            exact ⟨_, h2, h3⟩) ht hr)
      _ s1 hstage0 he
    obtain ⟨hv4, hcov4, hold4, hst4, hsrc4, hfin4⟩ := hfin
    refine ⟨hcov4, ?_, hsrc4, ?_, hfin4⟩
    · intro p hpin hpv k hk
      rw [hv4] at hpv ⊢
      by_cases hpp : p = pos
      · subst hpp
        exact hst4 k hk
      · exact hold4 p hpin hpv hpp k hk
    · rw [hv4, tget_tset_ne _ _ _ _ _ hvis]
      · exact hdest
      · intro hc
        exact hnd ⟨hc.2.symm, hc.1.symm⟩

theorem complete_init (pq : OpenSet) (g : Globals) (net : Net)
    (hdst : InGrid g net.destination) (gs1 : List (List Dbl)) (vis0 : List (List Bool))
    (hdims : TableDims g gs1)
    (hfalse : ∀ p, InGrid g p → tget vis0 p.y p.x = some false)
    (hzero : tget gs1 net.source.y net.source.x = some 0)
    (hmax : ∀ p, InGrid g p → p ≠ net.source → tget gs1 p.y p.x = some dblMax) :
    Complete pq g net
      { openSet := pq.push pq.empty
          (.node net.source 0 (heuristic g.propagationLoss net.source net.destination)
            Direction.NONE .null),
        gScores := gs1, visitedCells := vis0 } := by
  rw [Dbl.zero_eq] at hzero
  refine ⟨?_, ?_, ⟨0, hzero, dblMaxQ_pos⟩, hfalse _ hdst, ?_⟩
  · intro p hpin _ hpl
    simp only at hpl ⊢
    by_cases hps : p = net.source
    · subst hps
      exact ⟨_, _, _, _, (push_mem pq _ _ _).2 (Or.inl rfl)⟩
    · obtain ⟨v, hv1, hv2⟩ := hpl
      rw [hmax p hpin hps, dblMax_eq] at hv1
      simp only [Option.some.injEq, Dbl.fin.injEq] at hv1
      subst hv1
      exact absurd hv2 (lt_irrefl _)
  · intro p hpin hpv
    simp only at hpv
    rw [hfalse p hpin] at hpv
    exact absurd hpv (by simp)
  · intro y x w hw
    simp only at hw
    have hin : InGrid g ⟨x, y⟩ := (hdims y x).1 (by rw [hw]; rfl)
    by_cases hps : (⟨x, y⟩ : Point) = net.source
    · rw [← hps] at hzero
      simp only at hzero
      rw [hzero] at hw
      exact ⟨0, (Option.some.inj hw).symm⟩
    · have := hmax ⟨x, y⟩ hin hps
      simp only at this
      rw [this, dblMax_eq] at hw
      exact ⟨dblMaxQ, (Option.some.inj hw).symm⟩

/-- An emptied open set contradicts the completeness invariant. -/
theorem complete_not_exhausted (pq : OpenSet) (g : Globals) (net : Net)
    (hsrc : InGrid g net.source) (hdst : InGrid g net.destination) (s : Search pq)
    (hs : Shaped pq g net s) (hc : Complete pq g net s)
    (he : iterate pq g net.destination s = .exhausted) : False := by
  have hempty := iterate_exhausted pq g net.destination s he
  obtain ⟨hcov, hclosed, hlsrc, hdest, _⟩ := hc
  obtain ⟨_, hV, _⟩ := hs
  have hvis : ∀ p, InGrid g p → LowAt s.gScores p →
      tget s.visitedCells p.y p.x = some true := by
    intro p hpin hpl
    obtain ⟨b, hb⟩ := tget_of_inGrid g _ hV p hpin
    cases b with
    | true => exact hb
    | false =>
      obtain ⟨_, _, _, _, hm⟩ := hcov p hpin hb hpl
      rw [hempty] at hm
      exact absurd hm (List.not_mem_nil _)
  have hall := grid_connected g (fun p => tget s.visitedCells p.y p.x = some true) net.source
    hsrc (hvis _ hsrc hlsrc)
    (fun p hpin hp i hi hnb => by
      rcases hclosed p hpin hp i hi hnb with h1 | h1
      · exact h1
      · exact hvis _ hnb h1)
    net.destination hdst
  simp only at hall
  rw [hdest] at hall
  exact absurd hall (by simp)

/-- In the regime without rounding the loop never ends with a null
`goalNode`. -/
theorem goal_nonnull_of_regime (pq : OpenSet) (g : Globals) (net : Net) (U t : Int)
    (p c b : Nat) (hwf : WellFormed g) (hsrc : InGrid g net.source)
    (hdst : InGrid g net.destination) (reg : ExactRegime g U t p c b)
    (goal : NodePtr) (hgoal : goalNode pq g net = some goal) : goal ≠ .null := by
  obtain ⟨s, goal2, hs, s0, hs0, hc0, hfin⟩ := search_spec pq g net hwf hsrc
    (Complete pq g net)
    (fun sa sb ha hca hit =>
      complete_next pq g net U t p c b reg hsrc hdst sa sb ha hca hit)
    (fun gs1 vis0 hd _ hfalse hzero hmax =>
      complete_init pq g net hdst gs1 vis0 hd hfalse hzero hmax)
  have e : goal = goal2 := by
    unfold goalNode at hgoal
    rw [hs] at hgoal
    exact (Option.some.inj hgoal).symm
  subst e
  rcases hfin with ⟨he, _, _⟩ | hf
  · exact absurd he (fun h => complete_not_exhausted pq g net hsrc hdst s0 hs0 hc0 h)
  · obtain ⟨pos, gc, fc, dir, par, _, _, hg, _⟩ :=
      iterate_found_cases pq g net.destination s0 s goal hf
    rw [hg]
    simp

theorem regime_vals (g : Globals) (U t : Int) (p c b : Nat) (reg : ExactRegime g U t p c b) :
    0 ≤ g.propagationLoss.val ∧ 0 ≤ g.crossingLoss.val ∧ 0 ≤ g.bendingLoss.val ∧
    (b = 0 → g.bendingLoss.val = 0) := by
  have hp := le_of_lt (pow2_pos t)
  rw [reg.propagation, reg.crossing, reg.bending]
  simp only [Dbl.val]
  refine ⟨mul_nonneg (Nat.cast_nonneg p) hp, mul_nonneg (Nat.cast_nonneg c) hp,
    mul_nonneg (Nat.cast_nonneg b) hp, ?_⟩
  intro hb
  rw [hb]
  simp

theorem cellCost_ge (g : Globals) (hC : 0 ≤ g.crossingLoss.val) (p : Point) :
    g.propagationLoss.val ≤ cellCost g p := by
  unfold cellCost
  have h1 : (0 : ℚ) ≤ ((max 0 (usageAt g p) : Int) : ℚ) := by
    exact_mod_cast le_max_left 0 (usageAt g p)
  have := mul_nonneg hC h1
  linarith

theorem cellCost_nonneg (g : Globals) (hP : 0 ≤ g.propagationLoss.val)
    (hC : 0 ≤ g.crossingLoss.val) (p : Point) : 0 ≤ cellCost g p :=
  le_trans hP (cellCost_ge g hC p)

theorem reach_nonneg (g : Globals) (src : Point) (hP : 0 ≤ g.propagationLoss.val)
    (hC : 0 ≤ g.crossingLoss.val) (p : Point) (k : ℚ) (h : Reach g src p k) : 0 ≤ k := by
  induction h with
  | base => exact le_refl 0
  | step p k i _ _ _ ih =>
    have := cellCost_nonneg g hP hC ⟨p.x + dx i, p.y + dy i⟩
    linarith

/-- One move changes the exact heuristic by at most the cost of the move. -/
theorem manhattan_le_cellCost_step (g : Globals) (dest p : Point) (i : Nat) (hi : i < 4)
    (hP : 0 ≤ g.propagationLoss.val) (hC : 0 ≤ g.crossingLoss.val) :
    (manhattan p dest : ℚ) * g.propagationLoss.val ≤
      cellCost g ⟨p.x + dx i, p.y + dy i⟩ +
        (manhattan ⟨p.x + dx i, p.y + dy i⟩ dest : ℚ) * g.propagationLoss.val := by
  have hm := manhattan_le_of_step p.x (p.x + dx i) p.y (p.y + dy i) dest.x dest.y
    (adjacent_of_step p i hi)
  have hm2 : (manhattan p dest : ℚ) ≤
      1 + (manhattan ⟨p.x + dx i, p.y + dy i⟩ dest : ℚ) := by
    unfold manhattan
    exact_mod_cast hm
  have h1 := mul_le_mul_of_nonneg_right hm2 hP
  have h2 := cellCost_ge g hC ⟨p.x + dx i, p.y + dy i⟩
  linarith

theorem reach_inGrid (g : Globals) (src : Point) (hsrc : InGrid g src) (p : Point) (k : ℚ)
    (h : Reach g src p k) : InGrid g p := by
  induction h with
  | base => exact hsrc
  | step p k i _ _ hin _ => exact hin

/-- The frontier lemma: for every way to reach a cell that is not finalized,
at a cost below the sentinel, the open set holds an entry whose f-score is at
most that cost plus the heuristic of the cell. -/
theorem frontier (pq : OpenSet) (g : Globals) (net : Net) (U t : Int) (p c : Nat)
    (reg : ExactRegime g U t p c 0) (hsrc : InGrid g net.source)
    (hdst : InGrid g net.destination)
    (s : Search pq) (hs : Shaped pq g net s) (ho : Optimal pq g net s)
    (q : Point) (k : ℚ) (hr : Reach g net.source q k) :
    tget s.visitedCells q.y q.x = some false → k < dblMaxQ →
    ∃ m ∈ pq.toList s.openSet, ∃ fq : ℚ, m.fScore = Dbl.fin fq ∧
      fq ≤ k + (manhattan q net.destination : ℚ) * g.propagationLoss.val := by
  obtain ⟨hG, hV, hBasic⟩ := hs
  obtain ⟨_, hvo, hvr, hoc, _, hzero⟩ := ho
  obtain ⟨hP, hC, _, _⟩ := regime_vals g U t p c 0 reg
  have hnode : ∀ (x : Point) (v : ℚ), InGrid g x → tget s.visitedCells x.y x.x = some false →
      tget s.gScores x.y x.x = some (Dbl.fin v) → v < dblMaxQ →
      ∃ m ∈ pq.toList s.openSet,
        m.fScore = Dbl.fin (v + (manhattan x net.destination : ℚ) * g.propagationLoss.val) := by
    intro x v hx hxv hxg hlt
    obtain ⟨fc, dir, par, hm⟩ := hoc x hx hxv v hxg hlt
    refine ⟨_, hm, ?_⟩
    obtain ⟨gq, h1, _, _, h3, _⟩ :=
      entry_exact pq g net U t p c 0 reg hsrc hdst s hBasic x (Dbl.fin v) fc dir par hm
    injection h1 with h1
    subst h1
    exact h3
  induction hr with
  | base =>
    intro hv _
    obtain ⟨m, hm, hf⟩ := hnode net.source 0 hsrc hv hzero dblMaxQ_pos
    exact ⟨m, hm, _, hf, le_refl _⟩
  | step x k i hr hi hin ih =>
    intro hv hlt
    have hpin := reach_inGrid g net.source hsrc x k hr
    have hw := cellCost_nonneg g hP hC ⟨x.x + dx i, x.y + dy i⟩
    have hcons := manhattan_le_cellCost_step g net.destination x i hi hP hC
    obtain ⟨b, hb⟩ := tget_of_inGrid g _ hV x hpin
    cases b with
    | false =>
      obtain ⟨m, hm, fq, hf, hle⟩ := ih hb (by linarith)
      exact ⟨m, hm, fq, hf, by linarith⟩
    | true =>
      obtain ⟨v, hv1, hv2⟩ := hvo x hpin hb
      obtain ⟨v', hv1', hrel⟩ := hvr x hpin hb (by simp)
      rw [hv1] at hv1'
      simp only [Option.some.injEq, Dbl.fin.injEq] at hv1'
      subst hv1'
      obtain ⟨vn, hvn1, hvn2⟩ := hrel i hi hin
      have hvk := hv2 k hr
      obtain ⟨m, hm, hf⟩ := hnode ⟨x.x + dx i, x.y + dy i⟩ vn hin hv hvn1 (by linarith)
      exact ⟨m, hm, _, hf, by linarith⟩

/-- The node that finalizes a cell carries the least cost of reaching it. -/
theorem finalize_optimal (pq : OpenSet) (g : Globals) (net : Net) (U t : Int) (p c : Nat)
    (reg : ExactRegime g U t p c 0) (hsrc : InGrid g net.source)
    (hdst : InGrid g net.destination)
    (s : Search pq) (hs : Shaped pq g net s) (ho : Optimal pq g net s)
    (pos : Point) (gc fc : Dbl) (dir : Direction) (par : NodePtr) (q : pq.Q)
    (hp : pq.pop s.openSet = some (.node pos gc fc dir par, q))
    (hv : tget s.visitedCells pos.y pos.x = some false) :
    ∃ gq : ℚ, gc = Dbl.fin gq ∧ Reach g net.source pos gq ∧ gq < dblMaxQ ∧
      tget s.gScores pos.y pos.x = some (Dbl.fin gq) ∧
      ∀ k, Reach g net.source pos k → gq ≤ k := by
  obtain ⟨hcur, _⟩ := pop_mem pq _ _ _ hp
  have hmin := (pq.pop_some _ _ _ hp).2
  obtain ⟨_, _, _, hB⟩ := regime_vals g U t p c 0 reg
  obtain ⟨gq, hg, _, hlt, hf, hreach⟩ :=
    entry_exact pq g net U t p c 0 reg hsrc hdst s hs.2.2 pos gc fc dir par hcur
  have hreach := hreach (hB rfl)
  obtain ⟨gq2, hg2, _, v, hv1, hv2⟩ := ho.1 pos gc fc dir par hcur
  rw [hg] at hg2
  injection hg2 with hg2
  subst hg2
  have hopt : ∀ k, Reach g net.source pos k → gq ≤ k := by
    intro k hk
    by_cases hkl : k < dblMaxQ
    · obtain ⟨m, hm, fq, hmf, hle⟩ :=
        frontier pq g net U t p c reg hsrc hdst s hs ho pos k hk hv hkl
      have h1 := hmin m hm
      unfold NodeComparator at h1
      rw [hmf] at h1
      simp only [NodePtr.fScore] at h1
      rw [hf] at h1
      have h2 := not_lt.1 (fun h => h1 ((Dbl.fin_lt_fin _ _).2 h))
      clear h1
      linarith
    · linarith [not_lt.1 hkl]
  refine ⟨gq, hg, hreach, hlt, ?_, hopt⟩
  have hpin := reach_inGrid g net.source hsrc pos gq hreach
  obtain ⟨w, hw1, _, hw3⟩ := ho.2.2.2.2.1 pos hpin _ hv1
  injection hw1 with hw1
  subst hw1
  have := hopt v (hw3 (lt_of_le_of_lt hv2 hlt))
  rw [hv1, le_antisymm hv2 this]

theorem relaxedFrom_mono (g : Globals) (gs gs1 : List (List Dbl)) (v : ℚ) (p : Point)
    (i : Nat)
    (hd : ∀ y x (w : ℚ), tget gs y x = some (Dbl.fin w) →
      ∃ w1 : ℚ, tget gs1 y x = some (Dbl.fin w1) ∧ w1 ≤ w)
    (h : RelaxedFrom g gs v p i) : RelaxedFrom g gs1 v p i := by
  intro hin
  obtain ⟨vn, h1, h2⟩ := h hin
  obtain ⟨w1, h3, h4⟩ := hd _ _ _ h1
  exact ⟨w1, h3, le_trans h4 h2⟩

theorem optimal_relax (pq : OpenSet) (g : Globals) (net : Net)
    (hP : 0 ≤ g.propagationLoss.val) (hC : 0 ≤ g.crossingLoss.val)
    (pos : Point) (gc : ℚ) (fc : Dbl) (dir : Direction) (par : NodePtr) (i : Nat)
    (hi : i < 4) (vis1 : List (List Bool)) (t t1 : Search pq)
    (hex : ∀ usage, tget g.cellUsage (pos.y + dy i) (pos.x + dx i) = some usage →
      Dbl.fin gc + waveguideLoss g dir i usage =
        Dbl.fin (gc + cellCost g ⟨pos.x + dx i, pos.y + dy i⟩))
    (hreach : Reach g net.source pos gc)
    (hposv : tget vis1 pos.y pos.x = some true)
    (hJ : OptStage pq g net vis1 pos gc i t)
    (h : relax pq g net.destination (.node pos (Dbl.fin gc) fc dir par) i t = some t1) :
    OptStage pq g net vis1 pos gc (i + 1) t1 := by
  obtain ⟨hv, hqb, hvo, hvr, ⟨hpos, hstage⟩, hoc, hre, hzero⟩ := hJ
  rcases relax_cases pq g net.destination pos (Dbl.fin gc) fc dir par i t t1 h with
    ⟨hout, rfl⟩ | ⟨hin, hvt, rfl⟩ | ⟨hin, hvf, usage, old, hu, ho, ⟨hnlt, rfl⟩ | ⟨hlt, gs, hgs, rfl⟩⟩
  · refine ⟨hv, hqb, hvo, hvr, ⟨hpos, ?_⟩, hoc, hre, hzero⟩
    intro j hj
    rcases Nat.lt_succ_iff_lt_or_eq.1 hj with hj | rfl
    · exact hstage j hj
    · intro hin; exact absurd hin hout
  · refine ⟨hv, hqb, hvo, hvr, ⟨hpos, ?_⟩, hoc, hre, hzero⟩
    intro j hj
    rcases Nat.lt_succ_iff_lt_or_eq.1 hj with hj | rfl
    · exact hstage j hj
    · intro _
      rw [hv] at hvt
      obtain ⟨v, hv1, hv2⟩ := hvo ⟨pos.x + dx j, pos.y + dy j⟩ hin hvt
      exact ⟨v, hv1, hv2 _ (Reach.step pos gc j hreach hi hin)⟩
  · refine ⟨hv, hqb, hvo, hvr, ⟨hpos, ?_⟩, hoc, hre, hzero⟩
    intro j hj
    rcases Nat.lt_succ_iff_lt_or_eq.1 hj with hj | rfl
    · exact hstage j hj
    · intro _
      obtain ⟨o, rfl, _, _⟩ := hre ⟨pos.x + dx j, pos.y + dy j⟩ hin old ho
      rw [hex usage hu, Dbl.fin_lt_fin] at hnlt
      exact ⟨o, ho, not_lt.1 hnlt⟩
  · obtain ⟨o, rfl, hold, _⟩ := hre ⟨pos.x + dx i, pos.y + dy i⟩ hin old ho
    rw [hex usage hu] at hlt hgs ⊢
    rw [Dbl.fin_lt_fin] at hlt
    rw [hv] at hvf
    have htl : gc + cellCost g ⟨pos.x + dx i, pos.y + dy i⟩ < dblMaxQ :=
      lt_of_lt_of_le hlt hold
    have hdecr : ∀ y x (w : ℚ), tget t.gScores y x = some (Dbl.fin w) →
        ∃ w1 : ℚ, tget gs y x = some (Dbl.fin w1) ∧ w1 ≤ w := by
      intro y x w hw
      rw [tget_tset _ _ _ _ _ hgs]
      split_ifs with hc
      · obtain ⟨rfl, rfl⟩ := hc
        rw [ho] at hw
        simp only [Option.some.injEq, Dbl.fin.injEq] at hw
        subst hw
        exact ⟨_, rfl, le_of_lt hlt⟩
      · exact ⟨w, hw, le_refl w⟩
    have hkeep : ∀ x : Point, tget vis1 x.y x.x = some true →
        tget gs x.y x.x = tget t.gScores x.y x.x := by
      intro x hx
      apply tget_tset_ne _ _ _ _ _ hgs
      intro hc
      rw [hc.1, hc.2, hvf] at hx
      exact absurd hx (by simp)
    refine ⟨hv, ?_, ?_, ?_, ⟨?_, ?_⟩, ?_, ?_, ?_⟩
    · intro q gq fq dq pq1 hm
      simp only at hm ⊢
      rcases (push_mem pq _ _ _).1 hm with e | hm2
      · injection e with e1 e2 e3 e4 e5
        subst e1 e2
        exact ⟨_, rfl, htl, _, tget_tset_self _ _ _ _ _ hgs, le_refl _⟩
      · obtain ⟨gq2, h0, h1, v, h2, h3⟩ := hqb q gq fq dq pq1 hm2
        obtain ⟨w1, h4, h5⟩ := hdecr _ _ _ h2
        exact ⟨gq2, h0, h1, w1, h4, le_trans h5 h3⟩
    · intro x hx hxv
      rw [hkeep x hxv]
      exact hvo x hx hxv
    · intro x hx hxv hne
      obtain ⟨v, h1, h2⟩ := hvr x hx hxv hne
      refine ⟨v, by rw [hkeep x hxv]; exact h1, ?_⟩
      intro k hk
      exact relaxedFrom_mono g _ _ v x k hdecr (h2 k hk)
    · rw [hkeep pos hposv]
      exact hpos
    · intro j hj
      rcases Nat.lt_succ_iff_lt_or_eq.1 hj with hj | rfl
      · exact relaxedFrom_mono g _ _ gc pos j hdecr (hstage j hj)
      · intro _
        exact ⟨_, tget_tset_self _ _ _ _ _ hgs, le_refl _⟩
    · intro x hx hxv v hxg hvl
      simp only at hxv hxg ⊢
      by_cases hc : x.y = pos.y + dy i ∧ x.x = pos.x + dx i
      · have e : x = ⟨pos.x + dx i, pos.y + dy i⟩ := point_eq_of_coords _ _ hc.1 hc.2
        subst e
        rw [tget_tset_self _ _ _ _ _ hgs] at hxg
        simp only [Option.some.injEq, Dbl.fin.injEq] at hxg
        subst hxg
        exact ⟨_, _, _, (push_mem pq _ _ _).2 (Or.inl rfl)⟩
      · rw [tget_tset_ne _ _ _ _ _ hgs _ _ hc] at hxg
        obtain ⟨a, b, c, hm⟩ := hoc x hx hxv v hxg hvl
        exact ⟨a, b, c, (push_mem pq _ _ _).2 (Or.inr hm)⟩
    · intro x hx w hxg
      simp only at hxg
      by_cases hc : x.y = pos.y + dy i ∧ x.x = pos.x + dx i
      · have e : x = ⟨pos.x + dx i, pos.y + dy i⟩ := point_eq_of_coords _ _ hc.1 hc.2
        subst e
        rw [tget_tset_self _ _ _ _ _ hgs] at hxg
        simp only [Option.some.injEq] at hxg
        subst hxg
        exact ⟨_, rfl, le_of_lt htl, fun _ => Reach.step pos gc i hreach hi hin⟩
      · rw [tget_tset_ne _ _ _ _ _ hgs _ _ hc] at hxg
        exact hre x hx w hxg
    · simp only
      rw [tget_tset_ne _ _ _ _ _ hgs]
      · exact hzero
      · intro hc
        rw [hc.1, hc.2, ho] at hzero
        simp only [Option.some.injEq, Dbl.fin.injEq] at hzero
        subst hzero
        have h1 := reach_nonneg g net.source hP hC pos gc hreach
        have h2 := cellCost_nonneg g hP hC ⟨pos.x + dx i, pos.y + dy i⟩
        linarith

theorem optimal_next (pq : OpenSet) (g : Globals) (net : Net) (U t : Int) (p c : Nat)
    (reg : ExactRegime g U t p c 0) (hsrc : InGrid g net.source)
    (hdst : InGrid g net.destination)
    (s s1 : Search pq) (hs : Shaped pq g net s) (ho : Optimal pq g net s)
    (h : iterate pq g net.destination s = .next s1) : Optimal pq g net s1 := by
  obtain ⟨hP, hC, _, hB⟩ := regime_vals g U t p c 0 reg
  obtain ⟨pos, gc, fc, dir, par, q, hp, hcase⟩ := iterate_next_cases pq g net.destination s s1 h
  obtain ⟨hcur, hrest⟩ := pop_mem pq _ _ _ hp
  have hperm := (pq.pop_some _ _ _ hp).1
  rcases hcase with ⟨hvt, rfl⟩ | ⟨hvf, hnd, vis, hvis, he⟩
  · obtain ⟨hqb, hvo, hvr, hoc, hre, hzero⟩ := ho
    refine ⟨?_, hvo, hvr, ?_, hre, hzero⟩
    · intro a b c d e hm
      exact hqb a b c d e (hrest _ hm)
    · intro x hpin hpv v hpg hvl
      simp only at hpv hpg ⊢
      obtain ⟨a, b, c, hm⟩ := hoc x hpin hpv v hpg hvl
      rcases List.mem_cons.1 (hperm.subset hm) with e | hm2
      · have := node_position_eq _ _ _ _ _ _ _ _ _ _ e
        subst this
        rw [hvt] at hpv
        exact absurd hpv (by simp)
      · exact ⟨a, b, c, hm2⟩
  · obtain ⟨gq, hgq, hreach, hlt, hgpos, hopt⟩ :=
      finalize_optimal pq g net U t p c reg hsrc hdst s hs ho pos gc fc dir par q hp hvf
    subst hgq
    have hchain := chain_ok_of_finalize s.visitedCells vis pos (Dbl.fin gq) fc dir par
      (hs.2.2 _ hcur).2 hvf hvis
    have hex : ∀ (i : Nat) (usage : Int),
        tget g.cellUsage (pos.y + dy i) (pos.x + dx i) = some usage →
        Dbl.fin gq + waveguideLoss g dir i usage =
          Dbl.fin (gq + cellCost g ⟨pos.x + dx i, pos.y + dy i⟩) := by
      intro i usage hu
      obtain ⟨g2, e1, e2, _⟩ := tentative_exact g net U t p c 0 reg hsrc hdst
        pos (Dbl.fin gq) fc dir par (hs.2.2 _ hcur).1 hchain.1 i usage hu
      injection e1 with e1
      subst e1
      rw [e2, moveCost_eq_cellCost g (hB rfl) dir i ⟨pos.x + dx i, pos.y + dy i⟩ usage hu]
    obtain ⟨hqb, hvo, hvr, hoc, hre, hzero⟩ := ho
    have hposv : tget vis pos.y pos.x = some true := tget_tset_self _ _ _ _ _ hvis
    have hback : ∀ x : Point, x ≠ pos → tget vis x.y x.x = tget s.visitedCells x.y x.x := by
      intro x hne
      apply tget_tset_ne _ _ _ _ _ hvis
      intro hc
      exact hne (point_eq_of_coords _ _ hc.1 hc.2)
    have hstage0 : OptStage pq g net vis pos gq 0
        { openSet := q, gScores := s.gScores, visitedCells := vis } := by
      refine ⟨rfl, ?_, ?_, ?_, ⟨hgpos, fun j hj => by omega⟩, ?_, hre, hzero⟩
      · intro a b c d e hm
        exact hqb a b c d e (hrest _ hm)
      · intro x hpin hpv
        by_cases hpp : x = pos
        · subst hpp
          exact ⟨gq, hgpos, hopt⟩
        · rw [hback x hpp] at hpv
          exact hvo x hpin hpv
      · intro x hpin hpv hne
        have hpp : x ≠ pos := fun e => hne (by rw [e])
        rw [hback x hpp] at hpv
        exact hvr x hpin hpv (by simp)
      · intro x hpin hpv v hpg hvl
        simp only at hpv hpg ⊢
        have hpp : x ≠ pos := by
          intro e
          rw [e, hposv] at hpv
          exact absurd hpv (by simp)
        rw [hback x hpp] at hpv
        obtain ⟨a, b, c, hm⟩ := hoc x hpin hpv v hpg hvl
        rcases List.mem_cons.1 (hperm.subset hm) with e | hm2
        · exact absurd (node_position_eq _ _ _ _ _ _ _ _ _ _ e) hpp
        · exact ⟨a, b, c, hm2⟩
    have hfin := expand_induct pq g net.destination (.node pos (Dbl.fin gq) fc dir par)
      (fun i st => OptStage pq g net vis pos gq i st)
      (fun i st st1 hi ht hr =>
        optimal_relax pq g net hP hC pos gq fc dir par i hi vis st st1 (hex i) hreach hposv
          ht hr)
      _ s1 hstage0 he
    obtain ⟨hv4, hqb4, hvo4, hvr4, ⟨hpos4, hst4⟩, hoc4, hre4, hzero4⟩ := hfin
    refine ⟨hqb4, by rw [hv4]; exact hvo4, ?_, hoc4, hre4, hzero4⟩
    intro x hpin hpv _
    rw [hv4] at hpv
    by_cases hpp : x = pos
    · subst hpp
      exact ⟨gq, hpos4, hst4⟩
    · exact hvr4 x hpin hpv (fun e => hpp (by injection e))

theorem optimal_init (pq : OpenSet) (g : Globals) (net : Net)
    (gs1 : List (List Dbl)) (vis0 : List (List Bool))
    (hfalse : ∀ p, InGrid g p → tget vis0 p.y p.x = some false)
    (hzero : tget gs1 net.source.y net.source.x = some 0)
    (hmax : ∀ p, InGrid g p → p ≠ net.source → tget gs1 p.y p.x = some dblMax) :
    Optimal pq g net
      { openSet := pq.push pq.empty
          (.node net.source 0 (heuristic g.propagationLoss net.source net.destination)
            Direction.NONE .null),
        gScores := gs1, visitedCells := vis0 } := by
  rw [Dbl.zero_eq] at hzero
  have hval : ∀ p, InGrid g p → ∀ w, tget gs1 p.y p.x = some w →
      (p = net.source ∧ w = Dbl.fin 0) ∨ w = Dbl.fin dblMaxQ := by
    intro p hp w hw
    by_cases hps : p = net.source
    · subst hps
      rw [hzero] at hw
      simp only [Option.some.injEq] at hw
      exact Or.inl ⟨rfl, hw.symm⟩
    · rw [hmax p hp hps, dblMax_eq] at hw
      simp only [Option.some.injEq] at hw
      exact Or.inr hw.symm
  refine ⟨?_, ?_, ?_, ?_, ?_, hzero⟩
  · intro a b c d e hm
    simp only at hm ⊢
    rcases (push_mem pq _ _ _).1 hm with e1 | hm2
    · injection e1 with e1 e2 e3 e4 e5
      subst e1 e2
      exact ⟨0, Dbl.zero_eq, dblMaxQ_pos, 0, hzero, le_refl 0⟩
    · rw [pq.toList_empty] at hm2
      exact absurd hm2 (List.not_mem_nil _)
  · intro p hp hpv
    simp only at hpv
    rw [hfalse p hp] at hpv
    exact absurd hpv (by simp)
  · intro p hp hpv
    simp only at hpv
    rw [hfalse p hp] at hpv
    exact absurd hpv (by simp)
  · intro p hp _ v hpg hvl
    simp only at hpg ⊢
    rcases hval p hp _ hpg with ⟨rfl, e⟩ | e
    · injection e with e
      subst e
      exact ⟨_, _, _, (push_mem pq _ _ _).2 (Or.inl (by rw [Dbl.zero_eq]))⟩
    · injection e with e
      subst e
      exact absurd hvl (lt_irrefl _)
  · intro p hp w hpg
    simp only at hpg
    rcases hval p hp w hpg with ⟨rfl, rfl⟩ | rfl
    · exact ⟨0, rfl, le_of_lt dblMaxQ_pos, fun _ => Reach.base⟩
    · exact ⟨dblMaxQ, rfl, le_refl _, fun h => absurd h (lt_irrefl _)⟩

theorem adjacent_step (p q : Point) (h : Adjacent p q) :
    ∃ i, i < 4 ∧ q = ⟨p.x + dx i, p.y + dy i⟩ := by
  obtain ⟨px, py⟩ := p
  obtain ⟨qx, qy⟩ := q
  unfold Adjacent at h
  simp only at h
  rcases h with ⟨h1, h2⟩ | ⟨h1, h2⟩
  · rcases abs_cases (px - qx) with ⟨e, _⟩ | ⟨e, _⟩
    · exact ⟨2, by omega, by simp only [dx, dy, Point.mk.injEq]; omega⟩
    · exact ⟨3, by omega, by simp only [dx, dy, Point.mk.injEq]; omega⟩
  · rcases abs_cases (py - qy) with ⟨e, _⟩ | ⟨e, _⟩
    · exact ⟨1, by omega, by simp only [dx, dy, Point.mk.injEq]; omega⟩
    · exact ⟨0, by omega, by simp only [dx, dy, Point.mk.injEq]; omega⟩

theorem stepCost_eq_cellCost (g : Globals) (hB : g.bendingLoss.val = 0) (hU : UsageNonneg g)
    (d1 d2 : Direction) (q : Point) : stepCost g d1 d2 (usageAt g q) = cellCost g q := by
  unfold stepCost cellCost
  rw [hB, max_eq_right (usageAt_nonneg g hU q)]
  simp

/-- Without bend penalty the cost of a path is the sum of the cell costs of
the cells it enters. -/
theorem pathCostFrom_eq_sum (g : Globals) (hB : g.bendingLoss.val = 0) (hU : UsageNonneg g) :
    ∀ (path : List Point) (dir : Direction),
      pathCostFrom g dir path = (path.tail.map (cellCost g)).sum := by
  intro path
  induction path with
  | nil => intro dir; simp [pathCostFrom]
  | cons p rest ih =>
    intro dir
    cases rest with
    | nil => simp [pathCostFrom]
    | cons q rest2 =>
      simp only [pathCostFrom, List.tail_cons, List.map_cons, List.sum_cons]
      rw [ih (moveDirection p q), stepCost_eq_cellCost g hB hU]
      simp only [List.tail_cons]

theorem route_reach (g : Globals) (src : Point) :
    ∀ (path : List Point) (p : Point) (k : ℚ), Reach g src p k → path.head? = some p →
      FourConnected path → (∀ q ∈ path, InGrid g q) → ∀ d, path.getLast? = some d →
      Reach g src d (k + (path.tail.map (cellCost g)).sum) := by
  intro path
  induction path with
  | nil => intro p k _ hh; simp at hh
  | cons a rest ih =>
    intro p k hr hh hc hin d hl
    simp only [List.head?_cons, Option.some.injEq] at hh
    subst hh
    cases rest with
    | nil =>
      simp only [List.getLast?_singleton, Option.some.injEq] at hl
      subst hl
      simpa using hr
    | cons q rest2 =>
      rw [List.getLast?_cons_cons] at hl
      obtain ⟨i, hi, hq⟩ := adjacent_step a q hc.1
      have hqin : InGrid g q := hin q (by simp)
      have hr2 : Reach g src q (k + cellCost g q) := by
        have := Reach.step a k i hr hi (by rw [← hq]; exact hqin)
        rw [← hq] at this
        exact this
      have := ih q (k + cellCost g q) hr2 rfl hc.2
        (fun x hx => hin x (List.mem_cons_of_mem _ hx)) d hl
      simp only [List.tail_cons, List.map_cons, List.sum_cons] at this ⊢
      rw [← add_assoc]
      exact this

/-- In the regime without rounding and without bend penalty, the goal node
carries the exact cost of its chain, which is the least cost of reaching the
destination. -/
theorem goal_gScore_optimal (pq : OpenSet) (g : Globals) (net : Net) (U t : Int) (p c : Nat)
    (hwf : WellFormed g) (hsrc : InGrid g net.source) (hdst : InGrid g net.destination)
    (reg : ExactRegime g U t p c 0)
    (goal : NodePtr) (hgoal : goalNode pq g net = some goal) (hnn : goal ≠ .null) :
    ∃ gq : ℚ, goal.gScore = Dbl.fin gq ∧
      ∀ k, Reach g net.source net.destination k → gq ≤ k := by
  obtain ⟨s, goal2, hs, s0, hs0, ho0, hfin⟩ := search_spec pq g net hwf hsrc
    (Optimal pq g net)
    (fun sa sb ha hoa hit => optimal_next pq g net U t p c reg hsrc hdst sa sb ha hoa hit)
    (fun gs1 vis0 _ _ hfalse hzero hmax => optimal_init pq g net gs1 vis0 hfalse hzero hmax)
  have e : goal2 = goal := by
    unfold goalNode at hgoal
    rw [hs] at hgoal
    simpa using hgoal
  subst e
  rcases hfin with ⟨_, _, hnull⟩ | hf
  · exact absurd hnull hnn
  · obtain ⟨pos, gc, fc, dir, par, q, vis, hg, hp, hv, hx, hy, _, _⟩ :=
      iterate_found_cases pq g net.destination s0 s goal2 hf
    subst hg
    obtain ⟨gq, hgq, _, _, _, hopt⟩ :=
      finalize_optimal pq g net U t p c reg hsrc hdst s0 hs0 ho0 pos gc fc dir par q hp hv
    have e : pos = net.destination := point_eq_of_coords _ _ hy hx
    rw [← e]
    exact ⟨gq, hgq, hopt⟩

/-- In the regime without rounding and without bend penalty, a stored path is
a route whose exact entry cost is the g-score of the goal node and is least
among all routes. -/
theorem stored_route_least (pq : OpenSet) (g g1 : Globals) (net net1 : Net)
    (goal : NodePtr) (U t : Int) (p c : Nat)
    (hwf : WellFormed g) (hsrc : InGrid g net.source) (hdst : InGrid g net.destination)
    (reg : ExactRegime g U t p c 0)
    (hgoal : goalNode pq g net = some goal) (hnn : goal ≠ .null)
    (hr : aStarRouting pq g net = some (g1, net1)) :
    IsRoute g net.source net.destination net1.path ∧
    goal.gScore = Dbl.fin (entryCost g net1.path) ∧
    ∀ path, IsRoute g net.source net.destination path →
      entryCost g net1.path ≤ entryCost g path := by
  obtain ⟨e, _, hok, hnd, _⟩ := aStarRouting_success pq g g1 net net1 goal hgoal hnn hr
  obtain ⟨_, h1, h2, h3⟩ := stored_path_shape pq g g1 net net1 goal hgoal hnn hr
  obtain ⟨_, _, _, hB⟩ := regime_vals g U t p c 0 reg
  have hinr : ∀ q ∈ reversePath goal, InGrid g q := by
    intro q hq
    rcases (nodeOK_path g net goal hok).2.2.2 q hq with rfl | h
    · exact hsrc
    · exact h
  have hin : ∀ q ∈ net1.path, InGrid g q := by
    intro q hq
    rw [e] at hq
    simp only [List.mem_reverse] at hq
    exact hinr q hq
  have hlen := nodup_inGrid_length g _ hnd hinr
  obtain ⟨gq, hgq, hopt⟩ :=
    goal_gScore_optimal pq g net U t p c hwf hsrc hdst reg goal hgoal hnn
  have hcost : entryCost g net1.path = gq := by
    cases goal with
    | null => exact absurd rfl hnn
    | node pos gc fc dir par =>
      obtain ⟨g2, e1, _, _, e4⟩ := nodeOK_exact g net U t p c 0 reg hsrc hdst _ hok
        (by omega) pos gc fc dir par rfl
      simp only [NodePtr.gScore] at hgq
      rw [hgq] at e1
      injection e1 with e1
      subst e1
      unfold entryCost
      rw [e]
      exact ((e4 (hB rfl)).2).symm
  refine ⟨⟨h1, h2, h3, hin⟩, by rw [hcost]; exact hgq, ?_⟩
  intro path ⟨p1, p2, p3, p4⟩
  rw [hcost]
  have hreach := route_reach g net.source path net.source 0 Reach.base p1 p3 p4
    net.destination p2
  rw [zero_add] at hreach
  exact hopt _ hreach

/-- C1 (as amended): when `bendingLoss = 0` and no operation of the search
rounds (grid well-formed, source and destination inside it, `propagationLoss`
and `crossingLoss` the non-negative multiples `p`, `c` of one power of two
`2^t`, no usage counter above `U`, `2 * rows * columns * (p + c * U) ≤ 2^53`),
whenever `aStarRouting` stores a path, that path is a 4-connected in-grid path
from source to destination and has the minimum total cost among all such
paths, where a path's cost is the sum over the entered cells of
`propagationLoss + crossingLoss * max(0, usage)`; when no usage counter is
negative this is the sum of the step costs
`propagationLoss + crossingLoss * usage of the entered cell` of the claim. -/
theorem stored_path_optimal_without_bends (pq : OpenSet) (g g1 : Globals) (net net1 : Net)
    (goal : NodePtr) (U t : Int) (p c : Nat)
    (hwf : WellFormed g) (hsrc : InGrid g net.source) (hdst : InGrid g net.destination)
    (reg : ExactRegime g U t p c 0)
    (hgoal : goalNode pq g net = some goal) (hnn : goal ≠ .null)
    (hr : aStarRouting pq g net = some (g1, net1)) :
    IsRoute g net.source net.destination net1.path ∧
    (∀ path, IsRoute g net.source net.destination path →
      entryCost g net1.path ≤ entryCost g path) ∧
    (UsageNonneg g → ∀ path, IsRoute g net.source net.destination path →
      pathCost g net1.path ≤ pathCost g path) := by
  obtain ⟨hroute, _, hmin⟩ :=
    stored_route_least pq g g1 net net1 goal U t p c hwf hsrc hdst reg hgoal hnn hr
  obtain ⟨_, _, _, hB⟩ := regime_vals g U t p c 0 reg
  refine ⟨hroute, hmin, ?_⟩
  intro hU path hpath
  unfold pathCost
  rw [pathCostFrom_eq_sum g (hB rfl) hU, pathCostFrom_eq_sum g (hB rfl) hU]
  exact hmin path hpath

/-- C1 (witness): the 2x1 grid with coefficients 1, 0, 0 (unit `2^0`). -/
theorem stored_path_optimal_without_bends_witness :
    IsRoute lineGlobals lineNet.source lineNet.destination lineNetRouted.path ∧
    (∀ path, IsRoute lineGlobals lineNet.source lineNet.destination path →
      entryCost lineGlobals lineNetRouted.path ≤ entryCost lineGlobals path) ∧
    (UsageNonneg lineGlobals → ∀ path,
      IsRoute lineGlobals lineNet.source lineNet.destination path →
      pathCost lineGlobals lineNetRouted.path ≤ pathCost lineGlobals path) :=
  stored_path_optimal_without_bends listOpenSet lineGlobals lineGlobalsRouted lineNet
    lineNetRouted lineGoal 1 0 1 0 (by decide) (by decide) (by decide)
    ⟨by decide, by decide, by decide!, by decide!, by decide!, by decide, by decide,
      by decide, by decide, by decide⟩
    (by decide!) (by decide) (by decide!)

/-! ## Independence of the priority queue when no top is tied -/

theorem relax_sim (pq : OpenSet) (g : Globals) (dest : Point) (cur : NodePtr) (i : Nat)
    (s : Search pq) (t t1 : Search listOpenSet) (hR : SimRel pq s t)
    (h : relax listOpenSet g dest cur i t = some t1) :
    ∃ s1, relax pq g dest cur i s = some s1 ∧ SimRel pq s1 t1 := by
  obtain ⟨hg, hv, hq⟩ := hR
  cases cur with
  | null => exact absurd h (by simp [relax])
  | node pos gc fc dir par =>
    unfold relax
    simp only
    rcases relax_cases listOpenSet g dest pos gc fc dir par i t t1 h with
      ⟨hout, rfl⟩ | ⟨hin, hvt, rfl⟩ |
      ⟨hin, hvf, usage, old, hu, ho, ⟨hnlt, rfl⟩ | ⟨hlt, gs, hgs, rfl⟩⟩
    · have hb : pos.x + dx i < 0 ∨ pos.x + dx i ≥ g.columns ∨ pos.y + dy i < 0 ∨
          pos.y + dy i ≥ g.rows := by
        unfold InGrid at hout
        simp only at hout
        omega
      rw [if_pos hb]
      exact ⟨s, rfl, hg, hv, hq⟩
    · have hb : ¬ (pos.x + dx i < 0 ∨ pos.x + dx i ≥ g.columns ∨ pos.y + dy i < 0 ∨
          pos.y + dy i ≥ g.rows) := by
        unfold InGrid at hin
        simp only at hin
        omega
      rw [if_neg hb, hv, hvt]
      exact ⟨s, rfl, hg, hv, hq⟩
    · have hb : ¬ (pos.x + dx i < 0 ∨ pos.x + dx i ≥ g.columns ∨ pos.y + dy i < 0 ∨
          pos.y + dy i ≥ g.rows) := by
        unfold InGrid at hin
        simp only at hin
        omega
      rw [if_neg hb, hv, hvf]
      simp only
      rw [hu]
      simp only
      rw [hg, ho]
      simp only
      rw [if_neg hnlt]
      exact ⟨s, rfl, hg, hv, hq⟩
    · have hb : ¬ (pos.x + dx i < 0 ∨ pos.x + dx i ≥ g.columns ∨ pos.y + dy i < 0 ∨
          pos.y + dy i ≥ g.rows) := by
        unfold InGrid at hin
        simp only at hin
        omega
      rw [if_neg hb, hv, hvf]
      simp only
      rw [hu]
      simp only
      rw [hg, ho]
      simp only
      rw [if_pos hlt, hgs]
      refine ⟨_, rfl, rfl, rfl, ?_⟩
      simp only
      exact (pq.toList_push _ _).trans
        ((List.Perm.cons _ hq).trans (listOpenSet.toList_push _ _).symm)

theorem expand_sim (pq : OpenSet) (g : Globals) (dest : Point) (cur : NodePtr)
    (s : Search pq) (t t1 : Search listOpenSet) (hR : SimRel pq s t)
    (h : expand listOpenSet g dest cur t = some t1) :
    ∃ s1, expand pq g dest cur s = some s1 ∧ SimRel pq s1 t1 := by
  unfold expand at h
  cases h0 : relax listOpenSet g dest cur 0 t with
  | none => rw [h0] at h; exact absurd h (by simp)
  | some a =>
    rw [h0] at h
    simp only [Option.some_bind] at h
    cases h1 : relax listOpenSet g dest cur 1 a with
    | none => rw [h1] at h; exact absurd h (by simp)
    | some b =>
      rw [h1] at h
      simp only [Option.some_bind] at h
      cases h2 : relax listOpenSet g dest cur 2 b with
      | none => rw [h2] at h; exact absurd h (by simp)
      | some c =>
        rw [h2] at h
        simp only [Option.some_bind] at h
        obtain ⟨a1, ea, ra⟩ := relax_sim pq g dest cur 0 s t a hR h0
        obtain ⟨b1, eb, rb⟩ := relax_sim pq g dest cur 1 a1 a b ra h1
        obtain ⟨c1, ec, rc⟩ := relax_sim pq g dest cur 2 b1 b c rb h2
        obtain ⟨d1, ed, rd⟩ := relax_sim pq g dest cur 3 c1 c t1 rc h
        refine ⟨d1, ?_, rd⟩
        unfold expand
        rw [ea]
        simp only [Option.some_bind]
        rw [eb]
        simp only [Option.some_bind]
        rw [ec]
        simp only [Option.some_bind]
        exact ed

/-- With an untied top every priority queue extracts the entry `popMin`
extracts. -/
theorem pop_sim (pq : OpenSet) (q : pq.Q) (l : List NodePtr)
    (hq : (pq.toList q).Perm l) (hu : uniqueTop l = true) :
    (popMin l = none → pq.pop q = none) ∧
    (∀ n rest, popMin l = some (n, rest) →
      ∃ q1, pq.pop q = some (n, q1) ∧ (pq.toList q1).Perm rest) := by
  constructor
  · intro h
    have hl : l = [] := (listOpenSet.pop_none l).1 h
    rw [pq.pop_none]
    subst hl
    exact hq.eq_nil
  · intro n rest h
    obtain ⟨hp, _⟩ := listOpenSet.pop_some l n rest h
    have hp2 : l.Perm (n :: rest) := hp
    unfold uniqueTop at hu
    rw [h] at hu
    simp only [List.all_eq_true, decide_eq_true_eq] at hu
    cases hpop : pq.pop q with
    | none =>
      have := (pq.pop_none q).1 hpop
      rw [this] at hq
      have hl : l = [] := hq.symm.eq_nil
      rw [hl] at hp2
      exact absurd hp2.symm.eq_nil (by simp)
    | some r =>
      obtain ⟨m, q1⟩ := r
      obtain ⟨hpm, hmin⟩ := pq.pop_some q m q1 hpop
      have hmn : m ∈ n :: rest := (hq.trans hp2).subset (hpm.symm.subset (List.mem_cons_self _ _))
      have hnq : n ∈ pq.toList q := (hq.trans hp2).symm.subset (List.mem_cons_self _ _)
      have hle := hmin n hnq
      unfold NodeComparator at hle
      have e : m = n := by
        rcases List.mem_cons.1 hmn with e | hm
        · exact e
        · exact absurd (hu m hm) hle
      subst e
      refine ⟨q1, rfl, ?_⟩
      exact List.Perm.cons_inv (hpm.symm.trans (hq.trans hp2))

theorem iterate_sim (pq : OpenSet) (g : Globals) (dest : Point)
    (s : Search pq) (t : Search listOpenSet) (hR : SimRel pq s t)
    (hu : uniqueTop t.openSet = true) :
    (iterate listOpenSet g dest t = .exhausted → iterate pq g dest s = .exhausted) ∧
    (∀ t1 goal, iterate listOpenSet g dest t = .found t1 goal →
      ∃ s1, iterate pq g dest s = .found s1 goal ∧ SimRel pq s1 t1) ∧
    (∀ t1, iterate listOpenSet g dest t = .next t1 →
      ∃ s1, iterate pq g dest s = .next s1 ∧ SimRel pq s1 t1) := by
  obtain ⟨hg, hv, hq⟩ := hR
  obtain ⟨hnone, hsome⟩ := pop_sim pq s.openSet t.openSet hq hu
  refine ⟨?_, ?_, ?_⟩
  · intro h
    have hl := iterate_exhausted listOpenSet g dest t h
    have : popMin t.openSet = none := (listOpenSet.pop_none t.openSet).2 hl
    unfold iterate
    rw [hnone this]
  · intro t1 goal h
    obtain ⟨pos, gc, fc, dir, par, q, vis, e, hp, hvf, hx, hy, hvis, rfl⟩ :=
      iterate_found_cases listOpenSet g dest t t1 goal h
    subst e
    obtain ⟨q1, hp1, hq1⟩ := hsome _ _ hp
    refine ⟨{ openSet := q1, gScores := s.gScores, visitedCells := vis }, ?_, hg, rfl, hq1⟩
    unfold iterate
    rw [hp1]
    simp only
    rw [hv, hvf]
    simp only
    rw [hvis]
    simp only
    rw [if_pos ⟨hx, hy⟩]
  · intro t1 h
    obtain ⟨pos, gc, fc, dir, par, q, hp, hcase⟩ := iterate_next_cases listOpenSet g dest t t1 h
    obtain ⟨q1, hp1, hq1⟩ := hsome _ _ hp
    rcases hcase with ⟨hvt, rfl⟩ | ⟨hvf, hnd, vis, hvis, he⟩
    · refine ⟨{ openSet := q1, gScores := s.gScores, visitedCells := s.visitedCells }, ?_,
        hg, hv, hq1⟩
      unfold iterate
      rw [hp1]
      simp only
      rw [hv, hvt]
    · obtain ⟨s1, he1, hr1⟩ := expand_sim pq g dest (.node pos gc fc dir par)
        { openSet := q1, gScores := s.gScores, visitedCells := vis }
        { openSet := q, gScores := t.gScores, visitedCells := vis } t1 ⟨hg, rfl, hq1⟩ he
      refine ⟨s1, ?_, hr1⟩
      unfold iterate
      rw [hp1]
      simp only
      rw [hv, hvf]
      simp only
      rw [hvis]
      simp only
      rw [if_neg hnd, he1]

theorem aStarLoop_sim (pq : OpenSet) (g : Globals) (dest : Point) :
    ∀ (fuel : Nat) (s : Search pq) (t : Search listOpenSet), SimRel pq s t →
      tieFreeLoop g dest fuel t = true →
      ∀ t1 goal, aStarLoop listOpenSet g dest fuel t = some (t1, goal) →
        ∃ s1, aStarLoop pq g dest fuel s = some (s1, goal) ∧ SimRel pq s1 t1 := by
  intro fuel
  induction fuel with
  | zero => intro s t _ _ t1 goal h; simp [aStarLoop] at h
  | succ n ih =>
    intro s t hR htf t1 goal h
    rw [tieFreeLoop, Bool.and_eq_true] at htf
    obtain ⟨hu, hrest⟩ := htf
    obtain ⟨hex, hfound, hnext⟩ := iterate_sim pq g dest s t hR hu
    rw [aStarLoop] at h ⊢
    cases hit : iterate listOpenSet g dest t with
    | undefined => rw [hit] at h; exact absurd h (by simp)
    | exhausted =>
      rw [hit] at h
      simp only [Option.some.injEq, Prod.mk.injEq] at h
      rw [hex hit]
      obtain ⟨rfl, rfl⟩ := h
      exact ⟨s, rfl, hR⟩
    | found t2 goal2 =>
      rw [hit] at h
      simp only [Option.some.injEq, Prod.mk.injEq] at h
      obtain ⟨rfl, rfl⟩ := h
      obtain ⟨s1, hs1, hr1⟩ := hfound _ _ hit
      rw [hs1]
      exact ⟨s1, rfl, hr1⟩
    | next t2 =>
      rw [hit] at h hrest
      simp only at h hrest
      obtain ⟨s1, hs1, hr1⟩ := hnext _ hit
      rw [hs1]
      exact ih s1 t2 hr1 hrest t1 goal h

/-- When the search for a net never meets a tied top, the loop ends with the
same `goalNode` and the same tables for every priority queue. -/
theorem search_tieFree (pq : OpenSet) (g : Globals) (net : Net)
    (htf : tieFree g net = true) (t1 : Search listOpenSet) (goal : NodePtr)
    (hs : search listOpenSet g net = some (t1, goal)) :
    ∃ s1, search pq g net = some (s1, goal) ∧ SimRel pq s1 t1 := by
  unfold search at hs
  cases hi : initialSearch listOpenSet g net with
  | none => rw [hi] at hs; exact absurd hs (by simp)
  | some t0 =>
    rw [hi] at hs
    simp only at hs
    obtain ⟨gs0, vis0, gs1, e1, e2, e3, rfl⟩ := initialSearch_cases listOpenSet g net t0 hi
    unfold tieFree at htf
    rw [hi] at htf
    simp only at htf
    have hR : SimRel pq
        { openSet := pq.push pq.empty
            (.node net.source 0 (heuristic g.propagationLoss net.source net.destination)
              Direction.NONE .null),
          gScores := gs1, visitedCells := vis0 }
        { openSet := listOpenSet.push listOpenSet.empty
            (.node net.source 0 (heuristic g.propagationLoss net.source net.destination)
              Direction.NONE .null),
          gScores := gs1, visitedCells := vis0 } := by
      refine ⟨rfl, rfl, ?_⟩
      simp only
      refine (pq.toList_push _ _).trans ?_
      rw [pq.toList_empty]
      exact ((listOpenSet.toList_push _ _).trans (by rw [listOpenSet.toList_empty])).symm
    obtain ⟨s1, hs1, hr1⟩ := aStarLoop_sim pq g net.destination _ _ _ hR htf t1 goal hs
    refine ⟨s1, ?_, hr1⟩
    unfold search initialSearch
    rw [e1, e2]
    simp only
    rw [e3]
    exact hs1

/-- When the search for a net never meets a tied top, `aStarRouting` returns
the same globals and the same net for every priority queue. -/
theorem aStarRouting_tieFree (pq : OpenSet) (g : Globals) (net : Net)
    (htf : tieFree g net = true) (r : Globals × Net)
    (h : aStarRouting listOpenSet g net = some r) : aStarRouting pq g net = some r := by
  unfold aStarRouting at h ⊢
  cases hs : search listOpenSet g net with
  | none => rw [hs] at h; exact absurd h (by simp)
  | some sr =>
    obtain ⟨t1, goal⟩ := sr
    rw [hs] at h
    obtain ⟨s1, hs1, hr1⟩ := search_tieFree pq g net htf t1 goal hs
    rw [hs1]
    simp only at h ⊢
    rw [hr1.1, hr1.2.1]
    exact h

/-- C1 (counterexample): on the 3x2 grid `bendGlobals` (coefficients 1, 1, 3,
all non-negative; usage 10 on cell (2,0) and 1 on cell (0,1)) the search for
the net from (0,0) to (2,1) never meets tied f-scores and, for every priority
queue, stores the path (0,0), (1,0), (1,1), (2,1) of cost 10 with two bends,
although the path (0,0), (0,1), (1,1), (2,1) with one bend costs 8. -/
theorem bend_path_not_optimal :
    WellFormed bendGlobals ∧ UsageNonneg bendGlobals ∧
    bendGlobals.propagationLoss = 1 ∧ bendGlobals.crossingLoss = 1 ∧
    bendGlobals.bendingLoss = 3 ∧
    InGrid bendGlobals bendNet.source ∧ InGrid bendGlobals bendNet.destination ∧
    (∀ pq : OpenSet, aStarRouting pq bendGlobals bendNet =
      some (bendGlobalsRouted, bendNetRouted)) ∧
    bendNetRouted.path = [⟨0, 0⟩, ⟨1, 0⟩, ⟨1, 1⟩, ⟨2, 1⟩] ∧
    pathCost bendGlobals bendNetRouted.path = 10 ∧
    IsRoute bendGlobals bendNet.source bendNet.destination
      [⟨0, 0⟩, ⟨0, 1⟩, ⟨1, 1⟩, ⟨2, 1⟩] ∧
    pathCost bendGlobals [⟨0, 0⟩, ⟨0, 1⟩, ⟨1, 1⟩, ⟨2, 1⟩] = 8 := by
  refine ⟨by decide, by decide, rfl, rfl, rfl, by decide, by decide,
    ?_, rfl, by decide!, by decide, by decide!⟩
  intro pq
  exact aStarRouting_tieFree pq bendGlobals bendNet (by decide!) _ (by decide!)

theorem sort_singleton (srt : SortAlgorithm) (a : Net) : srt.sort [a] = [a] :=
  List.perm_singleton.1 (srt.perm [a])

/-- C7 (evaluation at the failing input): on the input file with grid 2x1,
propagation loss `DBL_MAX` and the single net `1 0 0 1 0`, for every priority
queue and every sorting algorithm the search finds no path, the net stays
unrouted, and `writeOutput` prints the header `1 -1`: the segment count of an
empty path is -1, not 0. -/
theorem main_unrouted_header (pq : OpenSet) (srt : SortAlgorithm) :
    main pq srt hugeLossInput = some [⟨1, -1, []⟩] := by
  have h1 : initializeGlobals hugeLossInput = some hugeLossGlobals := by decide!
  have h2 : routingOrder srt hugeLossGlobals.nets = [lineNet] := sort_singleton srt lineNet
  have h3 : aStarRouting pq { hugeLossGlobals with nets := [lineNet] } lineNet =
      some (hugeLossGlobalsAfter, lineNet) :=
    aStarRouting_tieFree pq hugeLossGlobals lineNet (by decide!) _ (by decide!)
  unfold main
  rw [h1]
  simp only
  rw [h2]
  simp only [routeAll]
  rw [h3]
  decide!

/-! ## The heuristic and the cost of a move -/

theorem indexToDirection_ne_none (i : Nat) (hi : i < 4) :
    indexToDirection i ≠ Direction.NONE := by
  interval_cases i <;> simp [indexToDirection]

/-- The exact cost of a move is the step cost of the specification at the
clamped usage `max(0, usage)`. -/
theorem moveCost_eq_stepCost (g : Globals) (dir : Direction) (i : Nat) (usage : Int) :
    moveCost g dir i usage = stepCost g dir (indexToDirection i) (max 0 usage) := by
  unfold moveCost stepCost
  by_cases h : dir = Direction.NONE ∨ dir = indexToDirection i
  · have h2 : ¬ (dir ≠ Direction.NONE ∧ dir ≠ indexToDirection i) := by
      rcases h with h | h
      · exact fun hc => hc.1 h
      · exact fun hc => hc.2 h
    rw [if_pos h, if_neg h2]
  · have h2 : dir ≠ Direction.NONE ∧ dir ≠ indexToDirection i :=
      ⟨fun hc => h (Or.inl hc), fun hc => h (Or.inr hc)⟩
    rw [if_neg h, if_pos h2]

theorem usageAt_le (g : Globals) (U t : Int) (p c b : Nat) (reg : ExactRegime g U t p c b)
    (q : Point) : usageAt g q ≤ U := by
  unfold usageAt
  cases h : tget g.cellUsage q.y q.x with
  | none => simpa using reg.usage_nonneg
  | some u =>
    obtain ⟨row, h1, h2⟩ := tget_mem _ _ _ _ h
    simpa using reg.usage_le row h1 u h2

theorem stepCost_ge (g : Globals) (d1 d2 : Direction) (u : Int) (hu : 0 ≤ u)
    (hC : 0 ≤ g.crossingLoss.val) (hB : 0 ≤ g.bendingLoss.val) :
    g.propagationLoss.val ≤ stepCost g d1 d2 u := by
  unfold stepCost
  have h1 : (0 : ℚ) ≤ (u : ℚ) := by exact_mod_cast hu
  have h2 := mul_nonneg hC h1
  split_ifs <;> linarith

/-- One move changes the exact heuristic by at most the step cost. -/
theorem manhattan_le_stepCost (g : Globals) (dest a b : Point) (hab : Adjacent a b)
    (d1 d2 : Direction) (u : Int) (hu : 0 ≤ u)
    (hP : 0 ≤ g.propagationLoss.val) (hC : 0 ≤ g.crossingLoss.val)
    (hB : 0 ≤ g.bendingLoss.val) :
    (manhattan a dest : ℚ) * g.propagationLoss.val ≤
      stepCost g d1 d2 u + (manhattan b dest : ℚ) * g.propagationLoss.val := by
  have hm := manhattan_le_of_step a.x b.x a.y b.y dest.x dest.y hab
  have hm2 : (manhattan a dest : ℚ) ≤ 1 + (manhattan b dest : ℚ) := by
    unfold manhattan
    exact_mod_cast hm
  have h1 := mul_le_mul_of_nonneg_right hm2 hP
  have h2 := stepCost_ge g d1 d2 u hu hC hB
  linarith

theorem manhattan_self (a : Point) : manhattan a a = 0 := by
  unfold manhattan
  simp

/-- The exact heuristic never exceeds the cost of a 4-connected path to the
destination. -/
theorem manhattan_le_pathCostFrom (g : Globals) (dest : Point)
    (hP : 0 ≤ g.propagationLoss.val) (hC : 0 ≤ g.crossingLoss.val)
    (hB : 0 ≤ g.bendingLoss.val) (hU : UsageNonneg g) :
    ∀ (path : List Point) (a : Point) (dir : Direction), path.head? = some a →
      path.getLast? = some dest → FourConnected path →
      (manhattan a dest : ℚ) * g.propagationLoss.val ≤ pathCostFrom g dir path := by
  intro path
  induction path with
  | nil => intro a dir h; simp at h
  | cons x rest ih =>
    intro a dir ha hl hc
    simp only [List.head?_cons, Option.some.injEq] at ha
    subst ha
    cases rest with
    | nil =>
      simp only [List.getLast?_singleton, Option.some.injEq] at hl
      subst hl
      rw [manhattan_self]
      simp [pathCostFrom]
    | cons y rest2 =>
      have hl2 : (y :: rest2).getLast? = some dest := by
        rw [List.getLast?_cons_cons] at hl
        exact hl
      have h1 := ih y (moveDirection x y) rfl hl2 hc.2
      have h2 := manhattan_le_stepCost g dest x y hc.1 dir (moveDirection x y) (usageAt g y)
        (usageAt_nonneg g hU y) hP hC hB
      simp only [pathCostFrom]
      linarith

/-- C10 (counterexample): on the 7x1 grid with `propagation loss 0.1`, no
crossing or bending loss and usage 0, the `double` returned by
`heuristic((0,0), (6,0))` is not 6 times `propagationLoss`, and it exceeds the
cost of the move RIGHT into the in-grid neighbour (1,0) plus
`heuristic((1,0), (6,0))`, both for the `double` sum the program forms and for
the exact sum, and so it exceeds the total cost of the 4-connected path from
(0,0) straight to (6,0). -/
theorem heuristic_rounding_inconsistent :
    0 ≤ tenthGlobals.propagationLoss.val ∧ 0 ≤ tenthGlobals.crossingLoss.val ∧
    0 ≤ tenthGlobals.bendingLoss.val ∧ UsageNonneg tenthGlobals ∧
    InGrid tenthGlobals ⟨0, 0⟩ ∧ InGrid tenthGlobals ⟨1, 0⟩ ∧ InGrid tenthGlobals ⟨6, 0⟩ ∧
    (heuristic tenthGlobals.propagationLoss ⟨0, 0⟩ ⟨6, 0⟩).val ≠
      6 * tenthGlobals.propagationLoss.val ∧
    waveguideLoss tenthGlobals Direction.NONE 3 (usageAt tenthGlobals ⟨1, 0⟩) +
        heuristic tenthGlobals.propagationLoss ⟨1, 0⟩ ⟨6, 0⟩ <
      heuristic tenthGlobals.propagationLoss ⟨0, 0⟩ ⟨6, 0⟩ ∧
    stepCost tenthGlobals Direction.NONE Direction.RIGHT (usageAt tenthGlobals ⟨1, 0⟩) +
        (heuristic tenthGlobals.propagationLoss ⟨1, 0⟩ ⟨6, 0⟩).val <
      (heuristic tenthGlobals.propagationLoss ⟨0, 0⟩ ⟨6, 0⟩).val ∧
    FourConnected [⟨0, 0⟩, ⟨1, 0⟩, ⟨2, 0⟩, ⟨3, 0⟩, ⟨4, 0⟩, ⟨5, 0⟩, ⟨6, 0⟩] ∧
    pathCost tenthGlobals [⟨0, 0⟩, ⟨1, 0⟩, ⟨2, 0⟩, ⟨3, 0⟩, ⟨4, 0⟩, ⟨5, 0⟩, ⟨6, 0⟩] <
      (heuristic tenthGlobals.propagationLoss ⟨0, 0⟩ ⟨6, 0⟩).val := by
  refine ⟨by decide!, by decide!, by decide!, by decide, by decide, by decide, by decide,
    by decide!, by decide!, by decide!, by decide, by decide!⟩

/-- C10 (as amended): in the regime in which no operation rounds (coefficients
the non-negative multiples `p`, `c`, `b` of one power of two `2^t`, usage
counters between 0 and `U`, `2 * rows * columns * (p + c * U + b) ≤ 2^53`),
`heuristic(a, b)` is exactly the Manhattan distance between the in-grid cells
`a` and `b` times `propagationLoss`; `heuristic(dest, dest) = 0`; for every
in-grid cell, every in-grid neighbour and every arrival direction the cost
the search charges for the move is exactly the step cost, the comparison
`stepCost + heuristic(n, dest) < heuristic(c, dest)` is false in `double`
arithmetic, and `heuristic(c, dest) ≤ stepCost + heuristic(n, dest)`; hence
`heuristic(c, dest)` never exceeds the total cost of a 4-connected path from
`c` to `dest`. -/
theorem heuristic_admissible_consistent (g : Globals) (dest : Point) (U t : Int)
    (p c b : Nat) (reg : ExactRegime g U t p c b) (hdst : InGrid g dest)
    (hU : UsageNonneg g) :
    (∀ a b : Point, InGrid g a → InGrid g b → heuristic g.propagationLoss a b =
      Dbl.fin (((|a.x - b.x| + |a.y - b.y| : Int) : ℚ) * g.propagationLoss.val)) ∧
    heuristic g.propagationLoss dest dest = 0 ∧
    (∀ (cell : Point) (i : Nat) (dir : Direction), i < 4 → InGrid g cell →
      InGrid g ⟨cell.x + dx i, cell.y + dy i⟩ →
      waveguideLoss g dir i (usageAt g ⟨cell.x + dx i, cell.y + dy i⟩) =
        Dbl.fin (stepCost g dir (indexToDirection i)
          (usageAt g ⟨cell.x + dx i, cell.y + dy i⟩)) ∧
      ¬ (waveguideLoss g dir i (usageAt g ⟨cell.x + dx i, cell.y + dy i⟩) +
            heuristic g.propagationLoss ⟨cell.x + dx i, cell.y + dy i⟩ dest <
          heuristic g.propagationLoss cell dest) ∧
      (heuristic g.propagationLoss cell dest).val ≤
        stepCost g dir (indexToDirection i) (usageAt g ⟨cell.x + dx i, cell.y + dy i⟩) +
          (heuristic g.propagationLoss ⟨cell.x + dx i, cell.y + dy i⟩ dest).val) ∧
    (∀ (cell : Point) (path : List Point), InGrid g cell → path.head? = some cell →
      path.getLast? = some dest → FourConnected path →
      (heuristic g.propagationLoss cell dest).val ≤ pathCost g path) := by
  obtain ⟨hP, hC, hB, _⟩ := regime_vals g U t p c b reg
  have hN : 1 ≤ g.rows.toNat * g.columns.toNat := by
    have := (manhattan_lt_size g dest dest hdst hdst).2.2
    omega
  refine ⟨?_, ?_, ?_, ?_⟩
  · intro a b2 ha hb
    exact (heuristic_exact g U t p c b reg a b2 ha hb).1
  · rw [(heuristic_exact g U t p c b reg dest dest hdst hdst).1, manhattan_self, Dbl.zero_eq]
    simp
  · intro cell i dir hi hcell hnb
    have hu0 := usageAt_nonneg g hU ⟨cell.x + dx i, cell.y + dy i⟩
    have huU := usageAt_le g U t p c b reg ⟨cell.x + dx i, cell.y + dy i⟩
    have hw := waveguideLoss_exact g U t p c b reg hN dir i _ huU
    have hwg := moveCost_onGrid g U t p c b reg dir i _ huU
    rw [moveCost_eq_stepCost, max_eq_right hu0] at hw hwg
    obtain ⟨hh1, hg1⟩ := heuristic_exact g U t p c b reg cell dest hcell hdst
    obtain ⟨hh2, hg2⟩ := heuristic_exact g U t p c b reg _ dest hnb hdst
    have hcons := manhattan_le_stepCost g dest cell ⟨cell.x + dx i, cell.y + dy i⟩
      (adjacent_of_step cell i hi) dir (indexToDirection i) _ hu0 hP hC hB
    have hbound : p + c * U.toNat + b +
        g.rows.toNat * g.columns.toNat * (p + c * U.toNat + b) ≤ 9007199254740992 := by
      have h1 := reg.bound
      have h2 : p + c * U.toNat + b ≤
          g.rows.toNat * g.columns.toNat * (p + c * U.toNat + b) :=
        Nat.le_mul_of_pos_left _ hN
      have h3 : 2 * (g.rows.toNat * g.columns.toNat) * (p + c * U.toNat + b) =
          g.rows.toNat * g.columns.toNat * (p + c * U.toNat + b) +
            g.rows.toNat * g.columns.toNat * (p + c * U.toNat + b) := by ring
      omega
    have hsum := fin_add_onGrid t _ _ _ _ reg.unit_ge reg.unit_le hwg hg2 hbound
    refine ⟨hw, ?_, ?_⟩
    · rw [hw, hh1, hh2, hsum, Dbl.fin_lt_fin]
      exact not_lt.2 hcons
    · rw [hh1, hh2]
      exact hcons
  · intro cell path hcell hh hl hc
    rw [(heuristic_exact g U t p c b reg cell dest hcell hdst).1]
    exact manhattan_le_pathCostFrom g dest hP hC hB hU path cell Direction.NONE hh hl hc

/-- C10 (witness): the amended statement at `bendGlobals` (coefficients 1, 1,
3, unit `2^0`, usage at most 10) with destination (2,1). -/
theorem heuristic_admissible_consistent_witness :
    (∀ a b : Point, InGrid bendGlobals a → InGrid bendGlobals b →
      heuristic bendGlobals.propagationLoss a b =
        Dbl.fin (((|a.x - b.x| + |a.y - b.y| : Int) : ℚ) * bendGlobals.propagationLoss.val)) ∧
    heuristic bendGlobals.propagationLoss ⟨2, 1⟩ ⟨2, 1⟩ = 0 ∧
    (∀ (cell : Point) (i : Nat) (dir : Direction), i < 4 → InGrid bendGlobals cell →
      InGrid bendGlobals ⟨cell.x + dx i, cell.y + dy i⟩ →
      waveguideLoss bendGlobals dir i (usageAt bendGlobals ⟨cell.x + dx i, cell.y + dy i⟩) =
        Dbl.fin (stepCost bendGlobals dir (indexToDirection i)
          (usageAt bendGlobals ⟨cell.x + dx i, cell.y + dy i⟩)) ∧
      ¬ (waveguideLoss bendGlobals dir i
              (usageAt bendGlobals ⟨cell.x + dx i, cell.y + dy i⟩) +
            heuristic bendGlobals.propagationLoss ⟨cell.x + dx i, cell.y + dy i⟩ ⟨2, 1⟩ <
          heuristic bendGlobals.propagationLoss cell ⟨2, 1⟩) ∧
      (heuristic bendGlobals.propagationLoss cell ⟨2, 1⟩).val ≤
        stepCost bendGlobals dir (indexToDirection i)
            (usageAt bendGlobals ⟨cell.x + dx i, cell.y + dy i⟩) +
          (heuristic bendGlobals.propagationLoss ⟨cell.x + dx i, cell.y + dy i⟩ ⟨2, 1⟩).val) ∧
    (∀ (cell : Point) (path : List Point), InGrid bendGlobals cell →
      path.head? = some cell → path.getLast? = some ⟨2, 1⟩ → FourConnected path →
      (heuristic bendGlobals.propagationLoss cell ⟨2, 1⟩).val ≤ pathCost bendGlobals path) :=
  heuristic_admissible_consistent bendGlobals ⟨2, 1⟩ 10 0 1 1 3
    ⟨by decide, by decide, by decide!, by decide!, by decide!, by decide, by decide,
      by decide, by decide, by decide⟩
    (by decide) (by decide)

/-- C11 (counterexample): on the 2x1 grid with `propagation loss
10000000000000000`, `crossing loss 1`, no bending loss and usage 1 on both
cells, the move RIGHT out of the start node into cell (1,0) should cost
`10000000000000000 + 1 * 1`, but the `double` the program adds is
`10000000000000000`, and that is the g-score of the goal node. -/
theorem move_cost_rounds :
    0 ≤ coarseGlobals.propagationLoss.val ∧ 0 ≤ coarseGlobals.crossingLoss.val ∧
    0 ≤ coarseGlobals.bendingLoss.val ∧ UsageNonneg coarseGlobals ∧
    usageAt coarseGlobals ⟨1, 0⟩ = 1 ∧
    coarseGlobals.propagationLoss.val +
        coarseGlobals.crossingLoss.val * (usageAt coarseGlobals ⟨1, 0⟩ : ℚ) =
      10000000000000001 ∧
    waveguideLoss coarseGlobals Direction.NONE 3 (usageAt coarseGlobals ⟨1, 0⟩) =
      Dbl.fin 10000000000000000 ∧
    (goalNode listOpenSet coarseGlobals lineNet).map NodePtr.gScore =
      some (Dbl.fin 10000000000000000) := by
  refine ⟨by decide!, by decide!, by decide!, by decide, by decide, by decide!, by decide!,
    by decide!⟩

/-- C11 (as amended): in the regime in which no operation rounds (coefficients
the non-negative multiples `p`, `c`, `b` of one power of two `2^t`, usage
counters between 0 and `U`, `2 * rows * columns * (p + c * U + b) ≤ 2^53`, the
g-score of the current node a multiple `k * 2^t` with
`k + p + c * U + b ≤ 2^53`), the cost the neighbour loop adds for the move in
direction `i` into an in-grid cell that is not finalized is exactly
`propagationLoss + crossingLoss * (usage of the entered cell) + bendingLoss`
when the current node has an arrival direction that differs from the direction
of the move, and `+ 0` otherwise; out of a node with arrival direction NONE it
is `propagationLoss + crossingLoss * usage` whatever the direction, which is
never NONE; and the pass records and pushes the g-score of the current node
plus that cost exactly when it is below the score recorded for the cell, and
changes nothing otherwise. -/
theorem move_cost_formula (pq : OpenSet) (g : Globals) (dest pos : Point) (k : Nat)
    (fc : Dbl) (dir : Direction) (par : NodePtr) (i : Nat) (s : Search pq)
    (usage : Int) (old : Dbl) (U t : Int) (p c b : Nat)
    (reg : ExactRegime g U t p c b)
    (hk : k + (p + c * U.toNat + b) ≤ 9007199254740992)
    (hi : i < 4) (hU : UsageNonneg g)
    (hin : InGrid g ⟨pos.x + dx i, pos.y + dy i⟩)
    (hvis : tget s.visitedCells (pos.y + dy i) (pos.x + dx i) = some false)
    (hu : tget g.cellUsage (pos.y + dy i) (pos.x + dx i) = some usage)
    (hold : tget s.gScores (pos.y + dy i) (pos.x + dx i) = some old) :
    waveguideLoss g dir i usage =
      Dbl.fin (g.propagationLoss.val + g.crossingLoss.val * (usage : ℚ) +
        (if dir ≠ Direction.NONE ∧ dir ≠ indexToDirection i
         then g.bendingLoss.val else 0)) ∧
    waveguideLoss g Direction.NONE i usage =
      Dbl.fin (g.propagationLoss.val + g.crossingLoss.val * (usage : ℚ)) ∧
    indexToDirection i ≠ Direction.NONE ∧
    relax pq g dest (.node pos (Dbl.fin ((k : ℚ) * pow2 t)) fc dir par) i s =
      if Dbl.fin ((k : ℚ) * pow2 t + stepCost g dir (indexToDirection i) usage) < old then
        match tset s.gScores (pos.y + dy i) (pos.x + dx i)
            (Dbl.fin ((k : ℚ) * pow2 t + stepCost g dir (indexToDirection i) usage)) with
        | none => none
        | some gs =>
          some { openSet := pq.push s.openSet
                   (.node ⟨pos.x + dx i, pos.y + dy i⟩
                     (Dbl.fin ((k : ℚ) * pow2 t + stepCost g dir (indexToDirection i) usage))
                     (Dbl.fin ((k : ℚ) * pow2 t + stepCost g dir (indexToDirection i) usage) +
                       heuristic g.propagationLoss ⟨pos.x + dx i, pos.y + dy i⟩ dest)
                     (indexToDirection i)
                     (.node pos (Dbl.fin ((k : ℚ) * pow2 t)) fc dir par)),
                 gScores := gs,
                 visitedCells := s.visitedCells }
      else some s := by
  have hN : 1 ≤ g.rows.toNat * g.columns.toNat := by
    have := (manhattan_lt_size g _ _ hin hin).2.2
    omega
  obtain ⟨row, hr1, hr2⟩ := tget_mem _ _ _ _ hu
  have huU : usage ≤ U := reg.usage_le row hr1 usage hr2
  have hu0 : 0 ≤ usage := hU row hr1 usage hr2
  have hw : ∀ d : Direction,
      waveguideLoss g d i usage = Dbl.fin (stepCost g d (indexToDirection i) usage) := by
    intro d
    have h := waveguideLoss_exact g U t p c b reg hN d i usage huU
    rw [moveCost_eq_stepCost, max_eq_right hu0] at h
    exact h
  have hwg := moveCost_onGrid g U t p c b reg dir i usage huU
  rw [moveCost_eq_stepCost, max_eq_right hu0] at hwg
  have htent : Dbl.fin ((k : ℚ) * pow2 t) + waveguideLoss g dir i usage =
      Dbl.fin ((k : ℚ) * pow2 t + stepCost g dir (indexToDirection i) usage) := by
    rw [hw dir]
    exact fin_add_onGrid t k _ _ _ reg.unit_ge reg.unit_le ⟨k, le_refl k, rfl⟩ hwg hk
  refine ⟨hw dir, ?_, indexToDirection_ne_none i hi, ?_⟩
  · rw [hw Direction.NONE]
    simp [stepCost]
  · have hcond : ¬ (pos.x + dx i < 0 ∨ pos.x + dx i ≥ g.columns ∨ pos.y + dy i < 0 ∨
        pos.y + dy i ≥ g.rows) := by
      unfold InGrid at hin
      simp only at hin
      omega
    simp only [relax, if_neg hcond, hvis, hu, hold, htent]

/-- C11 (witness): the move UP out of the node of cell (1,0) of `bendGlobals`,
which was reached by the move RIGHT: the bend is charged, the cost is
`1 + 1 * 0 + 3 = 4`, and the pass records the g-score `1 + 4 = 5` for cell
(1,1). -/
theorem move_cost_formula_witness :
    waveguideLoss bendGlobals Direction.RIGHT 0 0 = Dbl.fin 4 ∧
    relax listOpenSet bendGlobals ⟨2, 1⟩
      (.node ⟨1, 0⟩ (Dbl.fin (((1 : Nat) : ℚ) * pow2 0)) 3 Direction.RIGHT bendStart) 0
      bendSearchExpanding = some bendSearchRelaxed :=
  have h := move_cost_formula listOpenSet bendGlobals ⟨2, 1⟩ ⟨1, 0⟩ 1 3 Direction.RIGHT
    bendStart 0 bendSearchExpanding 0 dblMax 10 0 1 1 3
    ⟨by decide, by decide, by decide!, by decide!, by decide!, by decide, by decide,
      by decide, by decide, by decide⟩
    (by decide) (by decide) (by decide) (by decide) (by decide) (by decide) (by decide!)
  ⟨h.1.trans (by decide!), h.2.2.2.trans (by decide!)⟩

/-! ## The usage map built by `initialize` -/

theorem initialize_loopInput_usage :
    (initializeGlobals loopInput).map (fun g => g.cellUsage) = some [[2, 2], [0, 2]] := by
  decide!

/-! ## A net whose source is its destination -/

theorem unit_grid_routing :
    (aStarRouting listOpenSet unitGlobals unitNet).map
        (fun r => (r.1.cellUsage, r.2.path)) = some ([[3]], [⟨0, 0⟩]) := by
  decide!

/-! ## The half-perimeter wire length -/

/-- A call of `aStarRouting` changes no field of the net other than `path`. -/
theorem aStarRouting_fields (pq : OpenSet) (g g1 : Globals) (net net1 : Net)
    (h : aStarRouting pq g net = some (g1, net1)) :
    net1.id = net.id ∧ net1.source = net.source ∧ net1.destination = net.destination ∧
    net1.halfPerimeterWireLength = net.halfPerimeterWireLength := by
  unfold aStarRouting at h
  cases hs : search pq g net with
  | none => rw [hs] at h; exact absurd h (by simp)
  | some r =>
    obtain ⟨s, goal⟩ := r
    rw [hs] at h
    cases goal with
    | null =>
      simp only [Option.some.injEq, Prod.mk.injEq] at h
      rw [← h.2]
      exact ⟨rfl, rfl, rfl, rfl⟩
    | node pos gc fc dir par =>
      simp only at h
      cases hi : incrementUsage g.cellUsage
          (reversePath (NodePtr.node pos gc fc dir par)).reverse with
      | none => rw [hi] at h; exact absurd h (by simp)
      | some u =>
        rw [hi] at h
        simp only [Option.some.injEq, Prod.mk.injEq] at h
        rw [← h.2]
        exact ⟨rfl, rfl, rfl, rfl⟩

theorem routeAll_hpwl (pq : OpenSet) : ∀ (l : List Net) (g g1 : Globals)
    (routed : List Net), routeAll pq g l = some (g1, routed) →
    (∀ n ∈ l, HpwlOK n) → ∀ n ∈ routed, HpwlOK n := by
  intro l
  induction l with
  | nil =>
    intro g g1 routed h _ n hn
    simp only [routeAll, Option.some.injEq, Prod.mk.injEq] at h
    rw [← h.2] at hn
    exact absurd hn (List.not_mem_nil _)
  | cons net rest ih =>
    intro g g1 routed h hok n hn
    simp only [routeAll] at h
    cases ha : aStarRouting pq g net with
    | none => rw [ha] at h; exact absurd h (by simp)
    | some r =>
      obtain ⟨ga, neta⟩ := r
      rw [ha] at h
      simp only at h
      cases hb : routeAll pq ga rest with
      | none => rw [hb] at h; exact absurd h (by simp)
      | some r2 =>
        obtain ⟨gb, restb⟩ := r2
        rw [hb] at h
        simp only [Option.some.injEq, Prod.mk.injEq] at h
        rw [← h.2] at hn
        rcases List.mem_cons.1 hn with rfl | hn2
        · obtain ⟨_, e2, e3, e4⟩ := aStarRouting_fields pq g ga net n ha
          have := hok net (List.mem_cons_self _ _)
          unfold HpwlOK at this ⊢
          rw [e2, e3, e4]
          exact this
        · exact ih ga gb restb hb (fun m hm => hok m (List.mem_cons_of_mem _ hm)) n hn2

/-- The constructor sets the Manhattan distance when the `int` sum does not
wrap. -/
theorem new_hpwl (id : Int) (src dst : Point)
    (h : |src.x - dst.x| + |src.y - dst.y| < 2147483648) :
    (Net.new id src dst).halfPerimeterWireLength = |src.x - dst.x| + |src.y - dst.y| := by
  unfold Net.new
  exact manhattan32_of_small src dst h

theorem recordNet_hpwl (inp : Input) (hsize : inp.rows + inp.columns ≤ 2147483648)
    (hin : EndpointsInside inp) (r : Int × Int × Int × Int × Int) (hr : r ∈ inp.records) :
    HpwlOK (recordNet r) := by
  obtain ⟨⟨a1, a2, a3, a4⟩, b1, b2, b3, b4⟩ := hin r hr
  unfold HpwlOK manhattan
  have e1 : (recordNet r).halfPerimeterWireLength =
      manhattan32 (recordNet r).source (recordNet r).destination := rfl
  rw [e1]
  apply manhattan32_of_small
  rcases abs_cases ((recordNet r).source.x - (recordNet r).destination.x) with ⟨e, _⟩ | ⟨e, _⟩ <;>
  rcases abs_cases ((recordNet r).source.y - (recordNet r).destination.y) with ⟨e2, _⟩ | ⟨e2, _⟩ <;>
  omega

/-- C15 (counterexample): for the net with source (0,0) and destination
(2000000000, 2000000000) the constructor stores -294967296, while
`|source.x - destination.x| + |source.y - destination.y|` is 4000000000. -/
theorem hpwl_wraps :
    (Net.new 1 ⟨0, 0⟩ ⟨2000000000, 2000000000⟩).halfPerimeterWireLength = -294967296 ∧
    |(0 : Int) - 2000000000| + |(0 : Int) - 2000000000| = 4000000000 ∧
    (Net.new 1 ⟨0, 0⟩ ⟨2000000000, 2000000000⟩).halfPerimeterWireLength ≠
      |(Net.new 1 ⟨0, 0⟩ ⟨2000000000, 2000000000⟩).source.x -
          (Net.new 1 ⟨0, 0⟩ ⟨2000000000, 2000000000⟩).destination.x| +
        |(Net.new 1 ⟨0, 0⟩ ⟨2000000000, 2000000000⟩).source.y -
          (Net.new 1 ⟨0, 0⟩ ⟨2000000000, 2000000000⟩).destination.y| := by
  refine ⟨by decide, by decide, by decide⟩

/-- C15 (as amended): the `Net` constructor sets `halfPerimeterWireLength` to
`|source.x - destination.x| + |source.y - destination.y|` whenever that sum is
below `2^31` (so that the `int` addition does not wrap); `aStarRouting` leaves
the field (and both endpoints) as they are, the sort in `main` only rearranges
the nets, and so, for an input with `rows + columns ≤ 2^31` whose endpoints lie
inside the grid, every net still carries the Manhattan distance of its
endpoints after `main` has initialized, sorted and routed the nets. -/
theorem hpwl_is_manhattan (pq : OpenSet) (srt : SortAlgorithm) :
    (∀ (id : Int) (src dst : Point),
      |src.x - dst.x| + |src.y - dst.y| < 2147483648 →
      (Net.new id src dst).halfPerimeterWireLength =
        |src.x - dst.x| + |src.y - dst.y|) ∧
    (∀ g net g1 net1, aStarRouting pq g net = some (g1, net1) →
      net1.halfPerimeterWireLength = net.halfPerimeterWireLength ∧
      net1.source = net.source ∧ net1.destination = net.destination) ∧
    (∀ (nets : List Net) (n : Net), n ∈ srt.sort nets ↔ n ∈ nets) ∧
    (∀ inp g g1 routed, inp.rows + inp.columns ≤ 2147483648 → EndpointsInside inp →
      initializeGlobals inp = some g →
      routeAll pq { g with nets := routingOrder srt g.nets } (routingOrder srt g.nets) =
        some (g1, routed) →
      (∀ n ∈ g.nets, HpwlOK n) ∧ (∀ n ∈ routingOrder srt g.nets, HpwlOK n) ∧
      ∀ n ∈ routed, HpwlOK n) := by
  refine ⟨new_hpwl, ?_, fun nets n => (srt.perm nets).mem_iff, ?_⟩
  · intro g net g1 net1 h
    obtain ⟨_, e2, e3, e4⟩ := aStarRouting_fields pq g g1 net net1 h
    exact ⟨e4, e2, e3⟩
  · intro inp g g1 routed hsize hin hg hr
    have h1 : ∀ n ∈ g.nets, HpwlOK n := by
      intro n hn
      rw [initializeGlobals_nets inp g hg, List.mem_map] at hn
      obtain ⟨r, hr, rfl⟩ := hn
      exact recordNet_hpwl inp hsize hin r hr
    have h2 : ∀ n ∈ routingOrder srt g.nets, HpwlOK n := by
      intro n hn
      exact h1 n ((srt.perm g.nets).mem_iff.1 hn)
    exact ⟨h1, h2, routeAll_hpwl pq _ _ _ _ hr h2⟩

/-- C15 (witness): the constructor at the net from (0,0) to (2,1), and the
nets of `swapInput` after `main` has sorted and routed them. -/
theorem hpwl_is_manhattan_witness :
    (Net.new 1 ⟨0, 0⟩ ⟨2, 1⟩).halfPerimeterWireLength = |(0 : Int) - 2| + |(0 : Int) - 1| ∧
    ∀ n ∈ swapRouted, HpwlOK n :=
  have h := hpwl_is_manhattan listOpenSet insertionSortAlg
  ⟨h.1 1 ⟨0, 0⟩ ⟨2, 1⟩ (by decide),
    (h.2.2.2 swapInput swapGlobals swapGlobalsRouted swapRouted (by decide) (by decide)
      (by decide!) (by decide!)).2.2⟩

/-! ## Index safety -/

/-- C16: on a grid whose tables have the grid's dimensions, for every net
whose source lies inside the grid, `aStarRouting` is defined (the embedding
returns `none` as soon as an index into `cellUsage`, `gScores` or
`visitedCells` is out of range, during the search or the usage update), and
every point `(x, y)` of the stored path satisfies `0 ≤ x < columns` and
`0 ≤ y < rows` and is readable in all three tables. -/
theorem stored_path_in_grid (pq : OpenSet) (g : Globals) (net : Net)
    (hwf : WellFormed g) (hsrc : InGrid g net.source) :
    ∃ goal g1 net1, goalNode pq g net = some goal ∧
      aStarRouting pq g net = some (g1, net1) ∧
      (goal ≠ .null ∨ net.path = [] →
        ∀ p ∈ net1.path,
          (0 ≤ p.x ∧ p.x < g.columns ∧ 0 ≤ p.y ∧ p.y < g.rows) ∧
          (tget g.cellUsage p.y p.x).isSome ∧ (tget g1.cellUsage p.y p.x).isSome ∧
          (tget g1.gScores p.y p.x).isSome ∧ (tget g1.visitedCells p.y p.x).isSome) := by
  obtain ⟨goal, g1, net1, hgoal, hr⟩ := aStarRouting_total pq g net hwf hsrc
  refine ⟨goal, g1, net1, hgoal, hr, ?_⟩
  have hU : TableDims g g.cellUsage := tableDims_of_hasDims g _ hwf.1
  obtain ⟨path, hpath⟩ := aStarRouting_usage pq g g1 net net1 hr
  -- the tables of `g1` are those of the last loop state
  obtain ⟨s, goal2, hs, s0, hs0, _, hfin⟩ := search_spec pq g net hwf hsrc (fun _ => True)
    (fun _ _ _ _ _ => trivial) (fun _ _ _ _ _ _ _ => trivial)
  have hgoal2 : goal2 = goal := by
    unfold goalNode at hgoal
    rw [hs] at hgoal
    simpa using hgoal
  subst hgoal2
  have hsT : TableDims g s.gScores ∧ TableDims g s.visitedCells := by
    rcases hfin with ⟨_, e, _⟩ | hf
    · rw [e]
      exact ⟨hs0.1, hs0.2.1⟩
    · obtain ⟨pos, gc, fc, dir, par, q, vis, _, _, _, _, _, hvis, e⟩ :=
        iterate_found_cases pq g net.destination s0 s goal2 hf
      rw [e]
      exact ⟨hs0.1, tableDims_tset g _ _ _ _ _ hs0.2.1 hvis⟩
  have hg1 : g1.gScores = s.gScores ∧ g1.visitedCells = s.visitedCells := by
    unfold aStarRouting at hr
    rw [hs] at hr
    cases goal2 with
    | null =>
      simp only [Option.some.injEq, Prod.mk.injEq] at hr
      rw [← hr.1]
      exact ⟨rfl, rfl⟩
    | node pos gc fc dir par =>
      simp only at hr
      cases hi : incrementUsage g.cellUsage
          (reversePath (NodePtr.node pos gc fc dir par)).reverse with
      | none => rw [hi] at hr; exact absurd hr (by simp)
      | some u =>
        rw [hi] at hr
        simp only [Option.some.injEq, Prod.mk.injEq] at hr
        rw [← hr.1]
        exact ⟨rfl, rfl⟩
  have hall : ∀ p, InGrid g p →
      (0 ≤ p.x ∧ p.x < g.columns ∧ 0 ≤ p.y ∧ p.y < g.rows) ∧
      (tget g.cellUsage p.y p.x).isSome ∧ (tget g1.cellUsage p.y p.x).isSome ∧
      (tget g1.gScores p.y p.x).isSome ∧ (tget g1.visitedCells p.y p.x).isSome := by
    intro p hp
    refine ⟨hp, (hU p.y p.x).2 hp, ?_, ?_, ?_⟩
    · rw [hpath p.y p.x, Option.isSome_map']
      exact (hU p.y p.x).2 hp
    · rw [hg1.1]
      exact (hsT.1 p.y p.x).2 hp
    · rw [hg1.2]
      exact (hsT.2 p.y p.x).2 hp
  intro hcase p hp
  apply hall
  by_cases hnn : goal2 = .null
  · subst hnn
    obtain ⟨_, _, ha⟩ := aStarRouting_of_goal pq g net .null hgoal
    rw [hr] at ha
    simp only [Option.some.injEq, Prod.mk.injEq] at ha
    rcases hcase with h | h
    · exact absurd rfl h
    · rw [ha.2, h] at hp
      exact absurd hp (List.not_mem_nil _)
  · obtain ⟨e, _, hok, _, _⟩ := aStarRouting_success pq g g1 net net1 goal2 hgoal hnn hr
    rw [e] at hp
    simp only [List.mem_reverse] at hp
    rcases (nodeOK_path g net goal2 hok).2.2.2 p hp with rfl | h
    · exact hsrc
    · exact h

/-- C16 (witness): the 2x1 grid with the net from (0,0) to (1,0). -/
theorem stored_path_in_grid_witness :
    ∃ goal g1 net1, goalNode listOpenSet lineGlobals lineNet = some goal ∧
      aStarRouting listOpenSet lineGlobals lineNet = some (g1, net1) ∧
      (goal ≠ .null ∨ lineNet.path = [] →
        ∀ p ∈ net1.path,
          (0 ≤ p.x ∧ p.x < lineGlobals.columns ∧ 0 ≤ p.y ∧ p.y < lineGlobals.rows) ∧
          (tget lineGlobals.cellUsage p.y p.x).isSome ∧ (tget g1.cellUsage p.y p.x).isSome ∧
          (tget g1.gScores p.y p.x).isSome ∧ (tget g1.visitedCells p.y p.x).isSome) :=
  stored_path_in_grid listOpenSet lineGlobals lineNet (by decide) (by decide)

/-! ## Stale per-cell tables -/

theorem fillRows_eq_assign {α : Type} (rows columns : Int) (t : List (List α)) (v : α)
    (h : HasDims t rows columns) :
    fillRows rows.toNat t v = some (assignTable rows columns v) := by
  rw [← h.1, fillRows_full]
  congr 1
  unfold assignTable
  rw [List.eq_replicate_iff]
  refine ⟨by rw [List.length_map, h.1], ?_⟩
  intro row hrow
  obtain ⟨r, hr, rfl⟩ := List.mem_map.1 hrow
  rw [h.2 r hr]

theorem relax_stale (pq : OpenSet) (g : Globals) (gs : List (List Dbl))
    (vis : List (List Bool)) (nets : List Net) (dest : Point) (cur : NodePtr) (i : Nat)
    (s : Search pq) :
    relax pq { g with gScores := gs, visitedCells := vis, nets := nets } dest cur i s =
      relax pq g dest cur i s := rfl

theorem iterate_stale (pq : OpenSet) (g : Globals) (gs : List (List Dbl))
    (vis : List (List Bool)) (nets : List Net) (dest : Point) (s : Search pq) :
    iterate pq { g with gScores := gs, visitedCells := vis, nets := nets } dest s =
      iterate pq g dest s := rfl

theorem aStarLoop_stale (pq : OpenSet) (g : Globals) (gs : List (List Dbl))
    (vis : List (List Bool)) (nets : List Net) (dest : Point) :
    ∀ (fuel : Nat) (s : Search pq),
      aStarLoop pq { g with gScores := gs, visitedCells := vis, nets := nets } dest fuel s =
        aStarLoop pq g dest fuel s := by
  intro fuel
  induction fuel with
  | zero => intro s; rfl
  | succ n ih =>
    intro s
    rw [aStarLoop, aStarLoop, iterate_stale]
    cases iterate pq g dest s with
    | undefined => rfl
    | exhausted => rfl
    | found s1 goal => rfl
    | next s1 => exact ih s1

/-- The search does not read what the per-cell tables held before the call. -/
theorem search_stale (pq : OpenSet) (g : Globals) (gs : List (List Dbl))
    (vis : List (List Bool)) (nets : List Net) (net : Net)
    (h1 : HasDims g.gScores g.rows g.columns) (h2 : HasDims g.visitedCells g.rows g.columns)
    (h3 : HasDims gs g.rows g.columns) (h4 : HasDims vis g.rows g.columns) :
    search pq { g with gScores := gs, visitedCells := vis, nets := nets } net =
      search pq g net := by
  have hi : initialSearch pq { g with gScores := gs, visitedCells := vis, nets := nets } net =
      initialSearch pq g net := by
    unfold initialSearch
    simp only
    rw [fillRows_eq_assign g.rows g.columns gs dblMax h3,
      fillRows_eq_assign g.rows g.columns vis false h4,
      fillRows_eq_assign g.rows g.columns g.gScores dblMax h1,
      fillRows_eq_assign g.rows g.columns g.visitedCells false h2]
  unfold search
  rw [hi]
  cases initialSearch pq g net with
  | none => rfl
  | some s0 => exact aStarLoop_stale pq g gs vis nets net.destination _ s0

/-- C17: the result of `aStarRouting` does not depend on what an earlier
search left in the per-cell tables: two states that agree on grid size,
coefficients and usage map, and whose `gScores` and `visitedCells` have the
grid's dimensions but arbitrary contents, give the same net (hence the same
path), the same resulting usage map and the same resulting per-cell tables. -/
theorem stale_tables_irrelevant (pq : OpenSet) (g g2 : Globals) (net : Net)
    (hrows : g2.rows = g.rows) (hcols : g2.columns = g.columns)
    (hP : g2.propagationLoss = g.propagationLoss) (hC : g2.crossingLoss = g.crossingLoss)
    (hB : g2.bendingLoss = g.bendingLoss) (hU : g2.cellUsage = g.cellUsage)
    (h1 : HasDims g.gScores g.rows g.columns) (h2 : HasDims g.visitedCells g.rows g.columns)
    (h3 : HasDims g2.gScores g.rows g.columns)
    (h4 : HasDims g2.visitedCells g.rows g.columns) :
    (aStarRouting pq g2 net).map
        (fun r => (r.2, r.1.cellUsage, r.1.gScores, r.1.visitedCells)) =
      (aStarRouting pq g net).map
        (fun r => (r.2, r.1.cellUsage, r.1.gScores, r.1.visitedCells)) := by
  have e : g2 = { g with gScores := g2.gScores, visitedCells := g2.visitedCells,
                         nets := g2.nets } := by
    cases g2
    simp only at hrows hcols hP hC hB hU
    subst hrows hcols hP hC hB hU
    rfl
  rw [e]
  unfold aStarRouting
  rw [search_stale pq g g2.gScores g2.visitedCells g2.nets net h1 h2 h3 h4]
  cases search pq g net with
  | none => rfl
  | some r =>
    obtain ⟨s, goal⟩ := r
    cases goal with
    | null => rfl
    | node pos gc fc dir par =>
      simp only
      cases incrementUsage g.cellUsage (reversePath (NodePtr.node pos gc fc dir par)).reverse with
      | none => rfl
      | some u => rfl

/-- C17 (witness): `lineGlobals` with fresh and with stale tables. -/
theorem stale_tables_irrelevant_witness :
    (aStarRouting listOpenSet lineGlobalsStale lineNet).map
        (fun r => (r.2, r.1.cellUsage, r.1.gScores, r.1.visitedCells)) =
      (aStarRouting listOpenSet lineGlobals lineNet).map
        (fun r => (r.2, r.1.cellUsage, r.1.gScores, r.1.visitedCells)) :=
  stale_tables_irrelevant listOpenSet lineGlobals lineGlobalsStale lineNet rfl rfl rfl rfl
    rfl rfl (by decide) (by decide) (by decide) (by decide)

/-! ## Stored paths are simple -/

/-- More fuel does not change a result the loop already produced. -/
theorem aStarLoop_fuel_mono (pq : OpenSet) (g : Globals) (dest : Point) :
    ∀ (fuel k : Nat) (s : Search pq) (r : Search pq × NodePtr),
      aStarLoop pq g dest fuel s = some r → aStarLoop pq g dest (fuel + k) s = some r := by
  intro fuel
  induction fuel with
  | zero => intro k s r h; rw [aStarLoop] at h; exact absurd h (by simp)
  | succ n ih =>
    intro k s r h
    rw [show n + 1 + k = (n + k) + 1 by omega, aStarLoop]
    rw [aStarLoop] at h
    cases hi : iterate pq g dest s with
    | undefined => rw [hi] at h; exact absurd h (by simp)
    | exhausted => rw [hi] at h; exact h
    | found s1 goal => rw [hi] at h; exact h
    | next s1 =>
      rw [hi] at h
      exact ih k s1 r h

/-- On a well-formed grid with the source inside it, the loop starts in a
shaped state whose termination measure is below the fuel. -/
theorem initialSearch_shaped (pq : OpenSet) (g : Globals) (net : Net) (hwf : WellFormed g)
    (hsrc : InGrid g net.source) :
    ∃ s0, initialSearch pq g net = some s0 ∧ Shaped pq g net s0 ∧
      potential pq g s0 < loopFuel g := by
  obtain ⟨_, hg, hv⟩ := hwf
  obtain ⟨gs0, e1, d1, _⟩ := fillRows_hasDims g g.gScores dblMax hg
  obtain ⟨vis0, e2, d2, _⟩ := fillRows_hasDims g g.visitedCells false hv
  have t1 := tableDims_of_hasDims g gs0 d1
  have t2 := tableDims_of_hasDims g vis0 d2
  obtain ⟨w, hw⟩ := tget_of_inGrid g gs0 t1 _ hsrc
  obtain ⟨gs1, hgs1⟩ := tset_of_tget gs0 _ _ (0 : Dbl) w hw
  refine ⟨{ openSet := pq.push pq.empty
              (.node net.source 0 (heuristic g.propagationLoss net.source net.destination)
                Direction.NONE .null),
            gScores := gs1, visitedCells := vis0 }, ?_, ?_, ?_⟩
  · unfold initialSearch
    rw [e1, e2]
    simp only
    rw [hgs1]
  · exact ⟨tableDims_tset g _ _ _ _ _ t1 hgs1, t2, basic_init pq g net gs1 vis0⟩
  · unfold potential loopFuel
    simp only
    rw [(pq.toList_push _ _).length_eq, List.length_cons, pq.toList_empty, List.length_nil]
    have := unvisited_card_le g vis0
    have e : 4 * g.rows.toNat * g.columns.toNat = 4 * (g.rows.toNat * g.columns.toNat) := by
      ring
    omega

/-- C20: the main loop of `aStarRouting` terminates on every well-formed
grid, for every usage map, all loss coefficients and every net whose source
is inside the grid.  The loop starts in a state `s0` whose measure (entries of
the open set plus four per cell not yet finalized) is below
`4 * rows * columns + 2`; every continuing iteration keeps the shape invariant
and strictly lowers the measure, and no iteration is undefined; so the loop
returns a result, and it returns the same result for every amount of fuel
above the initial measure: the search is a total function of its inputs. -/
theorem search_terminates (pq : OpenSet) (g : Globals) (net : Net) (hwf : WellFormed g)
    (hsrc : InGrid g net.source) :
    ∃ s0 r, initialSearch pq g net = some s0 ∧ Shaped pq g net s0 ∧
      potential pq g s0 < loopFuel g ∧
      search pq g net = some r ∧
      (∀ fuel, potential pq g s0 < fuel →
        aStarLoop pq g net.destination fuel s0 = some r) ∧
      (∀ s, Shaped pq g net s → iterate pq g net.destination s ≠ .undefined) ∧
      (∀ s s1, Shaped pq g net s → iterate pq g net.destination s = .next s1 →
        Shaped pq g net s1 ∧ potential pq g s1 < potential pq g s) := by
  have hU : TableDims g g.cellUsage := tableDims_of_hasDims g _ hwf.1
  obtain ⟨s0, hinit, hshaped, hpot⟩ := initialSearch_shaped pq g net hwf hsrc
  obtain ⟨r, hr⟩ := aStarLoop_total pq g net hU hsrc (potential pq g s0 + 1) s0 hshaped
    (Nat.lt_succ_self _)
  have hall : ∀ fuel, potential pq g s0 < fuel →
      aStarLoop pq g net.destination fuel s0 = some r := by
    intro fuel hf
    have e : fuel = potential pq g s0 + 1 + (fuel - (potential pq g s0 + 1)) := by omega
    rw [e]
    exact aStarLoop_fuel_mono pq g net.destination _ _ s0 r hr
  refine ⟨s0, r, hinit, hshaped, hpot, ?_, hall, ?_, ?_⟩
  · unfold search
    rw [hinit]
    exact hall _ hpot
  · intro s hs hu
    rcases iterate_progress pq g net hU hsrc s hs with he | ⟨s1, gl, hf⟩ | ⟨s1, hn, _, _⟩
    · rw [he] at hu; exact absurd hu (by simp)
    · rw [hf] at hu; exact absurd hu (by simp)
    · rw [hn] at hu; exact absurd hu (by simp)
  · intro s s1 hs hit
    rcases iterate_progress pq g net hU hsrc s hs with he | ⟨s2, gl, hf⟩ | ⟨s2, hn, hs2, hlt⟩
    · rw [he] at hit; exact absurd hit (by simp)
    · rw [hf] at hit; exact absurd hit (by simp)
    · rw [hn] at hit
      simp only [Iteration.next.injEq] at hit
      subst hit
      exact ⟨hs2, hlt⟩

/-- C20 (witness): the 2x1 grid with the net from (0,0) to (1,0). -/
theorem search_terminates_witness :
    ∃ s0 r, initialSearch listOpenSet lineGlobals lineNet = some s0 ∧
      Shaped listOpenSet lineGlobals lineNet s0 ∧
      potential listOpenSet lineGlobals s0 < loopFuel lineGlobals ∧
      search listOpenSet lineGlobals lineNet = some r ∧
      (∀ fuel, potential listOpenSet lineGlobals s0 < fuel →
        aStarLoop listOpenSet lineGlobals lineNet.destination fuel s0 = some r) ∧
      (∀ s, Shaped listOpenSet lineGlobals lineNet s →
        iterate listOpenSet lineGlobals lineNet.destination s ≠ .undefined) ∧
      (∀ s s1, Shaped listOpenSet lineGlobals lineNet s →
        iterate listOpenSet lineGlobals lineNet.destination s = .next s1 →
        Shaped listOpenSet lineGlobals lineNet s1 ∧
          potential listOpenSet lineGlobals s1 < potential listOpenSet lineGlobals s) :=
  search_terminates listOpenSet lineGlobals lineNet (by decide) (by decide)

/-! ## Minimum cost without bend penalty, for every tie-breaking -/

theorem totalCost_eq_entryCost (g : Globals) (hU : UsageNonneg g) (path : List Point) :
    totalCost g path = entryCost g path := by
  unfold totalCost entryCost
  congr 1
  apply List.map_congr_left
  intro p _
  unfold cellCost
  rw [max_eq_right (usageAt_nonneg g hU p)]

/-- C18 (counterexample): on the 3x2 grid with `propagation loss 0.15`,
`crossing loss 0.1`, `bending loss 0` and usage counters 2, 9, 0 (row 0) and
0, 3, 3 (row 1), for the net from (0,0) to (2,0), every priority queue makes
`aStarRouting` store the path (0,0), (1,0), (2,0), although the in-grid
4-connected path (0,0), (0,1), (1,1), (2,1), (2,0) has a smaller total cost:
the g-scores are rounded sums, and no two f-scores ever tie. -/
theorem rounding_path_not_optimal :
    0 ≤ roundGlobals.propagationLoss.val ∧ 0 ≤ roundGlobals.crossingLoss.val ∧
    roundGlobals.bendingLoss = 0 ∧ UsageNonneg roundGlobals ∧ WellFormed roundGlobals ∧
    InGrid roundGlobals roundNet.source ∧ InGrid roundGlobals roundNet.destination ∧
    IsRoute roundGlobals roundNet.source roundNet.destination
      [⟨0, 0⟩, ⟨0, 1⟩, ⟨1, 1⟩, ⟨2, 1⟩, ⟨2, 0⟩] ∧
    ∀ pq : OpenSet, ∃ g1 net1,
      aStarRouting pq roundGlobals roundNet = some (g1, net1) ∧
      net1.path = [⟨0, 0⟩, ⟨1, 0⟩, ⟨2, 0⟩] ∧
      totalCost roundGlobals [⟨0, 0⟩, ⟨0, 1⟩, ⟨1, 1⟩, ⟨2, 1⟩, ⟨2, 0⟩] <
        totalCost roundGlobals net1.path := by
  refine ⟨by decide!, by decide!, by decide!, by decide, by decide, by decide, by decide,
    by decide, ?_⟩
  intro pq
  have h1 : (aStarRouting listOpenSet roundGlobals roundNet).map (fun r => r.2.path) =
      some [⟨0, 0⟩, ⟨1, 0⟩, ⟨2, 0⟩] := by decide!
  cases h : aStarRouting listOpenSet roundGlobals roundNet with
  | none =>
    rw [h] at h1
    exact absurd h1 (by simp)
  | some r =>
    obtain ⟨g1, net1⟩ := r
    rw [h] at h1
    simp only [Option.map_some', Option.some.injEq] at h1
    refine ⟨g1, net1, aStarRouting_tieFree pq roundGlobals roundNet (by decide!) _ h, h1, ?_⟩
    rw [h1]
    decide!

/-- C18 (as amended): when `bendingLoss = 0`, no usage counter is negative and
no operation of the search rounds (`propagationLoss` and `crossingLoss` the
non-negative multiples `p`, `c` of one power of two `2^t`, no usage counter
above `U`, `2 * rows * columns * (p + c * U) ≤ 2^53`), on a well-formed grid
with source and destination inside it, for every priority queue
`aStarRouting` stores a path, and that path is a 4-connected in-grid path from
source to destination whose total cost (`propagationLoss` per step plus
`crossingLoss` times the usage of each entered cell) is the minimum over all
such paths.  The tie-breaking of the priority queue does not matter: a second
priority queue `pq2` also stores a path, of the same total cost. -/
theorem min_cost_any_tie_order (pq pq2 : OpenSet) (g : Globals) (net : Net) (U t : Int)
    (p c : Nat) (hwf : WellFormed g) (hsrc : InGrid g net.source)
    (hdst : InGrid g net.destination) (reg : ExactRegime g U t p c 0)
    (hU : UsageNonneg g) :
    ∃ goal g1 net1, goalNode pq g net = some goal ∧ goal ≠ .null ∧
      aStarRouting pq g net = some (g1, net1) ∧
      IsRoute g net.source net.destination net1.path ∧
      (∀ path, IsRoute g net.source net.destination path →
        totalCost g net1.path ≤ totalCost g path) ∧
      ∃ goal2 g2 net2, goalNode pq2 g net = some goal2 ∧ goal2 ≠ .null ∧
        aStarRouting pq2 g net = some (g2, net2) ∧
        totalCost g net2.path = totalCost g net1.path := by
  obtain ⟨goal, g1, net1, hgoal, hr⟩ := aStarRouting_total pq g net hwf hsrc
  obtain ⟨goal2, g2, net2, hgoal2, hr2⟩ := aStarRouting_total pq2 g net hwf hsrc
  have hnn := goal_nonnull_of_regime pq g net U t p c 0 hwf hsrc hdst reg goal hgoal
  have hnn2 := goal_nonnull_of_regime pq2 g net U t p c 0 hwf hsrc hdst reg goal2 hgoal2
  obtain ⟨hroute, _, hmin⟩ :=
    stored_route_least pq g g1 net net1 goal U t p c hwf hsrc hdst reg hgoal hnn hr
  obtain ⟨hroute2, _, hmin2⟩ :=
    stored_route_least pq2 g g2 net net2 goal2 U t p c hwf hsrc hdst reg hgoal2 hnn2 hr2
  refine ⟨goal, g1, net1, hgoal, hnn, hr, hroute, ?_, goal2, g2, net2, hgoal2, hnn2, hr2, ?_⟩
  · intro path hpath
    rw [totalCost_eq_entryCost g hU, totalCost_eq_entryCost g hU]
    exact hmin path hpath
  · rw [totalCost_eq_entryCost g hU, totalCost_eq_entryCost g hU]
    exact le_antisymm (hmin2 _ hroute) (hmin _ hroute2)

/-- C18 (witness): the 3x3 grid with coefficients 1, 0, 0 (unit `2^0`) and the
net from (0,0) to (2,2), for the two list queues. -/
theorem min_cost_any_tie_order_witness :
    ∃ goal g1 net1, goalNode listOpenSet squareGlobals squareNet = some goal ∧
      goal ≠ .null ∧
      aStarRouting listOpenSet squareGlobals squareNet = some (g1, net1) ∧
      IsRoute squareGlobals squareNet.source squareNet.destination net1.path ∧
      (∀ path, IsRoute squareGlobals squareNet.source squareNet.destination path →
        totalCost squareGlobals net1.path ≤ totalCost squareGlobals path) ∧
      ∃ goal2 g2 net2, goalNode appendOpenSet squareGlobals squareNet = some goal2 ∧
        goal2 ≠ .null ∧
        aStarRouting appendOpenSet squareGlobals squareNet = some (g2, net2) ∧
        totalCost squareGlobals net2.path = totalCost squareGlobals net1.path :=
  min_cost_any_tie_order listOpenSet appendOpenSet squareGlobals squareNet 1 0 1 0
    (by decide) (by decide) (by decide)
    ⟨by decide, by decide, by decide!, by decide!, by decide!, by decide, by decide,
      by decide, by decide, by decide⟩
    (by decide)

/-! ## Point count of the stored path without crossing and bend penalties -/

/-- The example of the specification: on the 3x3 grid with the net from (0,0)
to (2,2) and propagation loss 1, the program writes the header `1 4` and four
segments, with either of the two list queues. -/
theorem square_output :
    initializeGlobals squareInput = some squareGlobals ∧
    (main listOpenSet insertionSortAlg squareInput).map
        (fun out => out.map fun e => (e.id, e.segmentCount, e.segments.length)) =
      some [(1, 4, 4)] ∧
    (main appendOpenSet insertionSortAlg squareInput).map
        (fun out => out.map fun e => (e.id, e.segmentCount, e.segments.length)) =
      some [(1, 4, 4)] := by
  refine ⟨by decide!, by decide!, by decide!⟩

end Router
